import Mathlib

/-!
# Measurement creation of traccc: cluster statistics and measurement records

A shallow embedding of

* `core/include/traccc/clusterization/impl/measurement_creation.ipp`
  (`signal_cell_modelling`, `position_from_cell`, `calc_cluster_properties`,
  `fill_measurement`), and
* `device/common/include/traccc/clusterization/device/impl/aggregate_cluster.ipp`
  (`aggregate_cluster`),
* `io/include/traccc/io/digitization_config.hpp` (`digitization_config::get`),
  `io/src/read_detector_description.cpp` (`read_json_dd_impl`), and
* `io/src/json/write_digitization_config.cpp` (`to_json`) with
  `io/src/json/read_digitization_config.cpp` (`read_digitization_config`).

Conventions of the embedding.

* `scalar` is modelled by the rationals: all statements are about exact
  arithmetic, rounding of `float` is not modelled.
* Unsigned integers are natural numbers; where the source subtracts or adds
  them in a way that may wrap, the model reduces modulo `2^32 = 4294967296`
  (or `2^16 = 65536` for `unsigned short`).
* A checked access `.at(i)` outside the container, and a failed `assert`,
  end the computation: the model returns `none`, respectively an error value.
  So the model follows a build with assertions enabled.
* A quotient with denominator zero is 0 in the model, where the source would
  produce a value that is not finite. The only denominator that can vanish
  is the running total weight, and it cannot when the threshold is not
  negative; the statements about the mean assume that.
* `calc_cluster_properties` stores channel numbers in `std::vector<int>`;
  channel numbers are taken to fit in `int`, so that conversion is the
  identity and the extents are computed in the integers.
* A `std::map` or `std::unordered_map` is a list of pairs with each key once;
  `operator[]` on a missing key adds it with the value-initialised value. An
  unchecked access `v[i]` outside the vector, and an assignment through a
  null pointer, end the computation like a failed check.
-/

namespace traccc

/-- A pair of scalars (`point2`, `vector2`). -/
abbrev point2 := ℚ × ℚ

/-- One entry of `edm::silicon_cell_collection`. -/
structure Cell where
  channel0 : Nat
  channel1 : Nat
  activation : ℚ
  module_index : Nat
deriving DecidableEq, Repr

/-- One entry of `detector_design_description`: the columns read by the
measurement creation. -/
structure Design where
  bin_edges_x : List ℚ
  bin_edges_y : List ℚ
  dimensions : Nat
  subspace : Nat × Nat
deriving DecidableEq, Repr

/-- One entry of `detector_conditions_description`. -/
structure Conditions where
  module_to_design_id : Nat
  geometry_id : Nat
  threshold : ℚ
  measurement_translation : point2
deriving DecidableEq, Repr

/-- One entry of `edm::measurement_collection`. -/
structure Measurement where
  surface_link : Nat
  local_position : point2
  local_variance : point2
  identifier : Nat
  cluster_index : Nat
  dimensions : Nat
  subspace : Nat × Nat
  diameter : ℚ
deriving DecidableEq, Repr

/-- The function `signal_cell_modelling`: the second argument (the conditions
of the module) is not used. -/
def signal_cell_modelling {T : Type} (signal_in : ℚ) (_cd : T) : ℚ :=
  signal_in

/-- The function `position_from_cell`: the returned pair is (the value
returned, the value written through `cell_width`). The four `.at` accesses
are checked. -/
def position_from_cell (cell : Cell) (module_dd : Design) : Option (point2 × point2) :=
  match module_dd.bin_edges_x[cell.channel0]?, module_dd.bin_edges_y[cell.channel1]?,
        module_dd.bin_edges_x[cell.channel0 + 1]?,
        module_dd.bin_edges_y[cell.channel1 + 1]? with
  | some lx, some ly, some ux, some uy =>
      some (((1 / 2 : ℚ) * (ux + lx), (1 / 2 : ℚ) * (uy + ly)), (ux - lx, uy - ly))
  | _, _, _, _ => none

/-- The variables of `calc_cluster_properties` that live across loop
iterations: the three in/out parameters and the four locals. -/
structure ClusterProps where
  mean : point2
  var : point2
  totalWeight : ℚ
  offset : point2
  first_processed : Bool
  phiIndices : List Int
  etaIndices : List Int
deriving DecidableEq, Repr

/-- One pass of the loop body of `calc_cluster_properties` for a cell that
has already been fetched. -/
def calc_cell (module_dd : Design) (module_cd : Conditions) (s : ClusterProps)
    (cell : Cell) : Option ClusterProps :=
  let s1 := { s with phiIndices := s.phiIndices ++ [(cell.channel0 : Int)],
                     etaIndices := s.etaIndices ++ [(cell.channel1 : Int)] }
  let weight := signal_cell_modelling cell.activation module_cd
  if weight > module_cd.threshold then
    let totalWeight := s1.totalWeight + weight
    let weight_factor := weight / totalWeight
    match position_from_cell cell module_dd with
    | none => none
    | some (cell_position0, cell_width) =>
      let offset := if s1.first_processed then s1.offset else cell_position0
      let cell_position : point2 := (cell_position0.1 - offset.1, cell_position0.2 - offset.2)
      let diff_old : point2 := (cell_position.1 - s1.mean.1, cell_position.2 - s1.mean.2)
      let mean : point2 := (s1.mean.1 + diff_old.1 * weight_factor,
                            s1.mean.2 + diff_old.2 * weight_factor)
      some { s1 with totalWeight := totalWeight, offset := offset, first_processed := true,
                     mean := mean,
                     var := (s1.var.1 + cell_width.1, s1.var.2 + cell_width.2) }
  else
    some s1

/-- The loop of `calc_cluster_properties` over the cell indices of the
cluster; `cells.at(cell_idx)` is checked. -/
def calc_loop (cells : List Cell) (module_dd : Design) (module_cd : Conditions) :
    List Nat → ClusterProps → Option ClusterProps
  | [], s => some s
  | cell_idx :: rest, s =>
    match cells[cell_idx]? with
    | none => none
    | some cell =>
      match calc_cell module_dd module_cd s cell with
      | none => none
      | some s' => calc_loop cells module_dd module_cd rest s'

/-- The expression `std::ranges::max(v) - std::ranges::min(v) + 1`; the range
functions have no value on an empty vector. -/
def index_span : List Int → Option Int
  | [] => none
  | a :: l => some ((a :: l).foldl max a - (a :: l).foldl min a + 1)

/-- The function `calc_cluster_properties`. The in/out parameters `mean`,
`var` and `totalWeight` are arguments and are returned in the result
(fields `mean`, `var`, `totalWeight`). -/
def calc_cluster_properties (cluster : List Nat) (cells : List Cell) (module_dd : Design)
    (module_cd : Conditions) (mean var : point2) (totalWeight : ℚ) : Option ClusterProps :=
  match calc_loop cells module_dd module_cd cluster
      { mean := mean, var := var, totalWeight := totalWeight, offset := (0, 0),
        first_processed := false, phiIndices := [], etaIndices := [] } with
  | none => none
  | some s =>
    match index_span s.phiIndices, index_span s.etaIndices with
    | some n0, some n1 =>
      some { s with var := (s.var.1 / (n0 : ℚ), s.var.2 / (n1 : ℚ)),
                    mean := (s.mean.1 + s.offset.1, s.mean.2 + s.offset.2) }
    | _, _ => none

/-- Ways in which `fill_measurement` ends without filling the measurement. -/
inductive Fault where
  | assert_nonempty
  | assert_same_module
  | assert_total_weight
  | out_of_range
deriving DecidableEq, Repr

/-- The loop inside the second entry assertion of `fill_measurement`: it
returns false at the first listed cell that is on another module than
`module_idx` (`none`: an access was out of range). -/
def all_on_module (cells : List Cell) (module_idx : Nat) : List Nat → Option Bool
  | [] => some true
  | cell_idx :: rest =>
    match cells[cell_idx]? with
    | none => none
    | some c =>
      if c.module_index ≠ module_idx then some false
      else all_on_module cells module_idx rest

/-- The second entry assertion of `fill_measurement`: every listed cell has
the module index of the first listed cell. -/
def same_module_check (cells : List Cell) (cluster : List Nat) : Option Bool :=
  match cluster.head?.bind (fun i => cells[i]?) with
  | none => none
  | some c0 => all_on_module cells c0.module_index cluster

/-- The function `fill_measurement`; the measurement passed in is the
content of the output record before the call. -/
def fill_measurement (measurement : Measurement) (cluster : List Nat) (index : Nat)
    (cells : List Cell) (det_descr : List Design) (det_cond : List Conditions) :
    Except Fault Measurement :=
  if cluster.isEmpty then .error .assert_nonempty else
  match same_module_check cells cluster with
  | none => .error .out_of_range
  | some false => .error .assert_same_module
  | some true =>
    match cluster.head?.bind (fun i => cells[i]?) with
    | none => .error .out_of_range
    | some c0 =>
      let module_idx := c0.module_index
      match det_cond[module_idx]? with
      | none => .error .out_of_range
      | some module_cd =>
        let design_idx := module_cd.module_to_design_id
        match det_descr[design_idx]? with
        | none => .error .out_of_range
        | some module_dd =>
          match calc_cluster_properties cluster cells module_dd module_cd (0, 0) (0, 0) 0 with
          | none => .error .out_of_range
          | some p =>
            if p.totalWeight > 0 then
              let shift := module_cd.measurement_translation
              .ok { measurement with
                    surface_link := module_cd.geometry_id,
                    local_position := (p.mean.1 + shift.1, p.mean.2 + shift.2),
                    local_variance := (p.var.1 * p.var.1 / 12, p.var.2 * p.var.2 / 12),
                    identifier := index,
                    cluster_index := index,
                    dimensions := module_dd.dimensions,
                    subspace := module_dd.subspace }
            else .error .assert_total_weight

/-! ### The partitioned builder: `aggregate_cluster` -/

/-- Modelled from the spec: the enumeration `clustering_diameter_strategy`,
whose declaration is not among the sources; the specification lists its four
values. -/
inductive clustering_diameter_strategy where
  | CHANNEL0
  | CHANNEL1
  | MAXIMUM
  | DIAGONAL
deriving DecidableEq, Repr

/-- Modelled from the spec: the type `clustering_config`, whose declaration is
not among the sources; `aggregate_cluster` reads its `diameter_strategy`. -/
structure clustering_config where
  diameter_strategy : clustering_diameter_strategy
deriving DecidableEq, Repr

/-- Modelled from the spec: one entry of `silicon_detector_description`, whose
declaration is not among the sources. It carries the columns that
`aggregate_cluster` reads from `module_descr`, and the bin edges that
`position_from_cell` reads for a cell of the module. -/
structure SiliconModule where
  geometry_id : Nat
  threshold : ℚ
  measurement_translation : point2
  dimensions : Nat
  subspace : Nat × Nat
  bin_edges_x : List ℚ
  bin_edges_y : List ℚ
deriving DecidableEq, Repr

/-- The design view of a module entry that `position_from_cell` is given. -/
def SiliconModule.design (m : SiliconModule) : Design :=
  { bin_edges_x := m.bin_edges_x, bin_edges_y := m.bin_edges_y,
    dimensions := m.dimensions, subspace := m.subspace }

/-- The values that the running channel bounds of `aggregate_cluster` start
from. The source initialises `min_channel0` and `min_channel1` with
`std::numeric_limits<scalar>::lowest()` and `max_channel0` and `max_channel1`
with `std::numeric_limits<scalar>::max()`, both converted to `unsigned int`.
Neither value is in the range of `unsigned int`, so the language does not fix
the result of the conversion: the two results are parameters of the model. -/
structure ChannelSeed where
  from_lowest : Nat
  from_max : Nat
deriving DecidableEq, Repr

/-- The seed of a target whose conversion saturates: the most negative scalar
becomes 0, the largest scalar becomes `2^32 - 1`. -/
def saturating_seed : ChannelSeed :=
  { from_lowest := 0, from_max := 4294967295 }

/-- The variables of `aggregate_cluster` that live across loop iterations,
with the three containers it writes. -/
structure AggState where
  totalWeight : ℚ
  mean : point2
  var : point2
  offset : point2
  min_channel0 : Nat
  max_channel0 : Nat
  min_channel1 : Nat
  max_channel1 : Nat
  tmp_cluster_size : Nat
  first_processed : Bool
  maxChannel1 : Nat
  cell_links : List Nat
  disjoint_set : List Nat
  cluster_size : Option Nat
deriving DecidableEq, Repr

/-- How one pass of a loop body ends: at the end of the body, or at a
`break`. -/
inductive LoopStep (σ : Type) where
  | next (s : σ)
  | stop (s : σ)

/-- The block of `aggregate_cluster` guarded by `weight > threshold`. -/
def aggregate_accept (module_descr : SiliconModule) (cell : Cell) (weight : ℚ)
    (s : AggState) : Option AggState :=
  let totalWeight := s.totalWeight + weight
  let weight_factor := weight / totalWeight
  match position_from_cell cell module_descr.design with
  | none => none
  | some (cell_position0, cell_width) =>
    let offset := if s.first_processed then s.offset else cell_position0
    let cell_position : point2 := (cell_position0.1 - offset.1, cell_position0.2 - offset.2)
    let diff_old : point2 := (cell_position.1 - s.mean.1, cell_position.2 - s.mean.2)
    some { s with
      totalWeight := totalWeight,
      min_channel0 := min s.min_channel0 cell.channel0,
      max_channel0 := max s.max_channel0 cell.channel0,
      min_channel1 := min s.min_channel1 cell.channel1,
      max_channel1 := max s.max_channel1 cell.channel1,
      offset := offset,
      first_processed := true,
      mean := (s.mean.1 + diff_old.1 * weight_factor, s.mean.2 + diff_old.2 * weight_factor),
      var := (s.var.1 + cell_width.1, s.var.2 + cell_width.2) }

/-- The block of `aggregate_cluster` guarded by `f.at(j) == cid`, for the cell
at position `pos`. The capacity of `disjoint_set` is its length. -/
def aggregate_member (module_descr : SiliconModule) (link pos : Nat) (cell : Cell)
    (s : AggState) : Option AggState :=
  let s1 := if cell.channel1 > s.maxChannel1 then { s with maxChannel1 := cell.channel1 } else s
  let weight := signal_cell_modelling cell.activation module_descr
  let stats := if weight > module_descr.threshold then
      aggregate_accept module_descr cell weight s1 else some s1
  match stats with
  | none => none
  | some s2 =>
    if pos < s2.cell_links.length then
      let s3 := { s2 with cell_links := s2.cell_links.set pos link,
                          tmp_cluster_size := s2.tmp_cluster_size + 1 }
      if s3.disjoint_set.length ≠ 0 then
        if pos < s3.disjoint_set.length then
          some { s3 with disjoint_set := s3.disjoint_set.set pos link }
        else none
      else some s3
    else none

/-- One pass of the loop body of `aggregate_cluster` for the index `j`. -/
def aggregate_step (cells : List Cell) (module_descr : SiliconModule) (f : List Nat)
    (start cid link module_idx : Nat) (s : AggState) (j : Nat) : Option (LoopStep AggState) :=
  let pos := (j + start) % 4294967296
  match cells[pos]? with
  | none => none
  | some cell =>
    if cell.module_index ≠ module_idx then some (.stop s) else
    match f[j]? with
    | none => none
    | some fj =>
      let after := if fj = cid then aggregate_member module_descr link pos cell s else some s
      match after with
      | none => none
      | some s2 =>
        if cell.channel1 > (s2.maxChannel1 + 1) % 4294967296 then some (.stop s2)
        else some (.next { s2 with
          cluster_size := s2.cluster_size.map (fun _ => s2.tmp_cluster_size) })

/-- The loop of `aggregate_cluster` over the indices still to visit. -/
def aggregate_loop (cells : List Cell) (module_descr : SiliconModule) (f : List Nat)
    (start cid link module_idx : Nat) : List Nat → AggState → Option AggState
  | [], s => some s
  | j :: js, s =>
    match aggregate_step cells module_descr f start cid link module_idx s j with
    | none => none
    | some (.stop s') => some s'
    | some (.next s') => aggregate_loop cells module_descr f start cid link module_idx js s'

/-- The state of `aggregate_cluster` before its loop. -/
def aggregate_init (seed : ChannelSeed) (cell_links disjoint_set : List Nat)
    (cluster_size : Option Nat) : AggState :=
  { totalWeight := 0, mean := (0, 0), var := (0, 0), offset := (0, 0),
    min_channel0 := seed.from_lowest, max_channel0 := seed.from_max,
    min_channel1 := seed.from_lowest, max_channel1 := seed.from_max,
    tmp_cluster_size := 0, first_processed := false, maxChannel1 := 0,
    cell_links := cell_links, disjoint_set := disjoint_set, cluster_size := cluster_size }

/-- The part of `aggregate_cluster` up to the end of its loop: the module
entry it looked up and the state after the loop. `finish` stands for the
parameter `end` of the source. -/
def aggregate_scan (seed : ChannelSeed) (cells : List Cell) (det_descr : List SiliconModule)
    (f : List Nat) (start finish cid : Nat) (cell_links : List Nat) (link : Nat)
    (disjoint_set : List Nat) (cluster_size : Option Nat) :
    Option (SiliconModule × AggState) :=
  match cells[(cid + start) % 4294967296]? with
  | none => none
  | some c0 =>
    let module_idx := c0.module_index
    match det_descr[module_idx]? with
    | none => none
    | some module_descr =>
      let partition_size := ((finish + 4294967296 - start) % 4294967296) % 65536
      match aggregate_loop cells module_descr f start cid link module_idx
          (List.range' cid (partition_size - cid))
          (aggregate_init seed cell_links disjoint_set cluster_size) with
      | none => none
      | some s => some (module_descr, s)

/-- The local `diameter` of `aggregate_cluster`: the accumulated widths over
the channel extents plus one; the extents are differences of `unsigned int`. -/
def cluster_diameter (s : AggState) : point2 :=
  let delta0 : ℚ := (((s.max_channel0 + 4294967296 - s.min_channel0) % 4294967296 : Nat) : ℚ)
  let delta1 : ℚ := (((s.max_channel1 + 4294967296 - s.min_channel1) % 4294967296 : Nat) : ℚ)
  (s.var.1 / (delta0 + 1), s.var.2 / (delta1 + 1))

/-- The final chain of comparisons of `aggregate_cluster` on the diameter
strategy: the value written to `out.diameter()`. The square root `math::sqrt`
is a parameter. -/
def strategy_diameter {K : Type} [LinearOrder K] [Add K] [Mul K] (sqrt : K → K)
    (strategy : clustering_diameter_strategy) (diameter : K × K) : K :=
  match strategy with
  | .CHANNEL0 => diameter.1
  | .CHANNEL1 => diameter.2
  | .MAXIMUM => max diameter.1 diameter.2
  | .DIAGONAL => sqrt (diameter.1 * diameter.1 + diameter.2 * diameter.2)

/-- What `aggregate_cluster` leaves behind: the output record and the three
containers it writes. -/
structure AggResult where
  out : Measurement
  cell_links : List Nat
  disjoint_set : List Nat
  cluster_size : Option Nat
deriving DecidableEq, Repr

/-- The function `aggregate_cluster`; `out` is the content of the output
record before the call. -/
def aggregate_cluster (seed : ChannelSeed) (sqrt : ℚ → ℚ) (cfg : clustering_config)
    (cells : List Cell) (det_descr : List SiliconModule) (f : List Nat)
    (start finish cid : Nat) (out : Measurement) (cell_links : List Nat) (link : Nat)
    (disjoint_set : List Nat) (cluster_size : Option Nat) : Option AggResult :=
  match aggregate_scan seed cells det_descr f start finish cid cell_links link disjoint_set
      cluster_size with
  | none => none
  | some (module_descr, s) =>
    let diameter := cluster_diameter s
    let var : point2 := (diameter.1 * diameter.1 / 12, diameter.2 * diameter.2 / 12)
    some {
      out := { out with
        local_position :=
          (s.mean.1 + s.offset.1 + module_descr.measurement_translation.1,
           s.mean.2 + s.offset.2 + module_descr.measurement_translation.2),
        local_variance := var,
        surface_link := module_descr.geometry_id,
        identifier := link,
        dimensions := module_descr.dimensions,
        subspace := module_descr.subspace,
        cluster_index := link,
        diameter := strategy_diameter sqrt cfg.diameter_strategy diameter },
      cell_links := s.cell_links,
      disjoint_set := s.disjoint_set,
      cluster_size := s.cluster_size }

/-! ### Quantities of the specification

The closed forms that the statements below compare the code with. They are
written from the wording of the specification, not from the code. -/

/-- The cells a cluster lists, in listing order (indices outside the cell
collection list nothing). -/
def cluster_cells (cells : List Cell) (cluster : List Nat) : List Cell :=
  cluster.filterMap (fun i => cells[i]?)

/-- The accepted cells: those whose activation is strictly above the
threshold. -/
def accepted (threshold : ℚ) (cs : List Cell) : List Cell :=
  cs.filter (fun c => decide (threshold < c.activation))

/-- Midpoint of bin `c` of an axis. -/
def bin_mid (edges : List ℚ) (c : Nat) : ℚ :=
  (edges.getD c 0 + edges.getD (c + 1) 0) / 2

/-- Span of bin `c` of an axis. -/
def bin_width (edges : List ℚ) (c : Nat) : ℚ :=
  edges.getD (c + 1) 0 - edges.getD c 0

/-- Sum of the activations of a list of cells. -/
def weight_sum (cs : List Cell) : ℚ :=
  (cs.map (fun c => c.activation)).sum

/-- Weighted sum of the bin midpoints of the cells on an axis given by its
edges and its channel selector. -/
def moment_sum (edges : List ℚ) (ch : Cell → Nat) (cs : List Cell) : ℚ :=
  (cs.map (fun c => c.activation * bin_mid edges (ch c))).sum

/-- Sum of the bin widths of the cells on an axis. -/
def width_sum (edges : List ℚ) (ch : Cell → Nat) (cs : List Cell) : ℚ :=
  (cs.map (fun c => bin_width edges (ch c))).sum

/-- Largest of a list of channel numbers (0 for the empty list). -/
def max_channel : List Nat → Nat
  | [] => 0
  | a :: l => max a (max_channel l)

/-- Smallest of a list of channel numbers (0 for the empty list). -/
def min_channel : List Nat → Nat
  | [] => 0
  | [a] => a
  | a :: b :: l => min a (min_channel (b :: l))

/-- Channel extent of a list of channel numbers: max channel minus min
channel. -/
def channel_extent (chs : List Nat) : Nat :=
  max_channel chs - min_channel chs

/-- The inputs on which every checked access of `fill_measurement` succeeds
and both entry assertions hold: the cluster is not empty, its indices are
inside the cell collection, its cells are all on module `module_idx`, that
module has conditions `cd`, whose design is `dd`, and the accepted cells
address bins of that design. -/
structure ValidCluster (cluster : List Nat) (cells : List Cell) (det_descr : List Design)
    (det_cond : List Conditions) (module_idx : Nat) (cd : Conditions) (dd : Design) :
    Prop where
  nonempty : cluster ≠ []
  in_range : ∀ i ∈ cluster, i < cells.length
  same_module : ∀ c ∈ cluster_cells cells cluster, c.module_index = module_idx
  cond : det_cond[module_idx]? = some cd
  design : det_descr[cd.module_to_design_id]? = some dd
  edges : ∀ c ∈ accepted cd.threshold (cluster_cells cells cluster),
    c.channel0 + 1 < dd.bin_edges_x.length ∧ c.channel1 + 1 < dd.bin_edges_y.length

/-- The per-axis diameter of the specification: the sum of the bin widths of
the accepted cells on the axis, over the channel extent on the axis plus one.
The specification tracks the channel extents across accepted cells only. -/
def axis_diameter (edges : List ℚ) (ch : Cell → Nat) (threshold : ℚ) (cs : List Cell) : ℚ :=
  width_sum edges ch (accepted threshold cs)
    / ((channel_extent ((accepted threshold cs).map ch) : ℚ) + 1)

/-! ### Concrete inputs

A small event used to evaluate the builders: one module with one design, bins
of width 1 on the first axis and 2 on the second, threshold 5. Cells 0 and 2
are above the threshold, cell 1 is below it, cell 3 is exactly at it. -/

/-- The design of the example event. -/
def demo_design : Design :=
  { bin_edges_x := [0, 1, 2, 3, 4, 5, 6, 7], bin_edges_y := [0, 2, 4, 6, 8, 10, 12, 14],
    dimensions := 2, subspace := (0, 1) }

/-- The conditions of the module of the example event. -/
def demo_conditions : Conditions :=
  { module_to_design_id := 0, geometry_id := 7, threshold := 5,
    measurement_translation := (10, 20) }

/-- The cells of the example event. -/
def demo_cells : List Cell :=
  [⟨0, 0, 10, 0⟩, ⟨2, 0, 1, 0⟩, ⟨1, 1, 30, 0⟩, ⟨3, 5, 5, 0⟩]

/-- The output record before a builder runs. -/
def demo_measurement : Measurement :=
  { surface_link := 0, local_position := (0, 0), local_variance := (0, 0), identifier := 0,
    cluster_index := 0, dimensions := 0, subspace := (0, 0), diameter := 0 }

/-- The module of the example event as the partitioned builder sees it. -/
def demo_module : SiliconModule :=
  { geometry_id := 7, threshold := 5, measurement_translation := (10, 20), dimensions := 2,
    subspace := (0, 1), bin_edges_x := [0, 1, 2, 3, 4, 5, 6, 7],
    bin_edges_y := [0, 2, 4, 6, 8, 10, 12, 14] }

/-- A stand-in for `math::sqrt` in evaluations under a strategy that does not
call it. -/
def unused_sqrt : ℚ → ℚ := fun _ => 0

/-- The state `aggregate_cluster` reaches after scanning a partition that
holds the single cell (3, 5) with activation 10, read off the source by hand:
the cell is accepted, so each running bound is combined once with the
channel of the cell. -/
def demo_scan (seed : ChannelSeed) : AggState :=
  { totalWeight := 10, mean := (0, 0), var := (1, 2), offset := (7 / 2, 11),
    min_channel0 := min seed.from_lowest 3, max_channel0 := max seed.from_max 3,
    min_channel1 := min seed.from_lowest 5, max_channel1 := max seed.from_max 5,
    tmp_cluster_size := 1, first_processed := true, maxChannel1 := 5, cell_links := [4],
    disjoint_set := [], cluster_size := none }

/-- The record `aggregate_cluster` leaves for a partition that holds the
single cell (3, 5) with activation 5, which is not above the threshold 5. -/
def demo_degenerate_result : AggResult :=
  { out := { surface_link := 7, local_position := (10, 20), local_variance := (0, 0),
             identifier := 4, cluster_index := 4, dimensions := 2, subspace := (0, 1),
             diameter := 0 },
    cell_links := [4], disjoint_set := [], cluster_size := none }

/-- The four cells of the end-to-end scenario of the specification: channel
coordinates (0,0), (0,1), (1,0), (1,1), on one module, with one activation. -/
def square_cells (activation : ℚ) (module_index : Nat) : List Cell :=
  [⟨0, 0, activation, module_index⟩, ⟨0, 1, activation, module_index⟩,
   ⟨1, 0, activation, module_index⟩, ⟨1, 1, activation, module_index⟩]

/-- A design with bin edges 0, 1, 2 on both axes. -/
def unit_design : Design :=
  { bin_edges_x := [0, 1, 2], bin_edges_y := [0, 1, 2], dimensions := 2, subspace := (0, 1) }

/-- The record `fill_measurement` fills for the four-cell cluster with
activation 10 on the example module, with the design `unit_design`. -/
def square_filled : Measurement :=
  { surface_link := 7, local_position := (1 + 10, 1 + 20), local_variance := (1 / 3, 1 / 3),
    identifier := 4, cluster_index := 4, dimensions := 2, subspace := (0, 1), diameter := 0 }

/-- Conditions with the threshold -10. -/
def low_conditions : Conditions :=
  { module_to_design_id := 0, geometry_id := 7, threshold := -10,
    measurement_translation := (10, 20) }

/-- Conditions with the threshold -1. -/
def high_conditions : Conditions :=
  { module_to_design_id := 0, geometry_id := 7, threshold := -1,
    measurement_translation := (10, 20) }

/-- The state of `calc_cluster_properties` before its loop, when it is called
as `fill_measurement` calls it. -/
def initial_props : ClusterProps :=
  { mean := (0, 0), var := (0, 0), totalWeight := 0, offset := (0, 0),
    first_processed := false, phiIndices := [], etaIndices := [] }

/-- The seeds with which `std::min` and `std::max` find the true bounds: the
lower bounds start from the largest `unsigned int`, the upper bounds from 0. -/
def intended_seed : ChannelSeed :=
  { from_lowest := 4294967295, from_max := 0 }

/-- Two cells of one module: the first above the threshold 5 of the example
module, the second, two channels further on the first axis, below it. -/
def pair_cells : List Cell := [⟨0, 0, 10, 0⟩, ⟨2, 0, 1, 0⟩]

/-- The record `fill_measurement` fills for the single cell (3, 5) with
activation 10. -/
def host_single : Measurement :=
  { surface_link := 7, local_position := (7 / 2 + 10, 11 + 20),
    local_variance := (1 / 12, 4 / 12), identifier := 4, cluster_index := 4,
    dimensions := 2, subspace := (0, 1), diameter := 0 }

/-- The record `aggregate_cluster` fills for the single cell (3, 5) with
activation 10, with the saturating seeds. -/
def device_single : Measurement :=
  { surface_link := 7, local_position := (7 / 2 + 10, 11 + 20),
    local_variance := (1 / 4294967296 * (1 / 4294967296) / 12,
                       2 / 4294967296 * (2 / 4294967296) / 12),
    identifier := 4, cluster_index := 4, dimensions := 2, subspace := (0, 1),
    diameter := 1 / 4294967296 }

/-- The record `fill_measurement` fills for the cluster of `pair_cells`. -/
def host_pair : Measurement :=
  { surface_link := 7, local_position := (1 / 2 + 10, 1 + 20),
    local_variance := (1 / 3 * (1 / 3) / 12, 4 / 12), identifier := 4, cluster_index := 4,
    dimensions := 2, subspace := (0, 1), diameter := 0 }

/-- The record `aggregate_cluster` fills for the cluster of `pair_cells`, with
the seeds `intended_seed`. -/
def device_pair : Measurement :=
  { surface_link := 7, local_position := (1 / 2 + 10, 1 + 20),
    local_variance := (1 / 12, 4 / 12), identifier := 4, cluster_index := 4,
    dimensions := 2, subspace := (0, 1), diameter := 1 }

/-- The record `fill_measurement` fills for the cluster `[0, 1, 2]` of the
example event. -/
def demo_filled : Measurement :=
  { surface_link := 7, local_position := (10 + 5 / 4, 20 + 5 / 2),
    local_variance := (2 / 3 * (2 / 3) / 12, 2 * 2 / 12), identifier := 4, cluster_index := 4,
    dimensions := 2, subspace := (0, 1), diameter := 0 }

/-- Two cells on two different modules. -/
def mixed_cells : List Cell := [⟨0, 0, 10, 0⟩, ⟨1, 0, 10, 1⟩]

/-- What `aggregate_cluster` leaves for the cluster of `pair_cells`, with the
saturating seeds, link 4 and links initially 0. -/
def demo_pair_result : AggResult :=
  { out := { surface_link := 7, local_position := (1 / 2 + 10, 1 + 20),
             local_variance := (1 / 4294967296 * (1 / 4294967296) / 12,
                                2 / 4294967296 * (2 / 4294967296) / 12),
             identifier := 4, cluster_index := 4, dimensions := 2, subspace := (0, 1),
             diameter := 1 / 4294967296 },
    cell_links := [4, 4], disjoint_set := [], cluster_size := some 2 }

/-- The invariant of the loop of `aggregate_cluster` behind the count of the
cluster: a cluster size was asked for, the number of entries of `cell_links`
equal to `link` is the running count, no position from `j + start` on holds
`link` yet, and the largest channel seen is below the largest `unsigned int`. -/
structure LinkInv (link start : Nat) (s : AggState) (j : Nat) : Prop where
  size_set : s.cluster_size.isSome = true
  counted : s.cell_links.count link = s.tmp_cluster_size
  fresh : ∀ p (hp : p < s.cell_links.length), j + start ≤ p → s.cell_links[p] ≠ link
  channel : s.maxChannel1 < 4294967295

/-! ### The pointer argument of `position_from_cell` -/

/-- The out-parameter `cell_width` of `position_from_cell` as a pointer: `none`
is the null pointer, which the declaration gives as the default. The body
assigns through the pointer after the four checked accesses, so a null
pointer is a fault. -/
def position_from_cell_ptr (cell : Cell) (module_dd : Design) (cell_width : Option point2) :
    Option (point2 × point2) :=
  match position_from_cell cell module_dd with
  | none => none
  | some r =>
    match cell_width with
    | none => none
    | some _ => some r

/-! ### The digitization configuration, its JSON form and its readers -/

/-- Lookup in a map kept as a list of key and value pairs: the first pair
with the key. -/
def map_find {κ ν : Type} [DecidableEq κ] (k : κ) : List (κ × ν) → Option ν
  | [] => none
  | (k', v) :: m => if k' = k then some v else map_find k m

/-- The assignment `m[k] = v` on a map: the value of an existing key is
replaced, a new key is added. -/
def map_assign {κ ν : Type} [DecidableEq κ] (k : κ) (v : ν) : List (κ × ν) → List (κ × ν)
  | [] => [(k, v)]
  | (k', v') :: m => if k' = k then (k, v) :: m else (k', v') :: map_assign k v m

/-- The struct `module_digitization_config`. -/
structure module_digitization_config where
  bin_edges : List (List ℚ)
  dimensions : Nat
deriving DecidableEq, Repr

/-- A value-initialised `module_digitization_config`: no axes, dimensions 2. -/
def module_digitization_config.init : module_digitization_config :=
  { bin_edges := [], dimensions := 2 }

/-- The struct `digitization_config`; the `unordered_map` is a list of pairs
with distinct keys. -/
structure digitization_config where
  designs : List module_digitization_config
  id_to_design_index : List (Nat × Int)
deriving DecidableEq, Repr

/-- What `digitization_config::get` returns: the null pointer, a pointer to a
design, or a pointer outside `designs` (the index is not checked). -/
inductive DesignPtr where
  | null
  | entry (d : module_digitization_config)
  | dangling
deriving DecidableEq, Repr

/-- The function `digitization_config::get`. -/
def digitization_config.get (digi : digitization_config) (detray_id : Nat) : DesignPtr :=
  match map_find detray_id digi.id_to_design_index with
  | none => .null
  | some idx =>
    if idx < 0 then .dangling
    else match digi.designs[idx.toNat]? with
      | none => .dangling
      | some d => .entry d

/-- Modelled from the spec: what `read_json_dd_impl` reads of a surface of the
detector, whose types are not among the sources: whether it is sensitive, the
value of its barcode, and whether its mask is an annulus. -/
structure Surface where
  sensitive : Bool
  barcode : Nat
  annulus : Bool
deriving DecidableEq, Repr

/-- One design entry as `read_json_dd_impl` fills it. -/
structure DesignEntry where
  subspace : Nat × Nat
  dimensions : Nat
  bin_edges_x : List ℚ
  bin_edges_y : List ℚ
deriving DecidableEq, Repr

/-- The variables of `read_json_dd_impl` that live across its loop. -/
structure ReadState where
  id_to_design_index : List (Nat × Int)
  design_indices : List Int
  design_index_to_dd_pos : List (Int × Nat)
  module_to_design : List Nat
  dd : List DesignEntry
deriving DecidableEq, Repr

/-- Ways in which `read_json_dd_impl` ends early: the exception "Could not find
digitization config for barcode", or an access outside a container. -/
inductive ReadError where
  | could_not_find_digitization_config (barcode : Nat)
  | out_of_range
deriving DecidableEq, Repr

/-- One pass of the loop of `read_json_dd_impl` over the surfaces. The lookup
`id_to_design_index[barcode]` on the local copy of the map adds the key with
the value 0 when it is missing. -/
def read_surface (digi : digitization_config) (s : ReadState) (surface : Surface) :
    Except ReadError ReadState :=
  if surface.sensitive = false then .ok s else
  let found := map_find surface.barcode s.id_to_design_index
  let design_index : Int := found.getD 0
  let s1 := if found.isSome then s
    else { s with id_to_design_index := s.id_to_design_index ++ [(surface.barcode, 0)] }
  if design_index ∈ s1.design_indices then
    .ok { s1 with module_to_design :=
      s1.module_to_design ++ [(map_find design_index s1.design_index_to_dd_pos).getD 0] }
  else
    match digi.get surface.barcode with
    | .null => .error (.could_not_find_digitization_config surface.barcode)
    | .dangling => .error .out_of_range
    | .entry data =>
      let dd_pos := s1.design_index_to_dd_pos.length
      match data.bin_edges[0]?, data.bin_edges[1]? with
      | some x, some y =>
        .ok { s1 with
          design_indices := s1.design_indices ++ [design_index],
          design_index_to_dd_pos := map_assign design_index dd_pos s1.design_index_to_dd_pos,
          dd := s1.dd ++ [{ subspace := if surface.annulus then (1, 0) else (0, 1),
                            dimensions := data.dimensions, bin_edges_x := x, bin_edges_y := y }],
          module_to_design := s1.module_to_design ++ [dd_pos] }
      | _, _ => .error .out_of_range

/-- The loop of `read_json_dd_impl`. -/
def read_surfaces (digi : digitization_config) :
    List Surface → ReadState → Except ReadError ReadState
  | [], s => .ok s
  | surface :: rest, s =>
    match read_surface digi s surface with
    | .error e => .error e
    | .ok s' => read_surfaces digi rest s'

/-- The function `read_json_dd_impl`: the state after the loop, from which the
source assigns `module_to_design`. -/
def read_json_dd_impl (surfaces : List Surface) (digi : digitization_config) :
    Except ReadError ReadState :=
  read_surfaces digi surfaces
    { id_to_design_index := digi.id_to_design_index, design_indices := [],
      design_index_to_dd_pos := [], module_to_design := [], dd := [] }

/-- One element of the JSON array `entries`: the design index, and the `bins`
arrays of the elements of `binningdata` when that key is present. -/
structure JsonEntry where
  design_index : Int
  binningdata : Option (List (List ℚ))
deriving DecidableEq, Repr

/-- One element of the JSON array `id_to_design_map`. -/
structure JsonMapping where
  detray_id : Nat
  design_index : Int
deriving DecidableEq, Repr

/-- The JSON document as far as `to_json` and `read_digitization_config` touch
it; each of the two keys may be absent. -/
structure JsonConfig where
  entries : Option (List JsonEntry)
  id_to_design_map : Option (List JsonMapping)
deriving DecidableEq, Repr

/-- The entries `to_json` writes for the designs from index `i` on. -/
def to_json_entries (i : Nat) : List module_digitization_config → List JsonEntry
  | [] => []
  | design :: rest =>
    { design_index := (i : Int), binningdata := some design.bin_edges }
      :: to_json_entries (i + 1) rest

/-- The function `to_json` for a `digitization_config`. -/
def to_json (cfg : digitization_config) : JsonConfig :=
  { entries := some (to_json_entries 0 cfg.designs),
    id_to_design_map := some (cfg.id_to_design_index.map
      (fun p => { detray_id := p.1, design_index := p.2 })) }

/-- The configuration `read_digitization_config` builds from one entry: the
axes in order, and dimensions 1 when some axis has exactly one value. -/
def entry_config (entry : JsonEntry) : module_digitization_config :=
  match entry.binningdata with
  | none => module_digitization_config.init
  | some axes =>
    { bin_edges := axes,
      dimensions := if axes.any (fun axis => decide (axis.length = 1)) then 1 else 2 }

/-- The assignment `result.designs[idx] = cfg`; the index is not checked in
the source, an index outside the vector is a fault here. -/
def store_design (designs : List module_digitization_config)
    (p : Int × module_digitization_config) : Option (List module_digitization_config) :=
  if 0 ≤ p.1 ∧ p.1.toNat < designs.length then some (designs.set p.1.toNat p.2) else none

/-- The loop of `read_digitization_config` over `design_map`. -/
def store_designs : List (Int × module_digitization_config) →
    List module_digitization_config → Option (List module_digitization_config)
  | [], designs => some designs
  | p :: rest, designs =>
    match store_design designs p with
    | none => none
    | some designs' => store_designs rest designs'

/-- The `design_map` of `read_digitization_config` after its first loop. -/
def read_design_map (entries : List JsonEntry) : List (Int × module_digitization_config) :=
  entries.foldl (fun m entry => map_assign entry.design_index (entry_config entry) m) []

/-- The function `read_digitization_config` on a JSON document. The ordered
map `design_map` is walked in the order of its keys. -/
def read_digitization_config (json : JsonConfig) : Option digitization_config :=
  let design_map := read_design_map (json.entries.getD [])
  match store_designs (design_map.insertionSort (fun a b => a.1 ≤ b.1))
      (List.replicate design_map.length module_digitization_config.init) with
  | none => none
  | some designs =>
    some { designs := designs,
           id_to_design_index := (json.id_to_design_map.getD []).foldl
             (fun m mapping => map_assign mapping.detray_id mapping.design_index m) [] }

/-- The last entry of a list with a given design index. -/
def last_with_index (i : Int) : List JsonEntry → Option JsonEntry
  | [] => none
  | entry :: rest =>
    match last_with_index i rest with
    | some e => some e
    | none => if entry.design_index = i then some entry else none

/-- The design indices of a list of entries are exactly 0, ..., n - 1. -/
def ExactRange (entries : List JsonEntry) (n : Nat) : Prop :=
  ∀ i : Int, (∃ e ∈ entries, e.design_index = i) ↔ (0 ≤ i ∧ i < (n : Int))

/-- The dimensions `read_digitization_config` derives from the axes of a
design. -/
def derived_dimensions (d : module_digitization_config) : Nat :=
  if d.bin_edges.any (fun axis => decide (axis.length = 1)) then 1 else 2

/-- A digitization configuration with one design and one mapped module. -/
def demo_digi : digitization_config :=
  { designs := [{ bin_edges := [[0, 1, 2], [0, 2, 4]], dimensions := 2 }],
    id_to_design_index := [(10, 0)] }

/-- A design with the dimensions the reader derives from its axes. -/
def with_derived_dimensions (d : module_digitization_config) : module_digitization_config :=
  { bin_edges := d.bin_edges, dimensions := derived_dimensions d }

/-- A configuration whose only design records two dimensions over an axis
with a single value. -/
def flat_digi : digitization_config :=
  { designs := [{ bin_edges := [[0], [0, 2, 4]], dimensions := 2 }],
    id_to_design_index := [(10, 0)] }

/-- Two sensitive surfaces: barcode 10 is mapped by `demo_digi`, barcode 99 is
not. -/
def demo_surfaces : List Surface :=
  [{ sensitive := true, barcode := 10, annulus := false },
   { sensitive := true, barcode := 99, annulus := false }]

/-- The state `read_json_dd_impl` reaches on `demo_surfaces` with `demo_digi`:
both modules point at the one design. -/
def demo_read_state : ReadState :=
  { id_to_design_index := [(10, 0), (99, 0)],
    design_indices := [0],
    design_index_to_dd_pos := [(0, 0)],
    module_to_design := [0, 0],
    dd := [{ subspace := (0, 1), dimensions := 2,
             bin_edges_x := [0, 1, 2], bin_edges_y := [0, 2, 4] }] }

/-- The channel pairs of a full rectangle of cells: `n0` consecutive values
of channel0 from `a0` on, times `n1` consecutive values of channel1 from `a1`
on. -/
def rectangle (a0 a1 n0 n1 : Nat) : List (Nat × Nat) :=
  List.product (List.range' a0 n0) (List.range' a1 n1)

/-- A 3 x 2 rectangle of cells on the example module, listed out of order:
channel0 in 1..3, channel1 in 2..3, all activations above the threshold 5. -/
def rectangle_cells : List Cell :=
  [⟨2, 3, 10, 0⟩, ⟨1, 2, 20, 0⟩, ⟨3, 2, 6, 0⟩, ⟨1, 3, 10, 0⟩, ⟨3, 3, 7, 0⟩, ⟨2, 2, 9, 0⟩]

/-- Three cells of one module, all above the threshold -10, whose first two
activations cancel. -/
def cancelling_cells : List Cell := [⟨0, 0, 1, 0⟩, ⟨1, 0, -1, 0⟩, ⟨2, 0, 5, 0⟩]

/-- The positions that the claims give to the call of `aggregate_cluster` for
the label `cid`: `start + j` with `cid ≤ j < end - start` and `f[j] = cid`. -/
def OwnedPosition (f : List Nat) (start finish cid p : Nat) : Prop :=
  ∃ j, cid ≤ j ∧ j + start < finish ∧ f[j]? = some cid ∧ p = j + start

/-- The end of the loop body of `aggregate_cluster`: the write of the running
count through `cluster_size`, when one was passed. -/
def write_cluster_size (s : AggState) : AggState :=
  { s with cluster_size := s.cluster_size.map (fun _ => s.tmp_cluster_size) }

/-- One pass of the loop body of the full scan: the body of `aggregate_cluster`
without the `break` on `cell.channel1() > maxChannel1 + 1`. The `break` on the
module index stays. -/
def full_scan_step (cells : List Cell) (module_descr : SiliconModule) (f : List Nat)
    (start cid link module_idx : Nat) (s : AggState) (j : Nat) : Option (LoopStep AggState) :=
  let pos := (j + start) % 4294967296
  match cells[pos]? with
  | none => none
  | some cell =>
    if cell.module_index ≠ module_idx then some (.stop s) else
    match f[j]? with
    | none => none
    | some fj =>
      let after := if fj = cid then aggregate_member module_descr link pos cell s else some s
      match after with
      | none => none
      | some s2 => some (.next (write_cluster_size s2))

/-- The loop of the full scan over the indices still to visit. -/
def full_scan_loop (cells : List Cell) (module_descr : SiliconModule) (f : List Nat)
    (start cid link module_idx : Nat) : List Nat → AggState → Option AggState
  | [], s => some s
  | j :: js, s =>
    match full_scan_step cells module_descr f start cid link module_idx s j with
    | none => none
    | some (.stop s') => some s'
    | some (.next s') => full_scan_loop cells module_descr f start cid link module_idx js s'

/-- The full scan of the partition: `aggregate_scan` with the loop that does
not leave early on the channel. -/
def full_scan (seed : ChannelSeed) (cells : List Cell) (det_descr : List SiliconModule)
    (f : List Nat) (start finish cid : Nat) (cell_links : List Nat) (link : Nat)
    (disjoint_set : List Nat) (cluster_size : Option Nat) :
    Option (SiliconModule × AggState) :=
  match cells[(cid + start) % 4294967296]? with
  | none => none
  | some c0 =>
    let module_idx := c0.module_index
    match det_descr[module_idx]? with
    | none => none
    | some module_descr =>
      let partition_size := ((finish + 4294967296 - start) % 4294967296) % 65536
      match full_scan_loop cells module_descr f start cid link module_idx
          (List.range' cid (partition_size - cid))
          (aggregate_init seed cell_links disjoint_set cluster_size) with
      | none => none
      | some s => some (module_descr, s)

/-- The cell at index `j` of the partition, at or after `cid`, is on the
module `module_idx` and labelled `cid`. -/
def Labelled (cells : List Cell) (f : List Nat) (start finish cid module_idx j : Nat)
    (c : Cell) : Prop :=
  cid ≤ j ∧ j + start < finish ∧ cells[j + start]? = some c ∧ c.module_index = module_idx ∧
    f[j]? = some cid

/-- The invariant of the loop of `aggregate_cluster` behind the early exit,
before the index `j`: the labelled cells before `j` have channel1 at most
`maxChannel1`; once a pass is done, `maxChannel1` is the channel1 of one of
them and the count has been written through `cluster_size`; before the first
pass `maxChannel1` is 0. -/
structure ScanInv (cells : List Cell) (f : List Nat) (start finish cid module_idx : Nat)
    (s : AggState) (j : Nat) : Prop where
  seen : ∀ i c, Labelled cells f start finish cid module_idx i c → i < j →
    c.channel1 ≤ s.maxChannel1
  attained : cid < j → ∃ i c, Labelled cells f start finish cid module_idx i c ∧ i < j ∧
    c.channel1 = s.maxChannel1
  size_written : cid < j → write_cluster_size s = s
  channel : s.maxChannel1 < 4294967295
  initial : j ≤ cid → s.maxChannel1 = 0

/-- A partition of three cells of the example module, sorted by channel1: the
first two are neighbours, the third is two channels beyond them. -/
def gap_cells : List Cell := [⟨0, 0, 10, 0⟩, ⟨0, 1, 10, 0⟩, ⟨5, 3, 10, 0⟩]

/-- The labels of `gap_cells`: the first two cells form the cluster 0, the
third is a cluster of its own. -/
def gap_labels : List Nat := [0, 0, 2]

/-- The state `aggregate_cluster` reaches on `gap_cells` for the label 0, with
link 4, links `[0, 0, 0]`, the disjoint set `[7, 7, 7]` and the saturating
seeds: it leaves the loop at the third cell. -/
def gap_scan : AggState :=
  { totalWeight := 20, mean := (0, 1), var := (2, 4), offset := (1 / 2, 1),
    min_channel0 := 0, max_channel0 := 4294967295,
    min_channel1 := 0, max_channel1 := 4294967295,
    tmp_cluster_size := 2, first_processed := true, maxChannel1 := 1,
    cell_links := [4, 4, 0], disjoint_set := [4, 4, 7], cluster_size := some 2 }

/-- What `aggregate_cluster` leaves on `gap_cells` for the label 0, with the
saturating seeds, link 4, links `[0, 0, 0]` and the disjoint set `[7, 7, 7]`. -/
def gap_result : AggResult :=
  { out := { surface_link := 7, local_position := (0 + 1 / 2 + 10, 1 + 1 + 20),
             local_variance := (2 / 4294967296 * (2 / 4294967296) / 12,
                                4 / 4294967296 * (4 / 4294967296) / 12),
             identifier := 4, cluster_index := 4, dimensions := 2, subspace := (0, 1),
             diameter := 2 / 4294967296 },
    cell_links := [4, 4, 0], disjoint_set := [4, 4, 7], cluster_size := some 2 }

/-- The loop of `calc_cluster_properties` over cells that have already been
fetched; `calc_loop` runs as this loop over the cells of the cluster when all
its indices are in range. -/
def calc_cells (module_dd : Design) (module_cd : Conditions) :
    List Cell → ClusterProps → Option ClusterProps
  | [], s => some s
  | cell :: rest, s =>
    match calc_cell module_dd module_cd s cell with
    | none => none
    | some s' => calc_cells module_dd module_cd rest s'

/-! ### Lemmas on the sequential builder -/

/-- With both channels inside the bin edges, `position_from_cell` returns the
bin midpoints and the bin widths of the specification. -/
theorem position_from_cell_eq (cell : Cell) (dd : Design)
    (h0 : cell.channel0 + 1 < dd.bin_edges_x.length)
    (h1 : cell.channel1 + 1 < dd.bin_edges_y.length) :
    position_from_cell cell dd =
      some ((bin_mid dd.bin_edges_x cell.channel0, bin_mid dd.bin_edges_y cell.channel1),
            (bin_width dd.bin_edges_x cell.channel0, bin_width dd.bin_edges_y cell.channel1)) := by
  have a0 : cell.channel0 < dd.bin_edges_x.length := by omega
  have a1 : cell.channel1 < dd.bin_edges_y.length := by omega
  simp only [position_from_cell, bin_mid, bin_width, List.getElem?_eq_getElem a0, List.getElem?_eq_getElem a1, List.getElem?_eq_getElem h0,
    List.getElem?_eq_getElem h1, List.getD_eq_getElem?_getD, Option.getD_some]
  congr 2
  · congr 1 <;> ring

/-- The cells of a cluster whose first index is in range. -/
theorem cluster_cells_cons (cells : List Cell) (i : Nat) (rest : List Nat) (c : Cell)
    (h : cells[i]? = some c) :
    cluster_cells cells (i :: rest) = c :: cluster_cells cells rest := by
  simp [cluster_cells, List.filterMap_cons, h]

/-- With all indices in range the loop over indices is the loop over the
fetched cells. -/
theorem calc_loop_eq_calc_cells (cells : List Cell) (dd : Design) (cd : Conditions) :
    ∀ (cluster : List Nat) (s : ClusterProps), (∀ i ∈ cluster, i < cells.length) →
      calc_loop cells dd cd cluster s = calc_cells dd cd (cluster_cells cells cluster) s := by
  intro cluster
  induction cluster with
  | nil => intro s _; rfl
  | cons i rest ih =>
    intro s h
    have hi : i < cells.length := h i (List.mem_cons_self _ _)
    have hget : cells[i]? = some cells[i] := List.getElem?_eq_getElem hi
    rw [cluster_cells_cons cells i rest _ hget]
    simp only [calc_loop, calc_cells, hget]
    cases hc : calc_cell dd cd s cells[i] with
    | none => rfl
    | some s' => exact ih s' (fun j hj => h j (List.mem_cons_of_mem _ hj))

/-- The loop body on a cell that is not above the threshold: only the two
vectors of channel numbers grow. -/
theorem calc_cell_rejected (dd : Design) (cd : Conditions) (s : ClusterProps) (c : Cell)
    (h : ¬ cd.threshold < c.activation) :
    calc_cell dd cd s c =
      some { s with phiIndices := s.phiIndices ++ [(c.channel0 : Int)],
                    etaIndices := s.etaIndices ++ [(c.channel1 : Int)] } := by
  simp [calc_cell, signal_cell_modelling, h]

/-- The loop body on a cell above the threshold whose bins exist. -/
theorem calc_cell_accepted (dd : Design) (cd : Conditions) (s : ClusterProps) (c : Cell)
    (h : cd.threshold < c.activation)
    (h0 : c.channel0 + 1 < dd.bin_edges_x.length)
    (h1 : c.channel1 + 1 < dd.bin_edges_y.length) :
    calc_cell dd cd s c =
      some { mean :=
               (s.mean.1 + (bin_mid dd.bin_edges_x c.channel0
                  - (if s.first_processed then s.offset
                     else (bin_mid dd.bin_edges_x c.channel0,
                           bin_mid dd.bin_edges_y c.channel1)).1 - s.mean.1)
                  * (c.activation / (s.totalWeight + c.activation)),
                s.mean.2 + (bin_mid dd.bin_edges_y c.channel1
                  - (if s.first_processed then s.offset
                     else (bin_mid dd.bin_edges_x c.channel0,
                           bin_mid dd.bin_edges_y c.channel1)).2 - s.mean.2)
                  * (c.activation / (s.totalWeight + c.activation))),
             var := (s.var.1 + bin_width dd.bin_edges_x c.channel0,
                     s.var.2 + bin_width dd.bin_edges_y c.channel1),
             totalWeight := s.totalWeight + c.activation,
             offset := if s.first_processed then s.offset
                       else (bin_mid dd.bin_edges_x c.channel0,
                             bin_mid dd.bin_edges_y c.channel1),
             first_processed := true,
             phiIndices := s.phiIndices ++ [(c.channel0 : Int)],
             etaIndices := s.etaIndices ++ [(c.channel1 : Int)] } := by
  simp [calc_cell, signal_cell_modelling, h, position_from_cell_eq c dd h0 h1]

theorem accepted_cons_of_lt (thr : ℚ) (c : Cell) (cs : List Cell) (h : thr < c.activation) :
    accepted thr (c :: cs) = c :: accepted thr cs := by
  simp [accepted, List.filter_cons, h]

theorem accepted_cons_of_not_lt (thr : ℚ) (c : Cell) (cs : List Cell)
    (h : ¬ thr < c.activation) :
    accepted thr (c :: cs) = accepted thr cs := by
  simp [accepted, List.filter_cons, h]

/-- The loop returns, and the channel vectors, the total weight and the
accumulated widths after it are the sums of the specification. -/
theorem calc_cells_fields (dd : Design) (cd : Conditions) :
    ∀ (cs : List Cell) (s : ClusterProps),
      (∀ c ∈ accepted cd.threshold cs,
        c.channel0 + 1 < dd.bin_edges_x.length ∧ c.channel1 + 1 < dd.bin_edges_y.length) →
      ∃ s', calc_cells dd cd cs s = some s' ∧
        s'.phiIndices = s.phiIndices ++ cs.map (fun c => (c.channel0 : Int)) ∧
        s'.etaIndices = s.etaIndices ++ cs.map (fun c => (c.channel1 : Int)) ∧
        s'.totalWeight = s.totalWeight + weight_sum (accepted cd.threshold cs) ∧
        s'.var.1 = s.var.1
          + width_sum dd.bin_edges_x (fun c => c.channel0) (accepted cd.threshold cs) ∧
        s'.var.2 = s.var.2
          + width_sum dd.bin_edges_y (fun c => c.channel1) (accepted cd.threshold cs) := by
  intro cs
  induction cs with
  | nil => intro s _; exact ⟨s, rfl, by simp [accepted, weight_sum, width_sum]⟩
  | cons c cs ih =>
    intro s hed
    by_cases hc : cd.threshold < c.activation
    · rw [accepted_cons_of_lt _ _ _ hc] at hed ⊢
      obtain ⟨h0, h1⟩ := hed c (List.mem_cons_self _ _)
      obtain ⟨s', hs', e1, e2, e3, e4, e5⟩ := ih _ (fun x hx => hed x (List.mem_cons_of_mem _ hx))
      refine ⟨s', ?_, ?_, ?_, ?_, ?_, ?_⟩
      · simp only [calc_cells, calc_cell_accepted dd cd s c hc h0 h1]; exact hs'
      · simp [e1]
      · simp [e2]
      · simp [e3, weight_sum]; ring
      · simp [e4, width_sum]; ring
      · simp [e5, width_sum]; ring
    · rw [accepted_cons_of_not_lt _ _ _ hc] at hed ⊢
      obtain ⟨s', hs', e1, e2, e3, e4, e5⟩ := ih _ hed
      refine ⟨s', ?_, ?_, ?_, ?_, ?_, ?_⟩
      · simp only [calc_cells, calc_cell_rejected dd cd s c hc]; exact hs'
      · simp [e1]
      · simp [e2]
      · simp [e3]
      · simp [e4]
      · simp [e5]

theorem weight_sum_accepted_nonneg (thr : ℚ) (hthr : 0 ≤ thr) (cs : List Cell) :
    0 ≤ weight_sum (accepted thr cs) := by
  induction cs with
  | nil => simp [accepted, weight_sum]
  | cons c cs ih =>
    by_cases hc : thr < c.activation
    · rw [accepted_cons_of_lt _ _ _ hc]
      have : weight_sum (c :: accepted thr cs) = c.activation + weight_sum (accepted thr cs) := by
        simp [weight_sum]
      rw [this]; linarith
    · rw [accepted_cons_of_not_lt _ _ _ hc]; exact ih

/-- Invariant of the weighted running mean once the offset is fixed: the mean
times the total weight is the sum of `w * (p - offset)`. -/
theorem calc_cells_mean (dd : Design) (cd : Conditions) (hthr : 0 ≤ cd.threshold) :
    ∀ (cs : List Cell) (s s' : ClusterProps),
      calc_cells dd cd cs s = some s' → s.first_processed = true → 0 < s.totalWeight →
      (∀ c ∈ accepted cd.threshold cs,
        c.channel0 + 1 < dd.bin_edges_x.length ∧ c.channel1 + 1 < dd.bin_edges_y.length) →
      s'.offset = s.offset ∧ 0 < s'.totalWeight ∧
      s'.mean.1 * s'.totalWeight = s.mean.1 * s.totalWeight
        + moment_sum dd.bin_edges_x (fun c => c.channel0) (accepted cd.threshold cs)
        - s.offset.1 * weight_sum (accepted cd.threshold cs) ∧
      s'.mean.2 * s'.totalWeight = s.mean.2 * s.totalWeight
        + moment_sum dd.bin_edges_y (fun c => c.channel1) (accepted cd.threshold cs)
        - s.offset.2 * weight_sum (accepted cd.threshold cs) := by
  intro cs
  induction cs with
  | nil =>
    intro s s' h _ hW _
    simp only [calc_cells, Option.some.injEq] at h
    subst h
    simp [accepted, moment_sum, weight_sum, hW]
  | cons c cs ih =>
    intro s s' h hf hW hed
    by_cases hc : cd.threshold < c.activation
    · rw [accepted_cons_of_lt _ _ _ hc] at hed ⊢
      obtain ⟨h0, h1⟩ := hed c (List.mem_cons_self _ _)
      simp only [calc_cells, calc_cell_accepted dd cd s c hc h0 h1] at h
      have hw : 0 < c.activation := lt_of_le_of_lt hthr hc
      have hne : s.totalWeight + c.activation ≠ 0 := by positivity
      obtain ⟨e1, e2, e3, e4⟩ := ih _ s' h rfl (by simp only; linarith)
        (fun x hx => hed x (List.mem_cons_of_mem _ hx))
      simp only [hf, if_true] at e1 e3 e4
      refine ⟨e1, e2, ?_, ?_⟩
      · rw [e3]; simp only [moment_sum, weight_sum, List.map_cons, List.sum_cons]
        field_simp; ring
      · rw [e4]; simp only [moment_sum, weight_sum, List.map_cons, List.sum_cons]
        field_simp; ring
    · rw [accepted_cons_of_not_lt _ _ _ hc] at hed ⊢
      simp only [calc_cells, calc_cell_rejected dd cd s c hc] at h
      have key := ih _ s' h hf hW hed
      exact key

/-- From the initial state, the mean plus the offset, times the total weight,
is the sum of `w * p` over the accepted cells. -/
theorem calc_cells_mean_init (dd : Design) (cd : Conditions) (hthr : 0 ≤ cd.threshold) :
    ∀ (cs : List Cell) (s s' : ClusterProps),
      calc_cells dd cd cs s = some s' → s.first_processed = false → s.totalWeight = 0 →
      s.mean = (0, 0) →
      (∀ c ∈ accepted cd.threshold cs,
        c.channel0 + 1 < dd.bin_edges_x.length ∧ c.channel1 + 1 < dd.bin_edges_y.length) →
      accepted cd.threshold cs ≠ [] →
      0 < s'.totalWeight ∧
      (s'.mean.1 + s'.offset.1) * s'.totalWeight
        = moment_sum dd.bin_edges_x (fun c => c.channel0) (accepted cd.threshold cs) ∧
      (s'.mean.2 + s'.offset.2) * s'.totalWeight
        = moment_sum dd.bin_edges_y (fun c => c.channel1) (accepted cd.threshold cs) := by
  intro cs
  induction cs with
  | nil => intro s s' _ _ _ _ _ hne; exact absurd rfl hne
  | cons c cs ih =>
    intro s s' h hf hW hm hed hne
    by_cases hc : cd.threshold < c.activation
    · rw [accepted_cons_of_lt _ _ _ hc] at hed ⊢
      obtain ⟨h0, h1⟩ := hed c (List.mem_cons_self _ _)
      simp only [calc_cells, calc_cell_accepted dd cd s c hc h0 h1] at h
      have hw : 0 < c.activation := lt_of_le_of_lt hthr hc
      have hed' := fun x hx => hed x (List.mem_cons_of_mem _ hx)
      obtain ⟨e1, e2, e3, e4⟩ := calc_cells_mean dd cd hthr cs _ s' h rfl
        (by simp only [hW]; linarith) hed'
      obtain ⟨t, ht, -, -, f3, -, -⟩ := calc_cells_fields dd cd cs
        { mean :=
               (s.mean.1 + (bin_mid dd.bin_edges_x c.channel0
                  - (if s.first_processed then s.offset
                     else (bin_mid dd.bin_edges_x c.channel0,
                           bin_mid dd.bin_edges_y c.channel1)).1 - s.mean.1)
                  * (c.activation / (s.totalWeight + c.activation)),
                s.mean.2 + (bin_mid dd.bin_edges_y c.channel1
                  - (if s.first_processed then s.offset
                     else (bin_mid dd.bin_edges_x c.channel0,
                           bin_mid dd.bin_edges_y c.channel1)).2 - s.mean.2)
                  * (c.activation / (s.totalWeight + c.activation))),
             var := (s.var.1 + bin_width dd.bin_edges_x c.channel0,
                     s.var.2 + bin_width dd.bin_edges_y c.channel1),
             totalWeight := s.totalWeight + c.activation,
             offset := if s.first_processed then s.offset
                       else (bin_mid dd.bin_edges_x c.channel0,
                             bin_mid dd.bin_edges_y c.channel1),
             first_processed := true,
             phiIndices := s.phiIndices ++ [(c.channel0 : Int)],
             etaIndices := s.etaIndices ++ [(c.channel1 : Int)] } hed'
      rw [h] at ht
      cases ht
      simp only [hf, hW, hm, Bool.false_eq_true, if_false, zero_add, sub_self, zero_mul] at e1 e3 e4 f3
      refine ⟨e2, ?_, ?_⟩
      · rw [add_mul, e3, e1, f3]
        simp only [moment_sum, weight_sum, List.map_cons, List.sum_cons]; ring
      · rw [add_mul, e4, e1, f3]
        simp only [moment_sum, weight_sum, List.map_cons, List.sum_cons]; ring
    · rw [accepted_cons_of_not_lt _ _ _ hc] at hed hne ⊢
      simp only [calc_cells, calc_cell_rejected dd cd s c hc] at h
      have key := ih _ s' h hf hW hm hed hne
      exact key

theorem foldl_max_eq (l : List Nat) : ∀ a : Nat, l.foldl max a = max a (max_channel l) := by
  induction l with
  | nil => intro a; simp [max_channel]
  | cons b l ih => intro a; simp [List.foldl_cons, ih, max_channel, max_assoc]

theorem foldl_min_eq (l : List Nat) : ∀ a : Nat, l.foldl min a = min_channel (a :: l) := by
  induction l with
  | nil => intro a; simp [min_channel]
  | cons b l ih =>
    intro a
    rw [List.foldl_cons, ih]
    cases l with
    | nil => simp [min_channel]
    | cons c l => simp [min_channel, min_assoc]

theorem foldl_max_cast (l : List Nat) :
    ∀ a : Nat, (l.map (fun (n : Nat) => (n : Int))).foldl max (a : Int) = ((l.foldl max a : Nat) : Int) := by
  induction l with
  | nil => intro a; rfl
  | cons b l ih => intro a; simp only [List.map_cons, List.foldl_cons, ← Nat.cast_max, ih]

theorem foldl_min_cast (l : List Nat) :
    ∀ a : Nat, (l.map (fun (n : Nat) => (n : Int))).foldl min (a : Int) = ((l.foldl min a : Nat) : Int) := by
  induction l with
  | nil => intro a; rfl
  | cons b l ih => intro a; simp only [List.map_cons, List.foldl_cons, ← Nat.cast_min, ih]

theorem min_channel_le_max_channel : ∀ l : List Nat, min_channel l ≤ max_channel l
  | [] => le_refl _
  | [a] => by simp [min_channel, max_channel]
  | a :: b :: l => by
    have := min_channel_le_max_channel (b :: l)
    simp only [min_channel, max_channel] at this ⊢
    omega

/-- The span the code computes in `int` is the channel extent plus one. -/
theorem index_span_cast (l : List Nat) (h : l ≠ []) :
    index_span (l.map (fun (n : Nat) => (n : Int))) = some ((channel_extent l : Int) + 1) := by
  cases l with
  | nil => exact absurd rfl h
  | cons a l =>
    have hle := min_channel_le_max_channel (a :: l)
    simp only [List.map_cons, index_span, List.foldl_cons, max_self, min_self, foldl_max_cast,
      foldl_min_cast, foldl_max_eq, foldl_min_eq, channel_extent]
    have : max a (max_channel l) = max_channel (a :: l) := by simp [max_channel]
    rw [this, Nat.cast_sub hle]

theorem cluster_cells_ne_nil (cells : List Cell) (cluster : List Nat) (hne : cluster ≠ [])
    (hidx : ∀ i ∈ cluster, i < cells.length) : cluster_cells cells cluster ≠ [] := by
  cases cluster with
  | nil => exact absurd rfl hne
  | cons i rest =>
    have hi : i < cells.length := hidx i (List.mem_cons_self _ _)
    rw [cluster_cells_cons cells i rest _ (List.getElem?_eq_getElem hi)]
    exact List.cons_ne_nil _ _

/-- Closed form of `calc_cluster_properties` started from zero. -/
theorem calc_cluster_properties_closed (cluster : List Nat) (cells : List Cell) (dd : Design)
    (cd : Conditions) (hne : cluster ≠ []) (hidx : ∀ i ∈ cluster, i < cells.length)
    (hed : ∀ c ∈ accepted cd.threshold (cluster_cells cells cluster),
      c.channel0 + 1 < dd.bin_edges_x.length ∧ c.channel1 + 1 < dd.bin_edges_y.length) :
    ∃ p, calc_cluster_properties cluster cells dd cd (0, 0) (0, 0) 0 = some p ∧
      p.totalWeight = weight_sum (accepted cd.threshold (cluster_cells cells cluster)) ∧
      p.var.1 = width_sum dd.bin_edges_x (fun c => c.channel0)
          (accepted cd.threshold (cluster_cells cells cluster))
        / ((channel_extent ((cluster_cells cells cluster).map (fun c => c.channel0)) : ℚ) + 1) ∧
      p.var.2 = width_sum dd.bin_edges_y (fun c => c.channel1)
          (accepted cd.threshold (cluster_cells cells cluster))
        / ((channel_extent ((cluster_cells cells cluster).map (fun c => c.channel1)) : ℚ) + 1) ∧
      (0 ≤ cd.threshold → accepted cd.threshold (cluster_cells cells cluster) ≠ [] →
        0 < p.totalWeight ∧
        p.mean.1 * p.totalWeight = moment_sum dd.bin_edges_x (fun c => c.channel0)
          (accepted cd.threshold (cluster_cells cells cluster)) ∧
        p.mean.2 * p.totalWeight = moment_sum dd.bin_edges_y (fun c => c.channel1)
          (accepted cd.threshold (cluster_cells cells cluster))) := by
  obtain ⟨s, hs, e1, e2, e3, e4, e5⟩ := calc_cells_fields dd cd (cluster_cells cells cluster)
    { mean := (0, 0), var := (0, 0), totalWeight := 0, offset := (0, 0),
      first_processed := false, phiIndices := [], etaIndices := [] } hed
  have hcs := cluster_cells_ne_nil cells cluster hne hidx
  have m0 : (cluster_cells cells cluster).map (fun c => c.channel0) ≠ [] := by
    simpa using hcs
  have m1 : (cluster_cells cells cluster).map (fun c => c.channel1) ≠ [] := by
    simpa using hcs
  have p0 := index_span_cast _ m0
  have p1 := index_span_cast _ m1
  simp only [List.map_map, List.nil_append] at p0 p1 e1 e2
  have q0 : index_span s.phiIndices = some ((channel_extent
      ((cluster_cells cells cluster).map (fun c => c.channel0)) : Int) + 1) := by
    rw [e1]; exact p0
  have q1 : index_span s.etaIndices = some ((channel_extent
      ((cluster_cells cells cluster).map (fun c => c.channel1)) : Int) + 1) := by
    rw [e2]; exact p1
  have hcalc : calc_cluster_properties cluster cells dd cd (0, 0) (0, 0) 0 =
      some { s with
        var := (s.var.1 / (((channel_extent
                  ((cluster_cells cells cluster).map (fun c => c.channel0)) : Int) + 1 : Int) : ℚ),
                s.var.2 / (((channel_extent
                  ((cluster_cells cells cluster).map (fun c => c.channel1)) : Int) + 1 : Int) : ℚ)),
        mean := (s.mean.1 + s.offset.1, s.mean.2 + s.offset.2) } := by
    simp only [calc_cluster_properties, calc_loop_eq_calc_cells cells dd cd cluster _ hidx, hs,
      q0, q1]
  refine ⟨_, hcalc, ?_, ?_, ?_, ?_⟩
  · simpa using e3
  · simp [e4]
  · simp [e5]
  · intro hthr hacc
    obtain ⟨g1, g2, g3⟩ := calc_cells_mean_init dd cd hthr _ _ s hs rfl rfl rfl hed hacc
    exact ⟨g1, g2, g3⟩

/-- The module check passes when every listed cell is on the module. -/
theorem all_on_module_true (cells : List Cell) (module_idx : Nat) :
    ∀ cluster : List Nat, (∀ i ∈ cluster, i < cells.length) →
      (∀ c ∈ cluster_cells cells cluster, c.module_index = module_idx) →
      all_on_module cells module_idx cluster = some true := by
  intro cluster
  induction cluster with
  | nil => intro _ _; rfl
  | cons i rest ih =>
    intro hidx hmod
    have hi : i < cells.length := hidx i (List.mem_cons_self _ _)
    have hget : cells[i]? = some cells[i] := List.getElem?_eq_getElem hi
    rw [cluster_cells_cons cells i rest _ hget] at hmod
    have h0 : cells[i].module_index = module_idx := hmod _ (List.mem_cons_self _ _)
    simp only [all_on_module, hget, h0, ne_eq, not_true_eq_false, if_false]
    exact ih (fun j hj => hidx j (List.mem_cons_of_mem _ hj))
      (fun c hc => hmod c (List.mem_cons_of_mem _ hc))

/-- The first listed cell of a non-empty cluster with indices in range. -/
theorem front_cell (cells : List Cell) (cluster : List Nat) (hne : cluster ≠ [])
    (hidx : ∀ i ∈ cluster, i < cells.length) :
    ∃ c0, cluster.head?.bind (fun i => cells[i]?) = some c0 ∧
      c0 ∈ cluster_cells cells cluster := by
  cases cluster with
  | nil => exact absurd rfl hne
  | cons i rest =>
    have hi : i < cells.length := hidx i (List.mem_cons_self _ _)
    have hget : cells[i]? = some cells[i] := List.getElem?_eq_getElem hi
    refine ⟨cells[i], by simp [hget], ?_⟩
    rw [cluster_cells_cons cells i rest _ hget]
    exact List.mem_cons_self _ _

/-- On a valid cluster `fill_measurement` reaches its last assertion, and
fills the record from the cluster properties when it holds. -/
theorem fill_measurement_eq (measurement : Measurement) (cluster : List Nat) (index : Nat)
    (cells : List Cell) (det_descr : List Design) (det_cond : List Conditions)
    (module_idx : Nat) (cd : Conditions) (dd : Design)
    (hv : ValidCluster cluster cells det_descr det_cond module_idx cd dd) (p : ClusterProps)
    (hp : calc_cluster_properties cluster cells dd cd (0, 0) (0, 0) 0 = some p) :
    fill_measurement measurement cluster index cells det_descr det_cond =
      if p.totalWeight > 0 then
        .ok { measurement with
              surface_link := cd.geometry_id,
              local_position := (p.mean.1 + cd.measurement_translation.1,
                                 p.mean.2 + cd.measurement_translation.2),
              local_variance := (p.var.1 * p.var.1 / 12, p.var.2 * p.var.2 / 12),
              identifier := index,
              cluster_index := index,
              dimensions := dd.dimensions,
              subspace := dd.subspace }
      else .error .assert_total_weight := by
  obtain ⟨c0, hc0, hmem⟩ := front_cell cells cluster hv.nonempty hv.in_range
  have hm : c0.module_index = module_idx := hv.same_module c0 hmem
  have hne : cluster.isEmpty = false := by
    cases cluster with
    | nil => exact absurd rfl hv.nonempty
    | cons _ _ => rfl
  have hall := all_on_module_true cells module_idx cluster hv.in_range hv.same_module
  simp only [fill_measurement, hne, same_module_check, hc0, hm, hall, hv.cond, hv.design, hp,
    Bool.false_eq_true, if_false]

/-! ### Lemmas on the partitioned builder -/

/-- A member cell that is not above the threshold leaves the statistics of
`aggregate_cluster` untouched. -/
theorem aggregate_member_rejected (md : SiliconModule) (link pos : Nat) (c : Cell) (s s' : AggState)
    (hc : c.activation ≤ md.threshold) (h : aggregate_member md link pos c s = some s') :
    s'.totalWeight = s.totalWeight ∧ s'.mean = s.mean ∧ s'.var = s.var ∧ s'.offset = s.offset := by
  have hn : ¬ c.activation > md.threshold := not_lt.mpr hc
  simp only [aggregate_member, signal_cell_modelling, hn, if_false] at h
  split_ifs at h <;> simp only [Option.some.injEq] at h <;> subst h <;> simp

theorem aggregate_step_rejected (cells : List Cell) (md : SiliconModule) (f : List Nat)
    (start cid link module_idx : Nat) (s : AggState) (j : Nat)
    (hdeg : ∀ c, cells[(j + start) % 4294967296]? = some c → c.module_index = module_idx →
      f[j]? = some cid → c.activation ≤ md.threshold) :
    ∀ r, aggregate_step cells md f start cid link module_idx s j = some r →
      ∀ s', (r = .next s' ∨ r = .stop s') →
      s'.totalWeight = s.totalWeight ∧ s'.mean = s.mean ∧ s'.var = s.var ∧
        s'.offset = s.offset := by
  intro r h s' hr
  unfold aggregate_step at h
  cases hcell : cells[(j + start) % 4294967296]? with
  | none => simp [hcell] at h
  | some c =>
    simp only [hcell] at h
    by_cases hm : c.module_index ≠ module_idx
    · rw [if_pos hm] at h
      simp only [Option.some.injEq] at h
      subst h
      rcases hr with hr | hr
      · cases hr
      · cases hr; exact ⟨rfl, rfl, rfl, rfl⟩
    · rw [if_neg hm] at h
      cases hf : f[j]? with
      | none => simp [hf] at h
      | some fj =>
        simp only [hf] at h
        by_cases hcid : fj = cid
        · simp only [hcid, if_true] at h
          cases hmem : aggregate_member md link ((j + start) % 4294967296) c s with
          | none => simp [hmem] at h
          | some s2 =>
            have key := aggregate_member_rejected md link _ c s s2
              (hdeg c hcell (not_not.mp hm) (by rw [hf, hcid])) hmem
            simp only [hmem] at h
            split_ifs at h <;> simp only [Option.some.injEq] at h <;> subst h <;>
              rcases hr with hr | hr <;> cases hr <;> exact key
        · simp only [hcid, if_false] at h
          split_ifs at h <;> simp only [Option.some.injEq] at h <;> subst h <;>
            rcases hr with hr | hr <;> cases hr <;> exact ⟨rfl, rfl, rfl, rfl⟩

/-- The loop of `aggregate_cluster` leaves the statistics untouched when no
member cell is above the threshold. -/
theorem aggregate_loop_rejected (cells : List Cell) (md : SiliconModule) (f : List Nat)
    (start cid link module_idx : Nat) :
    ∀ (js : List Nat) (s s' : AggState),
      (∀ j ∈ js, ∀ c, cells[(j + start) % 4294967296]? = some c →
        c.module_index = module_idx → f[j]? = some cid → c.activation ≤ md.threshold) →
      aggregate_loop cells md f start cid link module_idx js s = some s' →
      s'.totalWeight = s.totalWeight ∧ s'.mean = s.mean ∧ s'.var = s.var ∧
        s'.offset = s.offset := by
  intro js
  induction js with
  | nil =>
    intro s s' _ h
    simp only [aggregate_loop, Option.some.injEq] at h
    subst h; exact ⟨rfl, rfl, rfl, rfl⟩
  | cons j js ih =>
    intro s s' hdeg h
    have step := aggregate_step_rejected cells md f start cid link module_idx s j
      (hdeg j (List.mem_cons_self _ _))
    cases hst : aggregate_step cells md f start cid link module_idx s j with
    | none => simp [aggregate_loop, hst] at h
    | some r =>
      cases r with
      | stop s2 =>
        simp only [aggregate_loop, hst, Option.some.injEq] at h
        subst h
        exact step _ hst _ (Or.inr rfl)
      | next s2 =>
        simp only [aggregate_loop, hst] at h
        obtain ⟨a1, a2, a3, a4⟩ := step _ hst s2 (Or.inl rfl)
        obtain ⟨b1, b2, b3, b4⟩ := ih s2 s' (fun k hk => hdeg k (List.mem_cons_of_mem _ hk)) h
        exact ⟨b1.trans a1, b2.trans a2, b3.trans a3, b4.trans a4⟩

/-! ### Further lemmas and evaluations -/

theorem demo_cluster_cells :
    cluster_cells demo_cells [0, 1, 2] = [⟨0, 0, 10, 0⟩, ⟨2, 0, 1, 0⟩, ⟨1, 1, 30, 0⟩] := rfl

theorem demo_accepted :
    accepted demo_conditions.threshold (cluster_cells demo_cells [0, 1, 2])
      = [⟨0, 0, 10, 0⟩, ⟨1, 1, 30, 0⟩] := by
  rw [demo_cluster_cells]
  norm_num [accepted, demo_conditions, List.filter_cons]

theorem demo_valid :
    ValidCluster [0, 1, 2] demo_cells [demo_design] [demo_conditions] 0 demo_conditions
      demo_design where
  nonempty := by decide
  in_range := by decide
  same_module := by rw [demo_cluster_cells]; decide
  cond := rfl
  design := rfl
  edges := by rw [demo_accepted]; decide

theorem calc_cell_threshold_only (dd : Design) (cd cd' : Conditions)
    (h : cd'.threshold = cd.threshold) (s : ClusterProps) (c : Cell) :
    calc_cell dd cd' s c = calc_cell dd cd s c := by
  simp only [calc_cell, signal_cell_modelling, h]

theorem calc_loop_threshold_only (cells : List Cell) (dd : Design) (cd cd' : Conditions)
    (h : cd'.threshold = cd.threshold) :
    ∀ (cluster : List Nat) (s : ClusterProps),
      calc_loop cells dd cd' cluster s = calc_loop cells dd cd cluster s := by
  intro cluster
  induction cluster with
  | nil => intro s; rfl
  | cons i rest ih =>
    intro s
    simp only [calc_loop, calc_cell_threshold_only dd cd cd' h, ih]

theorem calc_cluster_properties_threshold_only (cluster : List Nat) (cells : List Cell)
    (dd : Design) (cd cd' : Conditions) (h : cd'.threshold = cd.threshold)
    (mean var : point2) (totalWeight : ℚ) :
    calc_cluster_properties cluster cells dd cd' mean var totalWeight
      = calc_cluster_properties cluster cells dd cd mean var totalWeight := by
  simp only [calc_cluster_properties, calc_loop_threshold_only cells dd cd cd' h]

theorem demo_fill :
    fill_measurement demo_measurement [0, 1, 2] 4 demo_cells [demo_design] [demo_conditions]
      = .ok { surface_link := 7, local_position := (10 + 5 / 4, 20 + 5 / 2),
              local_variance := (2 / 3 * (2 / 3) / 12, 2 * 2 / 12), identifier := 4, cluster_index := 4,
              dimensions := 2, subspace := (0, 1), diameter := 0 } := by
  norm_num [fill_measurement, same_module_check, all_on_module, calc_cluster_properties,
    calc_loop, calc_cell, position_from_cell, signal_cell_modelling, index_span, demo_cells,
    demo_design, demo_conditions, demo_measurement]

/-- The cluster properties of a cluster with one accepted cell. -/
theorem calc_cluster_properties_single (c : Cell) (i : Nat) (cells : List Cell) (dd : Design)
    (cd : Conditions) (hc : cells[i]? = some c) (hact : cd.threshold < c.activation)
    (h0 : c.channel0 + 1 < dd.bin_edges_x.length)
    (h1 : c.channel1 + 1 < dd.bin_edges_y.length) :
    calc_cluster_properties [i] cells dd cd (0, 0) (0, 0) 0 =
      some { mean := (bin_mid dd.bin_edges_x c.channel0, bin_mid dd.bin_edges_y c.channel1),
             var := (bin_width dd.bin_edges_x c.channel0, bin_width dd.bin_edges_y c.channel1),
             totalWeight := c.activation,
             offset := (bin_mid dd.bin_edges_x c.channel0, bin_mid dd.bin_edges_y c.channel1),
             first_processed := true,
             phiIndices := [(c.channel0 : Int)],
             etaIndices := [(c.channel1 : Int)] } := by
  simp [calc_cluster_properties, calc_loop, hc, calc_cell_accepted dd cd _ c hact h0 h1,
    index_span]

theorem bin_mid_eq (edges : List ℚ) (c : Nat) (h : c + 1 < edges.length) :
    bin_mid edges c = (edges[c] + edges[c + 1]) / 2 := by
  have a : c < edges.length := by omega
  simp [bin_mid, List.getD_eq_getElem?_getD, List.getElem?_eq_getElem a,
    List.getElem?_eq_getElem h]

theorem bin_width_eq (edges : List ℚ) (c : Nat) (h : c + 1 < edges.length) :
    bin_width edges c = edges[c + 1] - edges[c] := by
  have a : c < edges.length := by omega
  simp [bin_width, List.getD_eq_getElem?_getD, List.getElem?_eq_getElem a,
    List.getElem?_eq_getElem h]

/-- On a valid cluster without accepted cells `fill_measurement` stops at
the assertion on the total weight. -/
theorem fill_measurement_rejected (measurement : Measurement) (cluster : List Nat)
    (index : Nat) (cells : List Cell) (det_descr : List Design) (det_cond : List Conditions)
    (module_idx : Nat) (cd : Conditions) (dd : Design)
    (hv : ValidCluster cluster cells det_descr det_cond module_idx cd dd)
    (hnone : accepted cd.threshold (cluster_cells cells cluster) = []) :
    fill_measurement measurement cluster index cells det_descr det_cond
      = .error .assert_total_weight := by
  obtain ⟨p, hp, hW, -⟩ :=
    calc_cluster_properties_closed cluster cells dd cd hv.nonempty hv.in_range hv.edges
  rw [fill_measurement_eq measurement cluster index cells det_descr det_cond module_idx cd dd
    hv p hp]
  have : p.totalWeight = 0 := by rw [hW, hnone]; rfl
  rw [if_neg]
  rw [this]; exact lt_irrefl _

theorem aggregate_scan_rejected (seed : ChannelSeed) (cells : List Cell)
    (det_descr : List SiliconModule) (f : List Nat) (start finish cid : Nat)
    (cell_links : List Nat) (link : Nat) (disjoint_set : List Nat) (cluster_size : Option Nat)
    (hdeg : ∀ j c md, cells[(j + start) % 4294967296]? = some c → f[j]? = some cid →
      det_descr[c.module_index]? = some md → c.activation ≤ md.threshold)
    (md : SiliconModule) (s : AggState)
    (h : aggregate_scan seed cells det_descr f start finish cid cell_links link disjoint_set
      cluster_size = some (md, s)) :
    s.totalWeight = 0 ∧ s.mean = (0, 0) ∧ s.var = (0, 0) ∧ s.offset = (0, 0) := by
  unfold aggregate_scan at h
  cases hc0 : cells[(cid + start) % 4294967296]? with
  | none => simp [hc0] at h
  | some c0 =>
    simp only [hc0] at h
    cases hmd : det_descr[c0.module_index]? with
    | none => simp [hmd] at h
    | some md0 =>
      simp only [hmd] at h
      cases hl : aggregate_loop cells md0 f start cid link c0.module_index
          (List.range' cid (((finish + 4294967296 - start) % 4294967296) % 65536 - cid))
          (aggregate_init seed cell_links disjoint_set cluster_size) with
      | none => simp [hl] at h
      | some s0 =>
        simp only [hl, Option.some.injEq, Prod.mk.injEq] at h
        obtain ⟨h1, h2⟩ := h
        subst h1 h2
        exact aggregate_loop_rejected cells md0 f start cid link c0.module_index _ _ _
          (fun j _ c hc hm hf => hdeg j c md0 hc hf (by rw [hm]; exact hmd)) hl

/-- The record `aggregate_cluster` fills for a cluster without accepted
cells. -/
theorem aggregate_cluster_rejected (seed : ChannelSeed) (sqrt : ℚ → ℚ)
    (cfg : clustering_config) (cells : List Cell) (det_descr : List SiliconModule)
    (f : List Nat) (start finish cid : Nat) (out : Measurement) (cell_links : List Nat)
    (link : Nat) (disjoint_set : List Nat) (cluster_size : Option Nat)
    (hdeg : ∀ j c md, cells[(j + start) % 4294967296]? = some c → f[j]? = some cid →
      det_descr[c.module_index]? = some md → c.activation ≤ md.threshold)
    (r : AggResult)
    (h : aggregate_cluster seed sqrt cfg cells det_descr f start finish cid out cell_links link
      disjoint_set cluster_size = some r) :
    ∃ c0 md, cells[(cid + start) % 4294967296]? = some c0 ∧
      det_descr[c0.module_index]? = some md ∧
      r.out.surface_link = md.geometry_id ∧
      r.out.local_position = md.measurement_translation ∧
      r.out.local_variance = (0, 0) ∧
      r.out.identifier = link ∧ r.out.cluster_index = link := by
  unfold aggregate_cluster at h
  cases hs : aggregate_scan seed cells det_descr f start finish cid cell_links link
      disjoint_set cluster_size with
  | none => simp [hs] at h
  | some ms =>
    obtain ⟨md, s⟩ := ms
    obtain ⟨e1, e2, e3, e4⟩ := aggregate_scan_rejected seed cells det_descr f start finish cid
      cell_links link disjoint_set cluster_size hdeg md s hs
    simp only [hs, Option.some.injEq] at h
    subst h
    unfold aggregate_scan at hs
    cases hc0 : cells[(cid + start) % 4294967296]? with
    | none => simp [hc0] at hs
    | some c0 =>
      simp only [hc0] at hs
      cases hmd : det_descr[c0.module_index]? with
      | none => simp [hmd] at hs
      | some md0 =>
        simp only [hmd] at hs
        cases hl : aggregate_loop cells md0 f start cid link c0.module_index
            (List.range' cid (((finish + 4294967296 - start) % 4294967296) % 65536 - cid))
            (aggregate_init seed cell_links disjoint_set cluster_size) with
        | none => simp [hl] at hs
        | some s0 =>
          simp only [hl, Option.some.injEq, Prod.mk.injEq] at hs
          obtain ⟨h1, h2⟩ := hs
          subst h1
          refine ⟨c0, md0, rfl, hmd, rfl, ?_, ?_, rfl, rfl⟩
          · simp [e2, e4]
          · simp [cluster_diameter, e3]

theorem demo_aggregate :
    aggregate_cluster saturating_seed unused_sqrt ⟨.MAXIMUM⟩ [⟨3, 5, 10, 0⟩] [demo_module] [0]
        0 1 0 demo_measurement [0] 4 [] none
      = some { out := { surface_link := 7, local_position := (7 / 2 + 10, 11 + 20),
                        local_variance := (1 / 4294967296 * (1 / 4294967296) / 12,
                                           2 / 4294967296 * (2 / 4294967296) / 12),
                        identifier := 4, cluster_index := 4, dimensions := 2,
                        subspace := (0, 1), diameter := 2 / 4294967296 },
               cell_links := [4], disjoint_set := [], cluster_size := none } := by
  norm_num [aggregate_cluster, aggregate_scan, aggregate_loop, aggregate_step,
    aggregate_member, aggregate_accept, aggregate_init, position_from_cell,
    signal_cell_modelling, demo_module, SiliconModule.design, List.range', saturating_seed,
    cluster_diameter, strategy_diameter, demo_measurement]

theorem demo_accepted_rejected :
    accepted demo_conditions.threshold (cluster_cells demo_cells [1, 3]) = [] := by
  have h : cluster_cells demo_cells [1, 3] = [⟨2, 0, 1, 0⟩, ⟨3, 5, 5, 0⟩] := rfl
  rw [h]
  norm_num [accepted, demo_conditions, List.filter_cons]

theorem demo_valid_rejected :
    ValidCluster [1, 3] demo_cells [demo_design] [demo_conditions] 0 demo_conditions
      demo_design where
  nonempty := by decide
  in_range := by decide
  same_module := by
    have h : cluster_cells demo_cells [1, 3] = [⟨2, 0, 1, 0⟩, ⟨3, 5, 5, 0⟩] := rfl
    rw [h]; decide
  cond := rfl
  design := rfl
  edges := by rw [demo_accepted_rejected]; intro c hc; cases hc

theorem demo_degenerate_cells :
    ∀ j c md, [(⟨3, 5, 5, 0⟩ : Cell)][(j + 0) % 4294967296]? = some c → [0][j]? = some 0 →
      [demo_module][c.module_index]? = some md → c.activation ≤ md.threshold := by
  intro j c md hc hf hmd
  cases j with
  | zero =>
    simp only [Nat.zero_add, Nat.zero_mod, List.getElem?_cons_zero, Option.some.injEq] at hc
    subst hc
    simp only [List.getElem?_cons_zero, Option.some.injEq] at hmd
    subst hmd
    norm_num [demo_module]
  | succ k => simp at hf

theorem demo_aggregate_degenerate :
    aggregate_cluster saturating_seed unused_sqrt ⟨.CHANNEL0⟩ [⟨3, 5, 5, 0⟩] [demo_module] [0]
        0 1 0 demo_measurement [0] 4 [] none = some demo_degenerate_result := by
  norm_num [aggregate_cluster, aggregate_scan, aggregate_loop, aggregate_step,
    aggregate_member, aggregate_accept, aggregate_init, position_from_cell,
    signal_cell_modelling, demo_module, SiliconModule.design, List.range', saturating_seed,
    cluster_diameter, strategy_diameter, demo_measurement, demo_degenerate_result]


/-! ### The claims -/

/-- Claim C1. For a non-empty cluster whose indices are in range, a design
whose bins cover the accepted cells, a threshold that is not negative and at
least one cell above the threshold, `calc_cluster_properties` (started from
zero, as `fill_measurement` does) returns, and the mean it returns, offset
added back, is on each axis the weighted average of the bin midpoints of the
accepted cells, the weights being the activations. The right-hand side does
not mention the offset, nor the cell it was taken from. -/
theorem calc_cluster_properties_mean_is_weighted_average (cluster : List Nat)
    (cells : List Cell) (dd : Design) (cd : Conditions) (hne : cluster ≠ [])
    (hidx : ∀ i ∈ cluster, i < cells.length)
    (hed : ∀ c ∈ accepted cd.threshold (cluster_cells cells cluster),
      c.channel0 + 1 < dd.bin_edges_x.length ∧ c.channel1 + 1 < dd.bin_edges_y.length)
    (hthr : 0 ≤ cd.threshold)
    (hacc : accepted cd.threshold (cluster_cells cells cluster) ≠ []) :
    ∃ p, calc_cluster_properties cluster cells dd cd (0, 0) (0, 0) 0 = some p ∧
      p.mean =
        (moment_sum dd.bin_edges_x (fun c => c.channel0)
            (accepted cd.threshold (cluster_cells cells cluster))
          / weight_sum (accepted cd.threshold (cluster_cells cells cluster)),
         moment_sum dd.bin_edges_y (fun c => c.channel1)
            (accepted cd.threshold (cluster_cells cells cluster))
          / weight_sum (accepted cd.threshold (cluster_cells cells cluster))) := by
  obtain ⟨p, hp, hW, -, -, hmean⟩ := calc_cluster_properties_closed cluster cells dd cd hne hidx hed
  obtain ⟨hpos, h1, h2⟩ := hmean hthr hacc
  refine ⟨p, hp, ?_⟩
  rw [← hW, ← h1, ← h2]
  have hne' : p.totalWeight ≠ 0 := ne_of_gt hpos
  ext
  · simp only; field_simp
  · simp only; field_simp

theorem calc_cluster_properties_mean_is_weighted_average_witness :
    ∃ p, calc_cluster_properties [0, 1, 2] demo_cells demo_design demo_conditions (0, 0) (0, 0) 0
        = some p ∧
      p.mean =
        (moment_sum demo_design.bin_edges_x (fun c => c.channel0)
            (accepted demo_conditions.threshold (cluster_cells demo_cells [0, 1, 2]))
          / weight_sum (accepted demo_conditions.threshold (cluster_cells demo_cells [0, 1, 2])),
         moment_sum demo_design.bin_edges_y (fun c => c.channel1)
            (accepted demo_conditions.threshold (cluster_cells demo_cells [0, 1, 2]))
          / weight_sum (accepted demo_conditions.threshold
              (cluster_cells demo_cells [0, 1, 2]))) :=
  calc_cluster_properties_mean_is_weighted_average [0, 1, 2] demo_cells demo_design
    demo_conditions (by decide) (by decide) demo_valid.edges
    (by norm_num [demo_conditions])
    (by rw [demo_accepted]; exact List.cons_ne_nil _ _)

/-- Claim C2, evaluated on the code. The cluster `[0, 1]` of `pair_cells` has
one accepted cell, on channel 0 of both axes, with bin widths 1 and 2; the
other cell, on channel 2 of the first axis, is below the threshold. The
diameter of the specification on the first axis is 1 / (0 + 1), so the local
variance of the claim is (1/12, 4/12). `fill_measurement` writes
(1/108, 4/12): it divides the width by the extent over both listed cells,
2 + 1. -/
theorem fill_measurement_local_variance_listed_extent :
    accepted demo_conditions.threshold (cluster_cells pair_cells [0, 1]) = [⟨0, 0, 10, 0⟩] ∧
    axis_diameter demo_design.bin_edges_x (fun c => c.channel0) demo_conditions.threshold
      (cluster_cells pair_cells [0, 1]) = 1 ∧
    axis_diameter demo_design.bin_edges_y (fun c => c.channel1) demo_conditions.threshold
      (cluster_cells pair_cells [0, 1]) = 2 ∧
    (fill_measurement demo_measurement [0, 1] 4 pair_cells [demo_design]
      [demo_conditions]).toOption.map (fun m => m.local_variance) = some (1 / 108, 4 / 12) ∧
    ((1 : ℚ) / 108, (4 : ℚ) / 12) ≠ (1 * 1 / 12, 2 * 2 / 12) := by
  have hcells : cluster_cells pair_cells [0, 1] = [⟨0, 0, 10, 0⟩, ⟨2, 0, 1, 0⟩] := rfl
  have hacc : accepted demo_conditions.threshold (cluster_cells pair_cells [0, 1])
      = [⟨0, 0, 10, 0⟩] := by
    rw [hcells]
    norm_num [accepted, demo_conditions, List.filter_cons]
  refine ⟨hacc, ?_, ?_, ?_, ?_⟩
  · rw [axis_diameter, hacc]
    norm_num [width_sum, bin_width, channel_extent, max_channel, min_channel, demo_design]
  · rw [axis_diameter, hacc]
    norm_num [width_sum, bin_width, channel_extent, max_channel, min_channel, demo_design]
  · norm_num [fill_measurement, same_module_check, all_on_module, calc_cluster_properties,
      calc_loop, calc_cell, position_from_cell, signal_cell_modelling, index_span,
      demo_design, demo_conditions, demo_measurement, pair_cells, Except.toOption]
  · norm_num

/-- Claim C3. The signal model returns the activation unchanged; the total
weight returned by `calc_cluster_properties` is the sum of the activations of
the listed cells whose activation is strictly above the threshold; and a cell
whose activation equals the threshold leaves the total weight, the mean and
the accumulated widths as they were. -/
theorem calc_cluster_properties_total_weight (cluster : List Nat) (cells : List Cell)
    (dd : Design) (cd : Conditions) (hne : cluster ≠ [])
    (hidx : ∀ i ∈ cluster, i < cells.length)
    (hed : ∀ c ∈ accepted cd.threshold (cluster_cells cells cluster),
      c.channel0 + 1 < dd.bin_edges_x.length ∧ c.channel1 + 1 < dd.bin_edges_y.length) :
    (∀ signal_in : ℚ, signal_cell_modelling signal_in cd = signal_in) ∧
    (∃ p, calc_cluster_properties cluster cells dd cd (0, 0) (0, 0) 0 = some p ∧
      p.totalWeight =
        (((cluster_cells cells cluster).filter
          (fun c => decide (cd.threshold < c.activation))).map (fun c => c.activation)).sum) ∧
    (∀ (s : ClusterProps) (c : Cell), c.activation = cd.threshold →
      ∃ s', calc_cell dd cd s c = some s' ∧ s'.totalWeight = s.totalWeight ∧
        s'.mean = s.mean ∧ s'.var = s.var) := by
  refine ⟨fun _ => rfl, ?_, ?_⟩
  · obtain ⟨p, hp, hW, -⟩ := calc_cluster_properties_closed cluster cells dd cd hne hidx hed
    exact ⟨p, hp, hW⟩
  · intro s c hc
    refine ⟨_, calc_cell_rejected dd cd s c (by rw [hc]; exact lt_irrefl _), rfl, rfl, rfl⟩

theorem calc_cluster_properties_total_weight_witness :
    (∀ signal_in : ℚ, signal_cell_modelling signal_in demo_conditions = signal_in) ∧
    (∃ p, calc_cluster_properties [0, 1, 2] demo_cells demo_design demo_conditions (0, 0) (0, 0) 0
        = some p ∧
      p.totalWeight =
        (((cluster_cells demo_cells [0, 1, 2]).filter
          (fun c => decide (demo_conditions.threshold < c.activation))).map
            (fun c => c.activation)).sum) ∧
    (∀ (s : ClusterProps) (c : Cell), c.activation = demo_conditions.threshold →
      ∃ s', calc_cell demo_design demo_conditions s c = some s' ∧
        s'.totalWeight = s.totalWeight ∧ s'.mean = s.mean ∧ s'.var = s.var) :=
  calc_cluster_properties_total_weight [0, 1, 2] demo_cells demo_design demo_conditions
    (by decide) (by decide) demo_valid.edges

/-- Claim C4, evaluated on the code. The clusters `[0]` and `[0, 1]` of the
example event have the same accepted cells (cell 1 is below the threshold),
yet `calc_cluster_properties` returns `var = (1, 2)` for the first and
`var = (1 / 3, 2)` for the second: the rejected cell, on channel 2 of the
first axis, widens the extent that divides the accumulated widths. -/
theorem calc_cluster_properties_extent_over_all_cells :
    accepted demo_conditions.threshold (cluster_cells demo_cells [0, 1])
      = accepted demo_conditions.threshold (cluster_cells demo_cells [0]) ∧
    (calc_cluster_properties [0] demo_cells demo_design demo_conditions (0, 0) (0, 0) 0).map
      (fun p => p.var) = some (1, 2) ∧
    (calc_cluster_properties [0, 1] demo_cells demo_design demo_conditions (0, 0) (0, 0) 0).map
      (fun p => p.var) = some (1 / 3, 2) := by
  refine ⟨?_, ?_, ?_⟩
  · have h1 : cluster_cells demo_cells [0, 1] = [⟨0, 0, 10, 0⟩, ⟨2, 0, 1, 0⟩] := rfl
    have h0 : cluster_cells demo_cells [0] = [⟨0, 0, 10, 0⟩] := rfl
    rw [h1, h0]
    norm_num [accepted, demo_conditions, List.filter_cons]
  · norm_num [calc_cluster_properties, calc_loop, calc_cell, position_from_cell,
      signal_cell_modelling, index_span, demo_cells, demo_design, demo_conditions]
  · norm_num [calc_cluster_properties, calc_loop, calc_cell, position_from_cell,
      signal_cell_modelling, index_span, demo_cells, demo_design, demo_conditions]

/-- Claim C5, evaluated on the code. For a partition that holds the single
accepted cell (3, 5), and whatever the two seeds are, the running bounds
after the loop are the minimum of the lower seed and the channel, and the
maximum of the upper seed and the channel: a lower bound never ends above its
seed, an upper bound never below. With the saturating seeds the bounds on
the first axis end at 0 and 4294967295 instead of 3 and 3, and the diameter
is the accumulated width over `2^32` instead of over 1. -/
theorem aggregate_scan_single_cell_bounds (seed : ChannelSeed) :
    aggregate_scan seed [⟨3, 5, 10, 0⟩] [demo_module] [0] 0 1 0 [0] 4 [] none
      = some (demo_module, demo_scan seed) ∧
    (demo_scan seed).min_channel0 = min seed.from_lowest 3 ∧
    (demo_scan seed).max_channel0 = max seed.from_max 3 ∧
    (demo_scan seed).min_channel1 = min seed.from_lowest 5 ∧
    (demo_scan seed).max_channel1 = max seed.from_max 5 ∧
    (demo_scan saturating_seed).min_channel0 = 0 ∧
    (demo_scan saturating_seed).max_channel0 = 4294967295 ∧
    cluster_diameter (demo_scan saturating_seed) = (1 / 4294967296, 2 / 4294967296) := by
  refine ⟨?_, rfl, rfl, rfl, rfl, rfl, rfl, ?_⟩
  · norm_num [aggregate_scan, aggregate_loop, aggregate_step, aggregate_member,
      aggregate_accept, aggregate_init, position_from_cell, signal_cell_modelling, demo_module,
      SiliconModule.design, List.range', demo_scan]
  · norm_num [cluster_diameter, demo_scan, saturating_seed]

/-- Claim C6. For a cell with `channel0 + 1` and `channel1 + 1` inside the
bin edges, `position_from_cell` returns (all four lookups are in range), the
position is on each axis the midpoint of the two edges of the bin, and the
width written is the difference of the two edges. -/
theorem position_from_cell_midpoint (cell : Cell) (dd : Design)
    (h0 : cell.channel0 + 1 < dd.bin_edges_x.length)
    (h1 : cell.channel1 + 1 < dd.bin_edges_y.length) :
    position_from_cell cell dd =
      some (((dd.bin_edges_x[cell.channel0] + dd.bin_edges_x[cell.channel0 + 1]) / 2,
             (dd.bin_edges_y[cell.channel1] + dd.bin_edges_y[cell.channel1 + 1]) / 2),
            (dd.bin_edges_x[cell.channel0 + 1] - dd.bin_edges_x[cell.channel0],
             dd.bin_edges_y[cell.channel1 + 1] - dd.bin_edges_y[cell.channel1])) := by
  have a0 : cell.channel0 < dd.bin_edges_x.length := by omega
  have a1 : cell.channel1 < dd.bin_edges_y.length := by omega
  simp only [position_from_cell,
    List.getElem?_eq_getElem a0, List.getElem?_eq_getElem a1, List.getElem?_eq_getElem h0,
    List.getElem?_eq_getElem h1]
  congr 2
  · congr 1 <;> ring

theorem position_from_cell_midpoint_witness :
    position_from_cell ⟨1, 1, 30, 0⟩ demo_design = some ((3 / 2, 3), (1, 2)) := by
  have h := position_from_cell_midpoint ⟨1, 1, 30, 0⟩ demo_design (by decide) (by decide)
  rw [h]
  norm_num [demo_design]

/-- Claim C7. For a valid cluster that `fill_measurement` accepts, the local
position written is, on each axis, the mean returned by
`calc_cluster_properties` (offset added back) plus the translation of the
module; and with the translation of the module changed by `t`, the call
fills the same record except that the local position is moved by `t`. -/
theorem fill_measurement_local_position (measurement : Measurement) (cluster : List Nat)
    (index : Nat) (cells : List Cell) (det_descr : List Design) (det_cond : List Conditions)
    (module_idx : Nat) (cd : Conditions) (dd : Design)
    (hv : ValidCluster cluster cells det_descr det_cond module_idx cd dd) (m' : Measurement)
    (hok : fill_measurement measurement cluster index cells det_descr det_cond = .ok m')
    (t : point2) :
    (∃ p, calc_cluster_properties cluster cells dd cd (0, 0) (0, 0) 0 = some p ∧
      m'.local_position = (p.mean.1 + cd.measurement_translation.1,
                           p.mean.2 + cd.measurement_translation.2)) ∧
    fill_measurement measurement cluster index cells det_descr
        (det_cond.set module_idx
          { cd with measurement_translation :=
              (cd.measurement_translation.1 + t.1, cd.measurement_translation.2 + t.2) })
      = .ok { m' with
              local_position := (m'.local_position.1 + t.1, m'.local_position.2 + t.2) } := by
  obtain ⟨p, hp, -⟩ :=
    calc_cluster_properties_closed cluster cells dd cd hv.nonempty hv.in_range hv.edges
  have hfill := fill_measurement_eq measurement cluster index cells det_descr det_cond
    module_idx cd dd hv p hp
  have hlt : module_idx < det_cond.length := by
    by_contra hge
    have := hv.cond
    rw [List.getElem?_eq_none (not_lt.mp hge)] at this
    cases this
  have hv' : ValidCluster cluster cells det_descr
      (det_cond.set module_idx
        { cd with measurement_translation :=
            (cd.measurement_translation.1 + t.1, cd.measurement_translation.2 + t.2) })
      module_idx
      { cd with measurement_translation :=
          (cd.measurement_translation.1 + t.1, cd.measurement_translation.2 + t.2) } dd :=
    { nonempty := hv.nonempty
      in_range := hv.in_range
      same_module := hv.same_module
      cond := by simp [hlt]
      design := hv.design
      edges := hv.edges }
  have hp' := calc_cluster_properties_threshold_only cluster cells dd cd
    { cd with measurement_translation :=
        (cd.measurement_translation.1 + t.1, cd.measurement_translation.2 + t.2) } rfl
    (0, 0) (0, 0) 0
  have hfill' := fill_measurement_eq measurement cluster index cells det_descr _
    module_idx _ dd hv' p (hp'.trans hp)
  rw [hfill] at hok
  rw [hfill']
  split_ifs at hok ⊢
  cases hok
  refine ⟨⟨p, hp, rfl⟩, ?_⟩
  simp only [Except.ok.injEq, Measurement.mk.injEq, Prod.mk.injEq, and_true, true_and]
  constructor <;> ring

theorem fill_measurement_local_position_witness :
    (∃ p, calc_cluster_properties [0, 1, 2] demo_cells demo_design demo_conditions (0, 0) (0, 0) 0
        = some p ∧
      (10 + 5 / 4, 20 + 5 / 2) = (p.mean.1 + demo_conditions.measurement_translation.1,
                           p.mean.2 + demo_conditions.measurement_translation.2)) ∧
    fill_measurement demo_measurement [0, 1, 2] 4 demo_cells [demo_design]
        ([demo_conditions].set 0
          { demo_conditions with measurement_translation :=
              (demo_conditions.measurement_translation.1 + 3,
               demo_conditions.measurement_translation.2 + 8) })
      = .ok { surface_link := 7, local_position := (10 + 5 / 4 + 3, 20 + 5 / 2 + 8),
              local_variance := (2 / 3 * (2 / 3) / 12, 2 * 2 / 12), identifier := 4, cluster_index := 4,
              dimensions := 2, subspace := (0, 1), diameter := 0 } :=
  fill_measurement_local_position demo_measurement [0, 1, 2] 4 demo_cells [demo_design]
    [demo_conditions] 0 demo_conditions demo_design demo_valid _ demo_fill (3, 8)

/-- Claim C8. Whenever `aggregate_cluster` returns, the diameter it writes is
the first per-axis diameter under `CHANNEL0`, the second under `CHANNEL1`,
the larger of the two under `MAXIMUM`, and the square root of the sum of
their squares under `DIAGONAL`. Over the reals with the real square root,
the selection gives 2, 6, 6 and the square root of 40 for the diameters 2
and 6. -/
theorem aggregate_cluster_diameter (seed : ChannelSeed) (sqrt : ℚ → ℚ)
    (cfg : clustering_config) (cells : List Cell) (det_descr : List SiliconModule)
    (f : List Nat) (start finish cid : Nat) (out : Measurement) (cell_links : List Nat)
    (link : Nat) (disjoint_set : List Nat) (cluster_size : Option Nat) (r : AggResult)
    (h : aggregate_cluster seed sqrt cfg cells det_descr f start finish cid out cell_links link
      disjoint_set cluster_size = some r) :
    (∃ md s, aggregate_scan seed cells det_descr f start finish cid cell_links link disjoint_set
        cluster_size = some (md, s) ∧
      (cfg.diameter_strategy = .CHANNEL0 → r.out.diameter = (cluster_diameter s).1) ∧
      (cfg.diameter_strategy = .CHANNEL1 → r.out.diameter = (cluster_diameter s).2) ∧
      (cfg.diameter_strategy = .MAXIMUM →
        r.out.diameter = max (cluster_diameter s).1 (cluster_diameter s).2) ∧
      (cfg.diameter_strategy = .DIAGONAL →
        r.out.diameter = sqrt ((cluster_diameter s).1 ^ 2 + (cluster_diameter s).2 ^ 2))) ∧
    (∀ d0 d1 : ℝ,
      strategy_diameter Real.sqrt .CHANNEL0 (d0, d1) = d0 ∧
      strategy_diameter Real.sqrt .CHANNEL1 (d0, d1) = d1 ∧
      strategy_diameter Real.sqrt .MAXIMUM (d0, d1) = max d0 d1 ∧
      strategy_diameter Real.sqrt .DIAGONAL (d0, d1) = Real.sqrt (d0 ^ 2 + d1 ^ 2)) ∧
    strategy_diameter Real.sqrt .CHANNEL0 ((2 : ℝ), 6) = 2 ∧
    strategy_diameter Real.sqrt .CHANNEL1 ((2 : ℝ), 6) = 6 ∧
    strategy_diameter Real.sqrt .MAXIMUM ((2 : ℝ), 6) = 6 ∧
    strategy_diameter Real.sqrt .DIAGONAL ((2 : ℝ), 6) = Real.sqrt 40 := by
  refine ⟨?_, ?_, rfl, rfl, ?_, ?_⟩
  · unfold aggregate_cluster at h
    cases hs : aggregate_scan seed cells det_descr f start finish cid cell_links link
        disjoint_set cluster_size with
    | none => simp [hs] at h
    | some ms =>
      obtain ⟨md, s⟩ := ms
      simp only [hs, Option.some.injEq] at h
      subst h
      refine ⟨md, s, rfl, ?_, ?_, ?_, ?_⟩ <;> intro hc <;>
        simp only [hc, strategy_diameter, sq]
  · intro d0 d1
    refine ⟨rfl, rfl, rfl, ?_⟩
    simp only [strategy_diameter, sq]
  · simp only [strategy_diameter]; norm_num
  · simp only [strategy_diameter]; norm_num

theorem aggregate_cluster_diameter_witness :
    ∃ md s, aggregate_scan saturating_seed [⟨3, 5, 10, 0⟩] [demo_module] [0] 0 1 0 [0] 4 []
        none = some (md, s) ∧
      ((clustering_config.mk .MAXIMUM).diameter_strategy = .CHANNEL0 →
        (2 / 4294967296 : ℚ) = (cluster_diameter s).1) ∧
      ((clustering_config.mk .MAXIMUM).diameter_strategy = .CHANNEL1 →
        (2 / 4294967296 : ℚ) = (cluster_diameter s).2) ∧
      ((clustering_config.mk .MAXIMUM).diameter_strategy = .MAXIMUM →
        (2 / 4294967296 : ℚ) = max (cluster_diameter s).1 (cluster_diameter s).2) ∧
      ((clustering_config.mk .MAXIMUM).diameter_strategy = .DIAGONAL →
        (2 / 4294967296 : ℚ)
          = unused_sqrt ((cluster_diameter s).1 ^ 2 + (cluster_diameter s).2 ^ 2)) :=
  (aggregate_cluster_diameter saturating_seed unused_sqrt ⟨.MAXIMUM⟩ [⟨3, 5, 10, 0⟩]
    [demo_module] [0] 0 1 0 demo_measurement [0] 4 [] none _ demo_aggregate).1

/-- Claim C9 as the specification states it fails on `aggregate_cluster`: the
partition holds one cell, whose activation 5 is not above the threshold 5 of
its module, and the call returns with the output record filled (geometry
identifier 7, position equal to the translation (10, 20), identifiers 4),
which is not the record that was passed in. -/
theorem aggregate_cluster_fills_degenerate_cluster :
    (5 : ℚ) ≤ demo_module.threshold ∧
    aggregate_cluster saturating_seed unused_sqrt ⟨.CHANNEL0⟩ [⟨3, 5, 5, 0⟩] [demo_module] [0]
        0 1 0 demo_measurement [0] 4 [] none = some demo_degenerate_result ∧
    demo_degenerate_result.out ≠ demo_measurement := by
  refine ⟨?_, ?_, ?_⟩
  · norm_num [demo_module]
  · norm_num [aggregate_cluster, aggregate_scan, aggregate_loop, aggregate_step,
      aggregate_member, aggregate_accept, aggregate_init, position_from_cell,
      signal_cell_modelling, demo_module, SiliconModule.design, List.range', saturating_seed,
      cluster_diameter, strategy_diameter, demo_measurement, demo_degenerate_result]
  · intro h
    have h7 : demo_degenerate_result.out.surface_link = demo_measurement.surface_link := by
      rw [h]
    exact absurd h7 (by decide)

/-- Claim C9, amended. For a cluster none of whose cells is above the
threshold: `fill_measurement`, on a valid cluster, stops at its assertion
`totalWeight > 0` and fills nothing; `aggregate_cluster` has no such check,
and whenever it returns it has filled the record of the cluster, with the
geometry identifier of the module, a local position equal to the translation
of the module, a local variance of zero, and both identifiers equal to
`link`. -/
theorem degenerate_cluster_outcome (measurement : Measurement) (cluster : List Nat)
    (index : Nat) (cells : List Cell) (det_descr : List Design) (det_cond : List Conditions)
    (module_idx : Nat) (cd : Conditions) (dd : Design)
    (hv : ValidCluster cluster cells det_descr det_cond module_idx cd dd)
    (hnone : accepted cd.threshold (cluster_cells cells cluster) = [])
    (seed : ChannelSeed) (sqrt : ℚ → ℚ) (cfg : clustering_config) (dcells : List Cell)
    (modules : List SiliconModule) (f : List Nat) (start finish cid : Nat) (out : Measurement)
    (cell_links : List Nat) (link : Nat) (disjoint_set : List Nat) (cluster_size : Option Nat)
    (hdeg : ∀ j c md, dcells[(j + start) % 4294967296]? = some c → f[j]? = some cid →
      modules[c.module_index]? = some md → c.activation ≤ md.threshold)
    (r : AggResult)
    (h : aggregate_cluster seed sqrt cfg dcells modules f start finish cid out cell_links link
      disjoint_set cluster_size = some r) :
    fill_measurement measurement cluster index cells det_descr det_cond
      = .error .assert_total_weight ∧
    ∃ c0 md, dcells[(cid + start) % 4294967296]? = some c0 ∧
      modules[c0.module_index]? = some md ∧
      r.out.surface_link = md.geometry_id ∧
      r.out.local_position = md.measurement_translation ∧
      r.out.local_variance = (0, 0) ∧
      r.out.identifier = link ∧ r.out.cluster_index = link :=
  ⟨fill_measurement_rejected measurement cluster index cells det_descr det_cond module_idx cd
      dd hv hnone,
   aggregate_cluster_rejected seed sqrt cfg dcells modules f start finish cid out cell_links
      link disjoint_set cluster_size hdeg r h⟩

theorem degenerate_cluster_outcome_witness :
    fill_measurement demo_measurement [1, 3] 4 demo_cells [demo_design] [demo_conditions]
      = .error .assert_total_weight ∧
    ∃ c0 md, [(⟨3, 5, 5, 0⟩ : Cell)][(0 + 0) % 4294967296]? = some c0 ∧
      [demo_module][c0.module_index]? = some md ∧
      demo_degenerate_result.out.surface_link = md.geometry_id ∧
      demo_degenerate_result.out.local_position = md.measurement_translation ∧
      demo_degenerate_result.out.local_variance = (0, 0) ∧
      demo_degenerate_result.out.identifier = 4 ∧
      demo_degenerate_result.out.cluster_index = 4 :=
  degenerate_cluster_outcome demo_measurement [1, 3] 4 demo_cells [demo_design]
    [demo_conditions] 0 demo_conditions demo_design demo_valid_rejected demo_accepted_rejected
    saturating_seed unused_sqrt ⟨.CHANNEL0⟩ [⟨3, 5, 5, 0⟩] [demo_module] [0] 0 1 0
    demo_measurement [0] 4 [] none demo_degenerate_cells _ demo_aggregate_degenerate

/-- Claim C10 as the specification states it fails on the code: a cell of
activation -1 is above the threshold -10, and for the cluster of that one
cell `fill_measurement` stops at its assertion on the total weight and writes
no record. -/
theorem fill_measurement_single_cell_not_positive :
    low_conditions.threshold < (-1 : ℚ) ∧
    fill_measurement demo_measurement [0] 4 [⟨0, 0, -1, 0⟩] [demo_design] [low_conditions]
      = .error .assert_total_weight := by
  constructor
  · norm_num [low_conditions]
  · norm_num [fill_measurement, same_module_check, all_on_module, calc_cluster_properties,
      calc_loop, calc_cell, position_from_cell, signal_cell_modelling, index_span,
      demo_design, low_conditions, demo_measurement]

/-- Claim C10, amended. For a cluster of one cell above the threshold, on
inputs where every lookup is in range: when the activation is positive,
`fill_measurement` fills the record, the local position is the bin midpoint of
the cell plus the translation of the module, and the local variance on each
axis is the square of the bin width of the cell over 12; when the activation
is not positive, it stops at the assertion on the total weight. -/
theorem fill_measurement_single_cell (measurement : Measurement) (index : Nat)
    (cells : List Cell) (det_descr : List Design) (det_cond : List Conditions) (i : Nat)
    (c : Cell) (cd : Conditions) (dd : Design) (hc : cells[i]? = some c)
    (hcd : det_cond[c.module_index]? = some cd)
    (hdd : det_descr[cd.module_to_design_id]? = some dd)
    (hact : cd.threshold < c.activation)
    (h0 : c.channel0 + 1 < dd.bin_edges_x.length)
    (h1 : c.channel1 + 1 < dd.bin_edges_y.length) :
    (0 < c.activation →
      ∃ m', fill_measurement measurement [i] index cells det_descr det_cond = .ok m' ∧
        m'.local_position =
          ((dd.bin_edges_x[c.channel0] + dd.bin_edges_x[c.channel0 + 1]) / 2
              + cd.measurement_translation.1,
           (dd.bin_edges_y[c.channel1] + dd.bin_edges_y[c.channel1 + 1]) / 2
              + cd.measurement_translation.2) ∧
        m'.local_variance =
          ((dd.bin_edges_x[c.channel0 + 1] - dd.bin_edges_x[c.channel0]) ^ 2 / 12,
           (dd.bin_edges_y[c.channel1 + 1] - dd.bin_edges_y[c.channel1]) ^ 2 / 12)) ∧
    (c.activation ≤ 0 →
      fill_measurement measurement [i] index cells det_descr det_cond
        = .error .assert_total_weight) := by
  have hi : i < cells.length := by
    by_contra hge
    rw [List.getElem?_eq_none (not_lt.mp hge)] at hc
    cases hc
  have hcells : cluster_cells cells [i] = [c] := by
    simp [cluster_cells, hc]
  have hacc : accepted cd.threshold [c] = [c] := by
    simp [accepted, hact]
  have hv : ValidCluster [i] cells det_descr det_cond c.module_index cd dd :=
    { nonempty := List.cons_ne_nil _ _
      in_range := by intro j hj; rw [List.mem_singleton] at hj; rw [hj]; exact hi
      same_module := by
        intro x hx; rw [hcells, List.mem_singleton] at hx; rw [hx]
      cond := hcd
      design := hdd
      edges := by
        intro x hx; rw [hcells, hacc, List.mem_singleton] at hx; rw [hx]; exact ⟨h0, h1⟩ }
  have hfill := fill_measurement_eq measurement [i] index cells det_descr det_cond
    c.module_index cd dd hv _ (calc_cluster_properties_single c i cells dd cd hc hact h0 h1)
  simp only at hfill
  constructor
  · intro hpos
    rw [hfill, if_pos hpos]
    refine ⟨_, rfl, ?_⟩
    simp only [bin_mid_eq _ _ h0, bin_mid_eq _ _ h1, bin_width_eq _ _ h0, bin_width_eq _ _ h1]
    constructor
    · first | rfl | trivial
    · ext <;> simp only <;> ring
  · intro hle
    rw [hfill, if_neg (not_lt.mpr hle)]

/-- The cluster of cell 2 of the example event, with activation 30 on channels
(1, 1). -/
theorem fill_measurement_single_cell_witness :
    ∃ m', fill_measurement demo_measurement [2] 4 demo_cells [demo_design] [demo_conditions]
        = .ok m' ∧
      m'.local_position = ((1 + 2) / 2 + 10, (2 + 4) / 2 + 20) ∧
      m'.local_variance = ((2 - 1) ^ 2 / 12, (4 - 2) ^ 2 / 12) :=
  (fill_measurement_single_cell demo_measurement 4 demo_cells [demo_design] [demo_conditions] 2
    ⟨1, 1, 30, 0⟩ demo_conditions demo_design rfl rfl rfl (by norm_num [demo_conditions])
    (by decide) (by decide)).1 (by norm_num)

/-! ### Lemmas for the claims on the scenario, the thresholds, the assertions and the links -/

/-- The cluster `[0, 1, 2, 3]` lists the four cells. -/
theorem square_cluster_cells (a : ℚ) (m : Nat) :
    cluster_cells (square_cells a m) [0, 1, 2, 3] = square_cells a m := rfl

/-- All four cells are accepted when the activation is above the threshold. -/
theorem square_accepted (a thr : ℚ) (m : Nat) (h : thr < a) :
    accepted thr (square_cells a m) = square_cells a m := by
  simp [accepted, square_cells, h]

/-- The cluster properties of the four-cell cluster. -/
theorem square_cluster_properties (dd : Design) (cd : Conditions) (a : ℚ) (m : Nat)
    (hx : dd.bin_edges_x = [0, 1, 2]) (hy : dd.bin_edges_y = [0, 1, 2])
    (hact : cd.threshold < a) (hthr : 0 ≤ cd.threshold) :
    ∃ p, calc_cluster_properties [0, 1, 2, 3] (square_cells a m) dd cd (0, 0) (0, 0) 0 = some p ∧
      p.mean = (1, 1) ∧ p.var = (2, 2) ∧ p.totalWeight = 4 * a := by
  have hpos : 0 < a := lt_of_le_of_lt hthr hact
  have hed : ∀ c ∈ accepted cd.threshold (cluster_cells (square_cells a m) [0, 1, 2, 3]),
      c.channel0 + 1 < dd.bin_edges_x.length ∧ c.channel1 + 1 < dd.bin_edges_y.length := by
    rw [square_cluster_cells, square_accepted a _ m hact, hx, hy]
    intro c hc
    simp only [square_cells, List.mem_cons, List.mem_singleton, List.not_mem_nil, or_false] at hc
    rcases hc with h | h | h | h <;> subst h <;> simp
  obtain ⟨p, hp, hW, h0, h1, hmean⟩ := calc_cluster_properties_closed [0, 1, 2, 3]
    (square_cells a m) dd cd (by decide) (by intro i hi; simp [square_cells] at hi ⊢; omega) hed
  rw [square_cluster_cells, square_accepted a _ m hact] at hW h0 h1 hmean
  obtain ⟨-, m1, m2⟩ := hmean hthr (by simp [square_cells])
  have hW' : p.totalWeight = 4 * a := by
    rw [hW]; simp [weight_sum, square_cells]; ring
  refine ⟨p, hp, ?_, ?_, hW'⟩
  · rw [hW'] at m1 m2
    have e1 : p.mean.1 = 1 := by
      have : p.mean.1 * (4 * a) = 4 * a := by
        rw [m1]; simp [moment_sum, square_cells, bin_mid, hx]; ring
      have h4 : (4 * a) ≠ 0 := by positivity
      field_simp at this ⊢
      linarith
    have e2 : p.mean.2 = 1 := by
      have : p.mean.2 * (4 * a) = 4 * a := by
        rw [m2]; simp [moment_sum, square_cells, bin_mid, hy]; ring
      have h4 : (4 * a) ≠ 0 := by positivity
      field_simp at this ⊢
      linarith
    exact Prod.ext e1 e2
  · have e1 : p.var.1 = 2 := by
      rw [h0]; simp [width_sum, square_cells, bin_width, hx, channel_extent, max_channel, min_channel]
      norm_num
    have e2 : p.var.2 = 2 := by
      rw [h1]; simp [width_sum, square_cells, bin_width, hy, channel_extent, max_channel, min_channel]
      norm_num
    exact Prod.ext e1 e2

/-- The four-cell cluster is valid when its module has conditions and a design
with bin edges 0, 1, 2. -/
theorem square_valid (det_descr : List Design) (det_cond : List Conditions) (dd : Design)
    (cd : Conditions) (a : ℚ) (m : Nat)
    (hx : dd.bin_edges_x = [0, 1, 2]) (hy : dd.bin_edges_y = [0, 1, 2])
    (hcd : det_cond[m]? = some cd) (hdd : det_descr[cd.module_to_design_id]? = some dd) :
    ValidCluster [0, 1, 2, 3] (square_cells a m) det_descr det_cond m cd dd where
  nonempty := by decide
  in_range := by intro i hi; simp [square_cells] at hi ⊢; omega
  same_module := by
    rw [square_cluster_cells]
    intro c hc
    simp only [square_cells, List.mem_cons, List.mem_singleton, List.not_mem_nil, or_false] at hc
    rcases hc with h | h | h | h <;> subst h <;> rfl
  cond := hcd
  design := hdd
  edges := by
    rw [square_cluster_cells, hx, hy]
    intro c hc
    have hc' : c ∈ square_cells a m := List.mem_of_mem_filter hc
    simp only [square_cells, List.mem_cons, List.mem_singleton, List.not_mem_nil, or_false] at hc'
    rcases hc' with h | h | h | h <;> subst h <;> simp

/-- The record of the four-cell cluster. -/
theorem square_fill (measurement : Measurement) (index : Nat) (det_descr : List Design)
    (det_cond : List Conditions) (dd : Design) (cd : Conditions) (a : ℚ) (m : Nat)
    (hx : dd.bin_edges_x = [0, 1, 2]) (hy : dd.bin_edges_y = [0, 1, 2])
    (hact : cd.threshold < a) (hthr : 0 ≤ cd.threshold)
    (hcd : det_cond[m]? = some cd) (hdd : det_descr[cd.module_to_design_id]? = some dd) :
    fill_measurement measurement [0, 1, 2, 3] index (square_cells a m) det_descr det_cond =
      .ok { measurement with
            surface_link := cd.geometry_id,
            local_position := (1 + cd.measurement_translation.1,
                               1 + cd.measurement_translation.2),
            local_variance := (1 / 3, 1 / 3),
            identifier := index,
            cluster_index := index,
            dimensions := dd.dimensions,
            subspace := dd.subspace } := by
  obtain ⟨p, hp, hm, hvar, hW⟩ := square_cluster_properties dd cd a m hx hy hact hthr
  have hpos : p.totalWeight > 0 := by
    rw [hW]; have : 0 < a := lt_of_le_of_lt hthr hact
    positivity
  rw [fill_measurement_eq measurement [0, 1, 2, 3] index (square_cells a m) det_descr det_cond
    m cd dd (square_valid det_descr det_cond dd cd a m hx hy hcd hdd) p hp, if_pos hpos, hm,
    hvar]
  norm_num

/-- Raising a threshold that is not negative does not raise the sum of the
accepted activations. -/
theorem weight_sum_accepted_antitone (t1 t2 : ℚ) (h0 : 0 ≤ t1) (h12 : t1 ≤ t2)
    (cs : List Cell) :
    weight_sum (accepted t2 cs) ≤ weight_sum (accepted t1 cs) := by
  induction cs with
  | nil => simp [accepted, weight_sum]
  | cons c cs ih =>
    by_cases h2 : t2 < c.activation
    · have h1 : t1 < c.activation := lt_of_le_of_lt h12 h2
      rw [accepted_cons_of_lt _ _ _ h2, accepted_cons_of_lt _ _ _ h1]
      simp only [weight_sum, List.map_cons, List.sum_cons] at ih ⊢
      linarith
    · rw [accepted_cons_of_not_lt _ _ _ h2]
      by_cases h1 : t1 < c.activation
      · rw [accepted_cons_of_lt _ _ _ h1]
        simp only [weight_sum, List.map_cons, List.sum_cons] at ih ⊢
        linarith
      · rw [accepted_cons_of_not_lt _ _ _ h1]; exact ih

/-- A cell accepted under a threshold is accepted under every lower one. -/
theorem accepted_subset (t1 t2 : ℚ) (h12 : t1 ≤ t2) (cs : List Cell) :
    accepted t2 cs ⊆ accepted t1 cs := by
  intro c hc
  simp only [accepted, List.mem_filter, decide_eq_true_eq] at hc ⊢
  exact ⟨hc.1, lt_of_le_of_lt h12 hc.2⟩

/-- What a filled record says about the run of `fill_measurement`. -/
theorem fill_measurement_ok_inv (measurement : Measurement) (cluster : List Nat) (index : Nat)
    (cells : List Cell) (det_descr : List Design) (det_cond : List Conditions)
    (m' : Measurement)
    (h : fill_measurement measurement cluster index cells det_descr det_cond = .ok m') :
    ∃ i rest c0 cd dd p, cluster = i :: rest ∧ cells[i]? = some c0 ∧
      same_module_check cells cluster = some true ∧
      det_cond[c0.module_index]? = some cd ∧
      det_descr[cd.module_to_design_id]? = some dd ∧
      calc_cluster_properties cluster cells dd cd (0, 0) (0, 0) 0 = some p ∧
      0 < p.totalWeight ∧
      m' = { measurement with
              surface_link := cd.geometry_id,
              local_position := (p.mean.1 + cd.measurement_translation.1,
                                 p.mean.2 + cd.measurement_translation.2),
              local_variance := (p.var.1 * p.var.1 / 12, p.var.2 * p.var.2 / 12),
              identifier := index,
              cluster_index := index,
              dimensions := dd.dimensions,
              subspace := dd.subspace } := by
  unfold fill_measurement at h
  cases cluster with
  | nil => simp at h
  | cons i rest =>
    simp only [List.isEmpty_cons, Bool.false_eq_true, if_false] at h
    cases hchk : same_module_check cells (i :: rest) with
    | none => rw [hchk] at h; cases h
    | some b =>
      cases b with
      | false => rw [hchk] at h; cases h
      | true =>
        rw [hchk] at h
        dsimp only at h
        rw [List.head?_cons, Option.some_bind] at h
        cases hc0 : cells[i]? with
        | none => rw [hc0] at h; cases h
        | some c0 =>
          rw [hc0] at h
          dsimp only at h
          cases hcd : det_cond[c0.module_index]? with
          | none => rw [hcd] at h; cases h
          | some cd =>
            rw [hcd] at h
            dsimp only at h
            cases hdd : det_descr[cd.module_to_design_id]? with
            | none => rw [hdd] at h; cases h
            | some dd =>
              rw [hdd] at h
              dsimp only at h
              cases hp : calc_cluster_properties (i :: rest) cells dd cd (0, 0) (0, 0) 0 with
              | none => rw [hp] at h; cases h
              | some p =>
                rw [hp] at h
                dsimp only at h
                by_cases hW : p.totalWeight > 0
                · rw [if_pos hW] at h
                  simp only [Except.ok.injEq] at h
                  exact ⟨i, rest, c0, cd, dd, p, rfl, hc0, rfl, hcd, hdd, hp, hW, h.symm⟩
                · rw [if_neg hW] at h
                  cases h

/-- The identifiers `aggregate_cluster` writes. -/
theorem aggregate_cluster_identifiers (seed : ChannelSeed) (sqrt : ℚ → ℚ)
    (cfg : clustering_config) (cells : List Cell) (det_descr : List SiliconModule)
    (f : List Nat) (start finish cid : Nat) (out : Measurement) (cell_links : List Nat)
    (link : Nat) (disjoint_set : List Nat) (cluster_size : Option Nat) (r : AggResult)
    (h : aggregate_cluster seed sqrt cfg cells det_descr f start finish cid out cell_links link
      disjoint_set cluster_size = some r) :
    r.out.identifier = link ∧ r.out.cluster_index = link := by
  unfold aggregate_cluster at h
  cases hs : aggregate_scan seed cells det_descr f start finish cid cell_links link
      disjoint_set cluster_size with
  | none => simp [hs] at h
  | some ms =>
    obtain ⟨md, s⟩ := ms
    simp only [hs, Option.some.injEq] at h
    subst h
    exact ⟨rfl, rfl⟩

/-- With all indices in range, the module check returns false exactly when
some listed cell is on another module. -/
theorem all_on_module_false (cells : List Cell) (module_idx : Nat) :
    ∀ cluster : List Nat, (∀ i ∈ cluster, i < cells.length) →
      (∃ c ∈ cluster_cells cells cluster, c.module_index ≠ module_idx) →
      all_on_module cells module_idx cluster = some false := by
  intro cluster
  induction cluster with
  | nil => intro _ h; obtain ⟨c, hc, -⟩ := h; simp [cluster_cells] at hc
  | cons i rest ih =>
    intro hidx hex
    have hi : i < cells.length := hidx i (List.mem_cons_self _ _)
    have hget : cells[i]? = some cells[i] := List.getElem?_eq_getElem hi
    rw [cluster_cells_cons cells i rest _ hget] at hex
    by_cases h0 : cells[i].module_index = module_idx
    · simp only [all_on_module, hget, h0, ne_eq, not_true_eq_false, if_false]
      apply ih (fun j hj => hidx j (List.mem_cons_of_mem _ hj))
      obtain ⟨c, hc, hne⟩ := hex
      rcases List.mem_cons.mp hc with h | h
      · exact absurd (h ▸ h0) hne
      · exact ⟨c, h, hne⟩
    · simp only [all_on_module, hget]
      rw [if_pos h0]

/-- The outcome of the two entry assertions of `fill_measurement` on a cluster
whose indices are in range. -/
theorem fill_measurement_entry (measurement : Measurement) (cluster : List Nat) (index : Nat)
    (cells : List Cell) (det_descr : List Design) (det_cond : List Conditions)
    (hidx : ∀ i ∈ cluster, i < cells.length) :
    (cluster = [] →
      fill_measurement measurement cluster index cells det_descr det_cond
        = .error .assert_nonempty) ∧
    (∀ c0 ∈ (cluster_cells cells cluster).head?,
      (∃ c ∈ cluster_cells cells cluster, c.module_index ≠ c0.module_index) →
      fill_measurement measurement cluster index cells det_descr det_cond
        = .error .assert_same_module) ∧
    (cluster ≠ [] →
      (∀ c0 ∈ (cluster_cells cells cluster).head?,
        ∀ c ∈ cluster_cells cells cluster, c.module_index = c0.module_index) →
      fill_measurement measurement cluster index cells det_descr det_cond
          ≠ .error .assert_nonempty ∧
      fill_measurement measurement cluster index cells det_descr det_cond
          ≠ .error .assert_same_module) := by
  refine ⟨?_, ?_, ?_⟩
  · intro h; subst h; rfl
  · intro c0 hc0 hex
    cases cluster with
    | nil => simp [cluster_cells] at hc0
    | cons i rest =>
      have hi : i < cells.length := hidx i (List.mem_cons_self _ _)
      have hget : cells[i]? = some cells[i] := List.getElem?_eq_getElem hi
      rw [cluster_cells_cons cells i rest _ hget] at hc0
      simp only [List.head?_cons, Option.mem_def, Option.some.injEq] at hc0
      subst hc0
      have hf := all_on_module_false cells cells[i].module_index (i :: rest) hidx hex
      unfold fill_measurement
      simp only [List.isEmpty_cons, Bool.false_eq_true, if_false, same_module_check,
        List.head?_cons, Option.some_bind, hget, hf]
  · intro hne hall
    cases cluster with
    | nil => exact absurd rfl hne
    | cons i rest =>
      have hi : i < cells.length := hidx i (List.mem_cons_self _ _)
      have hget : cells[i]? = some cells[i] := List.getElem?_eq_getElem hi
      have hhead : (cluster_cells cells (i :: rest)).head? = some cells[i] := by
        rw [cluster_cells_cons cells i rest _ hget]; rfl
      have ht := all_on_module_true cells cells[i].module_index (i :: rest) hidx
        (fun c hc => hall cells[i] (by rw [hhead]; rfl) c hc)
      have hchk : same_module_check cells (i :: rest) = some true := by
        simp only [same_module_check, List.head?_cons, Option.some_bind, hget, ht]
      unfold fill_measurement
      rw [hchk]
      simp only [List.isEmpty_cons, Bool.false_eq_true, if_false, List.head?_cons,
        Option.some_bind, hget]
      constructor <;>
      · intro h
        split at h <;> try cases h
        split at h <;> try cases h
        split at h <;> try cases h
        split at h <;> cases h

/-- The cells of a concatenated index list. -/
theorem cluster_cells_append (cells : List Cell) (a b : List Nat) :
    cluster_cells cells (a ++ b) = cluster_cells cells a ++ cluster_cells cells b := by
  simp [cluster_cells, List.filterMap_append]

/-- The record filled for the cluster `[0, 1, 2]` of the example event. -/
theorem demo_fill_eq :
    fill_measurement demo_measurement [0, 1, 2] 4 demo_cells [demo_design] [demo_conditions]
      = .ok demo_filled := demo_fill

/-- The accepted branch does not touch the links, the count, the cluster
size or the largest channel seen. -/
theorem aggregate_accept_frame (md : SiliconModule) (c : Cell) (w : ℚ) (s s' : AggState)
    (h : aggregate_accept md c w s = some s') :
    s'.cell_links = s.cell_links ∧ s'.tmp_cluster_size = s.tmp_cluster_size ∧
      s'.cluster_size = s.cluster_size ∧ s'.maxChannel1 = s.maxChannel1 ∧
      s'.disjoint_set = s.disjoint_set := by
  unfold aggregate_accept at h
  cases hp : position_from_cell c md.design with
  | none => rw [hp] at h; cases h
  | some pw =>
    rw [hp] at h
    simp only [Option.some.injEq] at h
    subst h
    exact ⟨rfl, rfl, rfl, rfl, rfl⟩

/-- The member block writes one link and counts one cell, whatever the
threshold test gives. -/
theorem aggregate_member_links (md : SiliconModule) (link pos : Nat) (c : Cell)
    (s s' : AggState) (h : aggregate_member md link pos c s = some s') :
    pos < s.cell_links.length ∧ s'.cell_links = s.cell_links.set pos link ∧
      s'.tmp_cluster_size = s.tmp_cluster_size + 1 ∧ s'.cluster_size = s.cluster_size ∧
      s'.maxChannel1 = max s.maxChannel1 c.channel1 := by
  unfold aggregate_member at h
  have key : ∀ s2 : AggState,
      (if signal_cell_modelling c.activation md > md.threshold then
          aggregate_accept md c (signal_cell_modelling c.activation md)
            (if c.channel1 > s.maxChannel1 then { s with maxChannel1 := c.channel1 } else s)
        else some (if c.channel1 > s.maxChannel1 then { s with maxChannel1 := c.channel1 }
          else s)) = some s2 →
      s2.cell_links = s.cell_links ∧ s2.tmp_cluster_size = s.tmp_cluster_size ∧
        s2.cluster_size = s.cluster_size ∧ s2.maxChannel1 = max s.maxChannel1 c.channel1 := by
    intro s2 h2
    have hs1 : ∀ t : AggState,
        t = (if c.channel1 > s.maxChannel1 then { s with maxChannel1 := c.channel1 } else s) →
        t.cell_links = s.cell_links ∧ t.tmp_cluster_size = s.tmp_cluster_size ∧
        t.cluster_size = s.cluster_size ∧ t.maxChannel1 = max s.maxChannel1 c.channel1 := by
      intro t ht
      subst ht
      split_ifs with hgt
      · exact ⟨rfl, rfl, rfl, (max_eq_right (le_of_lt hgt)).symm⟩
      · exact ⟨rfl, rfl, rfl, (max_eq_left (not_lt.mp hgt)).symm⟩
    obtain ⟨a1, a2, a3, a4⟩ := hs1 _ rfl
    generalize (if c.channel1 > s.maxChannel1 then { s with maxChannel1 := c.channel1 }
      else s) = s1 at h2 a1 a2 a3 a4
    by_cases hw : signal_cell_modelling c.activation md > md.threshold
    · rw [if_pos hw] at h2
      obtain ⟨b1, b2, b3, b4, -⟩ := aggregate_accept_frame md c _ _ s2 h2
      exact ⟨b1.trans a1, b2.trans a2, b3.trans a3, b4.trans a4⟩
    · rw [if_neg hw] at h2
      simp only [Option.some.injEq] at h2
      subst h2
      exact ⟨a1, a2, a3, a4⟩
  dsimp only at h
  split at h
  · cases h
  · rename_i s2 hs2
    obtain ⟨k1, k2, k3, k4⟩ := key s2 hs2
    by_cases hpos : pos < s2.cell_links.length
    · rw [if_pos hpos] at h
      split_ifs at h <;> simp only [Option.some.injEq] at h <;> subst h <;>
        exact ⟨k1 ▸ hpos, by simp [k1], by simp [k2], k3, k4⟩
    · rw [if_neg hpos] at h
      cases h

/-- Writing a value over a different one raises its count by one. -/
theorem count_set_fresh (l : List Nat) (p a : Nat) (hp : p < l.length) (h : l[p] ≠ a) :
    (l.set p a).count a = l.count a + 1 := by
  rw [List.count_set a a l p hp]
  simp [h]

/-- One pass of the loop body keeps the link invariant when it reaches the end
of the body, and changes nothing when it leaves at a `break`, which it does
not do at a cell of the cluster. -/
theorem aggregate_step_links (cells : List Cell) (md : SiliconModule) (f : List Nat)
    (start cid link module_idx : Nat) (s : AggState) (j : Nat)
    (hch : ∀ c ∈ cells, c.channel1 < 4294967295) (hj : j + start < 4294967296)
    (hinv : LinkInv link start s j) :
    (∀ s', aggregate_step cells md f start cid link module_idx s j = some (.next s') →
      LinkInv link start s' (j + 1) ∧ s'.cluster_size = some s'.tmp_cluster_size) ∧
    (∀ s', aggregate_step cells md f start cid link module_idx s j = some (.stop s') →
      s' = s ∧ ∀ c, cells[j + start]? = some c → c.module_index = module_idx →
        f[j]? ≠ some cid) := by
  have hpos : (j + start) % 4294967296 = j + start := Nat.mod_eq_of_lt hj
  have main : ∀ r, aggregate_step cells md f start cid link module_idx s j = some r →
      (∀ s', r = .next s' →
        LinkInv link start s' (j + 1) ∧ s'.cluster_size = some s'.tmp_cluster_size) ∧
      (∀ s', r = .stop s' →
        s' = s ∧ ∀ c, cells[j + start]? = some c → c.module_index = module_idx →
          f[j]? ≠ some cid) := by
    intro r h
    unfold aggregate_step at h
    rw [hpos] at h
    dsimp only at h
    cases hcell : cells[j + start]? with
    | none => rw [hcell] at h; cases h
    | some c =>
      have hc1 := hch c (List.getElem?_mem hcell)
      rw [hcell] at h
      dsimp only at h
      by_cases hm : c.module_index ≠ module_idx
      · rw [if_pos hm] at h
        simp only [Option.some.injEq] at h
        subst h
        refine ⟨fun _ h => (by cases h), fun s' h => ?_⟩
        simp only [LoopStep.stop.injEq] at h
        exact ⟨h.symm, fun c' hc' hmod => by cases hc'; exact absurd hmod hm⟩
      · rw [if_neg hm] at h
        cases hf : f[j]? with
        | none => rw [hf] at h; cases h
        | some fj =>
          rw [hf] at h
          dsimp only at h
          by_cases hcid : fj = cid
          · rw [if_pos hcid] at h
            cases hmem : aggregate_member md link (j + start) c s with
            | none => rw [hmem] at h; cases h
            | some s2 =>
              obtain ⟨k0, k1, k2, k3, k4⟩ := aggregate_member_links md link _ c s s2 hmem
              rw [hmem] at h
              dsimp only at h
              have hmax : s2.maxChannel1 < 4294967295 := by
                rw [k4]; exact max_lt hinv.channel hc1
              have hge : c.channel1 ≤ s2.maxChannel1 := by rw [k4]; exact le_max_right _ _
              have hnb : ¬ c.channel1 > (s2.maxChannel1 + 1) % 4294967296 := by
                rw [Nat.mod_eq_of_lt (by omega)]; omega
              rw [if_neg hnb] at h
              simp only [Option.some.injEq] at h
              subst h
              refine ⟨fun s' h => ?_, fun _ h => (by cases h)⟩
              simp only [LoopStep.next.injEq] at h
              subst h
              obtain ⟨n, hn⟩ := Option.isSome_iff_exists.mp (k3 ▸ hinv.size_set)
              refine ⟨⟨by simp [hn], ?_, ?_, hmax⟩, by simp [hn]⟩
              · simp only [k1, k2]
                rw [count_set_fresh _ _ _ k0 (hinv.fresh _ k0 (le_refl _)), hinv.counted]
              · intro p hp hle
                simp only [k1] at hp ⊢
                rw [List.length_set] at hp
                rw [List.getElem_set_ne (by omega)]
                exact hinv.fresh p hp (by omega)
          · rw [if_neg hcid] at h
            dsimp only at h
            by_cases hb : c.channel1 > (s.maxChannel1 + 1) % 4294967296
            · rw [if_pos hb] at h
              simp only [Option.some.injEq] at h
              subst h
              refine ⟨fun _ h => (by cases h), fun s' h => ?_⟩
              simp only [LoopStep.stop.injEq] at h
              refine ⟨h.symm, fun c' _ _ hf' => ?_⟩
              simp only [Option.some.injEq] at hf'
              exact hcid hf'
            · rw [if_neg hb] at h
              simp only [Option.some.injEq] at h
              subst h
              refine ⟨fun s' h => ?_, fun _ h => (by cases h)⟩
              simp only [LoopStep.next.injEq] at h
              subst h
              obtain ⟨n, hn⟩ := Option.isSome_iff_exists.mp hinv.size_set
              refine ⟨⟨by simp [hn], hinv.counted, ?_, hinv.channel⟩, by simp [hn]⟩
              intro p hp hle
              exact hinv.fresh p hp (by omega)
  exact ⟨fun s' h => (main _ h).1 s' rfl, fun s' h => (main _ h).2 s' rfl⟩

/-- The loop ends with `cluster_size` equal to the number of links written,
when it starts from a state in which that holds. -/
theorem aggregate_loop_links (cells : List Cell) (md : SiliconModule) (f : List Nat)
    (start cid link module_idx : Nat) (hch : ∀ c ∈ cells, c.channel1 < 4294967295) :
    ∀ (n j : Nat) (s s' : AggState), j + n + start ≤ 4294967296 →
      LinkInv link start s j → s.cluster_size = some s.tmp_cluster_size →
      aggregate_loop cells md f start cid link module_idx (List.range' j n) s = some s' →
      s'.cluster_size = some (s'.cell_links.count link) := by
  intro n
  induction n with
  | zero =>
    intro j s s' _ hinv hsz h
    simp only [List.range'_zero, aggregate_loop, Option.some.injEq] at h
    subst h
    rw [hinv.counted]; exact hsz
  | succ n ih =>
    intro j s s' hb hinv hsz h
    obtain ⟨hnext, hstop⟩ := aggregate_step_links cells md f start cid link module_idx s j hch
      (by omega) hinv
    rw [List.range'_succ] at h
    unfold aggregate_loop at h
    cases hst : aggregate_step cells md f start cid link module_idx s j with
    | none => rw [hst] at h; cases h
    | some r =>
      rw [hst] at h
      cases r with
      | stop s2 =>
        dsimp only at h
        simp only [Option.some.injEq] at h
        subst h
        obtain ⟨e, -⟩ := hstop s2 hst
        rw [e, hinv.counted]; exact hsz
      | next s2 =>
        dsimp only at h
        obtain ⟨hinv2, hsz2⟩ := hnext s2 hst
        exact ih (j + 1) s2 s' (by omega) hinv2 hsz2 h

/-- On return from the scan, `cluster_size` is the number of links written. -/
theorem aggregate_scan_links (seed : ChannelSeed) (cells : List Cell)
    (det_descr : List SiliconModule) (f : List Nat) (start finish cid : Nat)
    (cell_links : List Nat) (link : Nat) (disjoint_set : List Nat) (n0 : Nat)
    (hse : start ≤ finish) (hfin : finish < 4294967296) (hps : finish - start < 65536)
    (hcid : cid + start < finish) (hroot : f[cid]? = some cid)
    (hch : ∀ c ∈ cells, c.channel1 < 4294967295) (hfresh : ∀ x ∈ cell_links, x ≠ link)
    (md : SiliconModule) (s : AggState)
    (h : aggregate_scan seed cells det_descr f start finish cid cell_links link disjoint_set
      (some n0) = some (md, s)) :
    s.cluster_size = some (s.cell_links.count link) := by
  unfold aggregate_scan at h
  have hpos : (cid + start) % 4294967296 = cid + start := Nat.mod_eq_of_lt (by omega)
  have hsize : ((finish + 4294967296 - start) % 4294967296) % 65536 = finish - start := by
    omega
  rw [hpos, hsize] at h
  cases hc0 : cells[cid + start]? with
  | none => rw [hc0] at h; cases h
  | some c0 =>
    rw [hc0] at h
    dsimp only at h
    cases hmd : det_descr[c0.module_index]? with
    | none => rw [hmd] at h; cases h
    | some md0 =>
      rw [hmd] at h
      dsimp only at h
      have hr : List.range' cid (finish - start - cid)
          = cid :: List.range' (cid + 1) (finish - start - cid - 1) := by
        have : finish - start - cid = (finish - start - cid - 1) + 1 := by omega
        rw [this, List.range'_succ]; rfl
      rw [hr] at h
      have hinv0 : LinkInv link start (aggregate_init seed cell_links disjoint_set (some n0))
          cid :=
        { size_set := rfl
          counted := by
            simp only [aggregate_init]
            exact List.count_eq_zero.mpr (fun hmem => hfresh link hmem rfl)
          fresh := by
            intro p hp _
            exact hfresh _ (List.getElem_mem _)
          channel := by simp [aggregate_init] }
      obtain ⟨hnext, hstop⟩ := aggregate_step_links cells md0 f start cid link c0.module_index
        _ cid hch (by omega) hinv0
      unfold aggregate_loop at h
      cases hst : aggregate_step cells md0 f start cid link c0.module_index
          (aggregate_init seed cell_links disjoint_set (some n0)) cid with
      | none => rw [hst] at h; cases h
      | some r =>
        rw [hst] at h
        cases r with
        | stop s2 =>
          exact absurd hroot ((hstop s2 hst).2 c0 hc0 rfl)
        | next s2 =>
          dsimp only at h
          obtain ⟨hinv2, hsz2⟩ := hnext s2 hst
          cases hl : aggregate_loop cells md0 f start cid link c0.module_index
              (List.range' (cid + 1) (finish - start - cid - 1)) s2 with
          | none => rw [hl] at h; cases h
          | some s3 =>
            rw [hl] at h
            simp only [Option.some.injEq, Prod.mk.injEq] at h
            obtain ⟨-, h2⟩ := h
            subst h2
            exact aggregate_loop_links cells md0 f start cid link c0.module_index hch _ _ _ _
              (by omega) hinv2 hsz2 hl

/-- A cell of the cluster that is not above the threshold is linked and
counted like any other. -/
theorem aggregate_member_rejected_linked (md : SiliconModule) (link pos : Nat) (c : Cell)
    (s : AggState) (hc : c.activation ≤ md.threshold) (hpos : pos < s.cell_links.length)
    (hds : s.disjoint_set.length ≠ 0 → pos < s.disjoint_set.length) :
    ∃ s', aggregate_member md link pos c s = some s' ∧
      s'.cell_links = s.cell_links.set pos link ∧
      s'.tmp_cluster_size = s.tmp_cluster_size + 1 := by
  have hn : ¬ signal_cell_modelling c.activation md > md.threshold := not_lt.mpr hc
  have hex : ∃ s', aggregate_member md link pos c s = some s' := by
    unfold aggregate_member
    dsimp only
    rw [if_neg hn]
    dsimp only
    by_cases hgt : c.channel1 > s.maxChannel1
    · rw [if_pos hgt]
      dsimp only
      rw [if_pos hpos]
      by_cases hd : s.disjoint_set.length ≠ 0
      · rw [if_pos hd, if_pos (hds hd)]; exact ⟨_, rfl⟩
      · rw [if_neg hd]; exact ⟨_, rfl⟩
    · rw [if_neg hgt]
      rw [if_pos hpos]
      by_cases hd : s.disjoint_set.length ≠ 0
      · rw [if_pos hd, if_pos (hds hd)]; exact ⟨_, rfl⟩
      · rw [if_neg hd]; exact ⟨_, rfl⟩
  obtain ⟨s', hs'⟩ := hex
  obtain ⟨-, k1, k2, -, -⟩ := aggregate_member_links md link pos c s s' hs'
  exact ⟨s', hs', k1, k2⟩

/-- The run of `aggregate_cluster` on `pair_cells`. -/
theorem demo_aggregate_pair :
    aggregate_cluster saturating_seed unused_sqrt ⟨.CHANNEL0⟩ pair_cells [demo_module] [0, 0]
        0 2 0 demo_measurement [0, 0] 4 [] (some 9) = some demo_pair_result := by
  norm_num [aggregate_cluster, aggregate_scan, aggregate_loop, aggregate_step,
    aggregate_member, aggregate_accept, aggregate_init, position_from_cell,
    signal_cell_modelling, demo_module, SiliconModule.design, List.range', saturating_seed,
    cluster_diameter, strategy_diameter, demo_measurement, demo_pair_result, pair_cells]

/-! ### The claims C11 to C20 -/

/-- Claim C11 as the specification states it fails on the code: for the four
cells (0,0), (0,1), (1,0), (1,1) with bin edges 0, 1, 2 and activation 10
above the threshold 5, the mean returned by `calc_cluster_properties` is
(1, 1), which is not (1/2, 1/2). -/
theorem four_cell_mean_is_not_half :
    (calc_cluster_properties [0, 1, 2, 3] (square_cells 10 0) unit_design demo_conditions
      (0, 0) (0, 0) 0).map (fun p => p.mean) = some (1, 1) ∧
    ((1 : ℚ), (1 : ℚ)) ≠ (1 / 2, 1 / 2) := by
  constructor
  · obtain ⟨p, hp, hm, -, -⟩ := square_cluster_properties unit_design demo_conditions 10 0
      rfl rfl (by norm_num [demo_conditions]) (by norm_num [demo_conditions])
    rw [hp]; simp [hm]
  · intro h
    have h1 : (1 : ℚ) = 1 / 2 := congrArg Prod.fst h
    norm_num at h1

/-- Claim C11, amended. For the four cells (0,0), (0,1), (1,0), (1,1) of one
module, with bin edges 0, 1, 2 on both axes and one activation above a
threshold that is not negative, `calc_cluster_properties` returns the mean
(1, 1): the bin midpoints are 1/2 and 3/2, and each occurs twice per axis. -/
theorem four_cell_mean (dd : Design) (cd : Conditions) (a : ℚ) (m : Nat)
    (hx : dd.bin_edges_x = [0, 1, 2]) (hy : dd.bin_edges_y = [0, 1, 2])
    (hact : cd.threshold < a) (hthr : 0 ≤ cd.threshold) :
    ∃ p, calc_cluster_properties [0, 1, 2, 3] (square_cells a m) dd cd (0, 0) (0, 0) 0
        = some p ∧ p.mean = (1, 1) := by
  obtain ⟨p, hp, hm, -, -⟩ := square_cluster_properties dd cd a m hx hy hact hthr
  exact ⟨p, hp, hm⟩

theorem four_cell_mean_witness :
    ∃ p, calc_cluster_properties [0, 1, 2, 3] (square_cells 10 0) unit_design demo_conditions
        (0, 0) (0, 0) 0 = some p ∧ p.mean = (1, 1) :=
  four_cell_mean unit_design demo_conditions 10 0 rfl rfl (by norm_num [demo_conditions])
    (by norm_num [demo_conditions])

/-- Claim C12 as the specification states it fails on the code: for the same
four cells, `calc_cluster_properties` returns the per-axis diameter 2, not
1/2, and `fill_measurement` writes the local variance 1/3 per axis, not
(1/4)^2 / 12. -/
theorem four_cell_variance_is_not_sixteenth :
    (calc_cluster_properties [0, 1, 2, 3] (square_cells 10 0) unit_design demo_conditions
      (0, 0) (0, 0) 0).map (fun p => p.var) = some (2, 2) ∧
    ((2 : ℚ), (2 : ℚ)) ≠ (1 / 2, 1 / 2) ∧
    fill_measurement demo_measurement [0, 1, 2, 3] 4 (square_cells 10 0) [unit_design]
      [demo_conditions] = .ok square_filled ∧
    square_filled.local_variance ≠ ((1 / 4) ^ 2 / 12, (1 / 4) ^ 2 / 12) := by
  refine ⟨?_, ?_, ?_, ?_⟩
  · obtain ⟨p, hp, -, hv, -⟩ := square_cluster_properties unit_design demo_conditions 10 0
      rfl rfl (by norm_num [demo_conditions]) (by norm_num [demo_conditions])
    rw [hp]; simp [hv]
  · intro h
    have h1 : (2 : ℚ) = 1 / 2 := congrArg Prod.fst h
    norm_num at h1
  · rw [square_fill demo_measurement 4 [unit_design] [demo_conditions] unit_design
      demo_conditions 10 0 rfl rfl (by norm_num [demo_conditions])
      (by norm_num [demo_conditions]) rfl rfl]
    rfl
  · intro h
    have h1 : (1 / 3 : ℚ) = (1 / 4) ^ 2 / 12 := congrArg Prod.fst h
    norm_num at h1

/-- Claim C12, amended. For the four cells (0,0), (0,1), (1,0), (1,1) of one
module, with bin edges 0, 1, 2 on both axes and one activation above a
threshold that is not negative, the per-axis diameter returned by
`calc_cluster_properties` is 4 / (1 + 1) = 2 (four unit widths over the extent
1 plus one), and `fill_measurement` writes the local variance 2^2 / 12 = 1/3
per axis. -/
theorem four_cell_diameter_and_variance (measurement : Measurement) (index : Nat)
    (det_descr : List Design) (det_cond : List Conditions) (dd : Design) (cd : Conditions)
    (a : ℚ) (m : Nat)
    (hx : dd.bin_edges_x = [0, 1, 2]) (hy : dd.bin_edges_y = [0, 1, 2])
    (hact : cd.threshold < a) (hthr : 0 ≤ cd.threshold)
    (hcd : det_cond[m]? = some cd) (hdd : det_descr[cd.module_to_design_id]? = some dd) :
    (∃ p, calc_cluster_properties [0, 1, 2, 3] (square_cells a m) dd cd (0, 0) (0, 0) 0
        = some p ∧ p.var = (4 / (1 + 1), 4 / (1 + 1)) ∧ p.var = (2, 2)) ∧
    ∃ m', fill_measurement measurement [0, 1, 2, 3] index (square_cells a m) det_descr det_cond
        = .ok m' ∧
      m'.local_variance = (2 ^ 2 / 12, 2 ^ 2 / 12) ∧ m'.local_variance = (1 / 3, 1 / 3) := by
  obtain ⟨p, hp, -, hvar, -⟩ := square_cluster_properties dd cd a m hx hy hact hthr
  refine ⟨⟨p, hp, ?_, hvar⟩, _, square_fill measurement index det_descr det_cond dd cd a m hx
    hy hact hthr hcd hdd, ?_, rfl⟩
  · rw [hvar]; norm_num
  · norm_num

theorem four_cell_diameter_and_variance_witness :
    (∃ p, calc_cluster_properties [0, 1, 2, 3] (square_cells 10 0) unit_design demo_conditions
        (0, 0) (0, 0) 0 = some p ∧ p.var = (4 / (1 + 1), 4 / (1 + 1)) ∧ p.var = (2, 2)) ∧
    ∃ m', fill_measurement demo_measurement [0, 1, 2, 3] 4 (square_cells 10 0) [unit_design]
        [demo_conditions] = .ok m' ∧
      m'.local_variance = (2 ^ 2 / 12, 2 ^ 2 / 12) ∧ m'.local_variance = (1 / 3, 1 / 3) :=
  four_cell_diameter_and_variance demo_measurement 4 [unit_design] [demo_conditions]
    unit_design demo_conditions 10 0 rfl rfl (by norm_num [demo_conditions])
    (by norm_num [demo_conditions]) rfl rfl

/-- Claim C13 as the specification states it fails on the code: with the
thresholds -10 and -1 and one cell of activation -5, the total weight is -5
under the lower threshold and 0 under the higher one, so raising the
threshold raised the total weight. -/
theorem calc_cluster_properties_threshold_not_monotone :
    low_conditions.threshold ≤ high_conditions.threshold ∧
    (calc_cluster_properties [0] [⟨0, 0, -5, 0⟩] demo_design low_conditions (0, 0) (0, 0) 0).map
      (fun p => p.totalWeight) = some (-5) ∧
    (calc_cluster_properties [0] [⟨0, 0, -5, 0⟩] demo_design high_conditions (0, 0) (0, 0) 0).map
      (fun p => p.totalWeight) = some 0 ∧
    ¬ ((0 : ℚ) ≤ -5) := by
  refine ⟨?_, ?_, ?_, ?_⟩
  · norm_num [low_conditions, high_conditions]
  · norm_num [calc_cluster_properties, calc_loop, calc_cell, position_from_cell,
      signal_cell_modelling, index_span, demo_design, low_conditions]
  · norm_num [calc_cluster_properties, calc_loop, calc_cell, position_from_cell,
      signal_cell_modelling, index_span, demo_design, high_conditions]
  · norm_num

/-- Claim C13, amended. For two thresholds `0 ≤ t1 ≤ t2`,
`calc_cluster_properties` returns under both, the total weight under `t2` is
at most the total weight under `t1`, and every cell accepted under `t2` is
accepted under `t1`. -/
theorem calc_cluster_properties_threshold_monotone (cluster : List Nat) (cells : List Cell)
    (dd : Design) (cd1 cd2 : Conditions) (hne : cluster ≠ [])
    (hidx : ∀ i ∈ cluster, i < cells.length)
    (hed : ∀ c ∈ accepted cd1.threshold (cluster_cells cells cluster),
      c.channel0 + 1 < dd.bin_edges_x.length ∧ c.channel1 + 1 < dd.bin_edges_y.length)
    (h0 : 0 ≤ cd1.threshold) (h12 : cd1.threshold ≤ cd2.threshold) :
    (∃ p1 p2, calc_cluster_properties cluster cells dd cd1 (0, 0) (0, 0) 0 = some p1 ∧
      calc_cluster_properties cluster cells dd cd2 (0, 0) (0, 0) 0 = some p2 ∧
      p2.totalWeight ≤ p1.totalWeight) ∧
    accepted cd2.threshold (cluster_cells cells cluster)
      ⊆ accepted cd1.threshold (cluster_cells cells cluster) := by
  have hsub := accepted_subset cd1.threshold cd2.threshold h12 (cluster_cells cells cluster)
  obtain ⟨p1, hp1, hW1, -⟩ := calc_cluster_properties_closed cluster cells dd cd1 hne hidx hed
  obtain ⟨p2, hp2, hW2, -⟩ := calc_cluster_properties_closed cluster cells dd cd2 hne hidx
    (fun c hc => hed c (hsub hc))
  refine ⟨⟨p1, p2, hp1, hp2, ?_⟩, hsub⟩
  rw [hW1, hW2]
  exact weight_sum_accepted_antitone _ _ h0 h12 _

theorem calc_cluster_properties_threshold_monotone_witness :
    (∃ p1 p2, calc_cluster_properties [0, 1, 2] demo_cells demo_design demo_conditions
        (0, 0) (0, 0) 0 = some p1 ∧
      calc_cluster_properties [0, 1, 2] demo_cells demo_design
        { demo_conditions with threshold := 20 } (0, 0) (0, 0) 0 = some p2 ∧
      p2.totalWeight ≤ p1.totalWeight) ∧
    accepted (20 : ℚ) (cluster_cells demo_cells [0, 1, 2])
      ⊆ accepted demo_conditions.threshold (cluster_cells demo_cells [0, 1, 2]) :=
  calc_cluster_properties_threshold_monotone [0, 1, 2] demo_cells demo_design demo_conditions
    { demo_conditions with threshold := 20 } (by decide) (by decide) demo_valid.edges
    (by norm_num [demo_conditions]) (by norm_num [demo_conditions])

/-- Claim C14, evaluated on the code. For the single cell (3, 5) with
activation 10, `fill_measurement` writes the local variance (1/12, 4/12) and
`aggregate_cluster`, with the saturating seeds, writes the squares of
1 / 2^32 and 2 / 2^32 over 12: the running channel bounds never leave their
seeds. For the cluster of `pair_cells`, even with seeds that give the true
bounds, `aggregate_cluster` takes the extent over the accepted cell only and
writes 1/12 on the first axis, where `fill_measurement` takes it over both
cells and writes (1/3)^2 / 12. The other six fields agree in both cases. -/
theorem builders_disagree_on_variance :
    fill_measurement demo_measurement [0] 4 [⟨3, 5, 10, 0⟩] [demo_design] [demo_conditions]
      = .ok host_single ∧
    (aggregate_cluster saturating_seed unused_sqrt ⟨.CHANNEL0⟩ [⟨3, 5, 10, 0⟩] [demo_module] [0]
      0 1 0 demo_measurement [0] 4 [] none).map (fun r => r.out) = some device_single ∧
    host_single.local_variance ≠ device_single.local_variance ∧
    fill_measurement demo_measurement [0, 1] 4 pair_cells [demo_design] [demo_conditions]
      = .ok host_pair ∧
    (aggregate_cluster intended_seed unused_sqrt ⟨.CHANNEL0⟩ pair_cells [demo_module] [0, 0]
      0 2 0 demo_measurement [0, 0] 4 [] none).map (fun r => r.out) = some device_pair ∧
    host_pair.local_variance ≠ device_pair.local_variance := by
  refine ⟨?_, ?_, ?_, ?_, ?_, ?_⟩
  · norm_num [fill_measurement, same_module_check, all_on_module, calc_cluster_properties,
      calc_loop, calc_cell, position_from_cell, signal_cell_modelling, index_span,
      demo_design, demo_conditions, demo_measurement, host_single]
  · norm_num [aggregate_cluster, aggregate_scan, aggregate_loop, aggregate_step,
      aggregate_member, aggregate_accept, aggregate_init, position_from_cell,
      signal_cell_modelling, demo_module, SiliconModule.design, List.range', saturating_seed,
      cluster_diameter, strategy_diameter, demo_measurement, device_single]
  · norm_num [host_single, device_single]
  · norm_num [fill_measurement, same_module_check, all_on_module, calc_cluster_properties,
      calc_loop, calc_cell, position_from_cell, signal_cell_modelling, index_span,
      demo_design, demo_conditions, demo_measurement, host_pair, pair_cells]
  · norm_num [aggregate_cluster, aggregate_scan, aggregate_loop, aggregate_step,
      aggregate_member, aggregate_accept, aggregate_init, position_from_cell,
      signal_cell_modelling, demo_module, SiliconModule.design, List.range', intended_seed,
      cluster_diameter, strategy_diameter, demo_measurement, device_pair, pair_cells]
  · norm_num [host_pair, device_pair]

/-- Claim C15. Whenever `fill_measurement` fills the record, the cluster has
a first index, the cell there has a module with a conditions entry, that entry
names a design entry, and the record has the geometry identifier of the
conditions entry and the dimensions and the subspace of the design entry. -/
theorem fill_measurement_geometry_fields (measurement : Measurement) (cluster : List Nat)
    (index : Nat) (cells : List Cell) (det_descr : List Design) (det_cond : List Conditions)
    (m' : Measurement)
    (h : fill_measurement measurement cluster index cells det_descr det_cond = .ok m') :
    ∃ i rest c0 cd dd, cluster = i :: rest ∧ cells[i]? = some c0 ∧
      det_cond[c0.module_index]? = some cd ∧
      det_descr[cd.module_to_design_id]? = some dd ∧
      m'.surface_link = cd.geometry_id ∧
      m'.dimensions = dd.dimensions ∧ m'.subspace = dd.subspace := by
  obtain ⟨i, rest, c0, cd, dd, p, h1, h2, -, h4, h5, -, -, h8⟩ :=
    fill_measurement_ok_inv measurement cluster index cells det_descr det_cond m' h
  subst h8
  exact ⟨i, rest, c0, cd, dd, h1, h2, h4, h5, rfl, rfl, rfl⟩

theorem fill_measurement_geometry_fields_witness :
    ∃ i rest c0 cd dd, [0, 1, 2] = i :: rest ∧ demo_cells[i]? = some c0 ∧
      [demo_conditions][c0.module_index]? = some cd ∧
      [demo_design][cd.module_to_design_id]? = some dd ∧
      demo_filled.surface_link = cd.geometry_id ∧
      demo_filled.dimensions = dd.dimensions ∧ demo_filled.subspace = dd.subspace :=
  fill_measurement_geometry_fields demo_measurement [0, 1, 2] 4 demo_cells [demo_design]
    [demo_conditions] demo_filled demo_fill_eq

/-- Claim C16. Whenever `fill_measurement` fills the record, its identifier
and its cluster index are both `index`; whenever `aggregate_cluster` returns,
the identifier and the cluster index of its record are both `link`. In both
cases the two fields are equal. -/
theorem identifier_eq_cluster_index (measurement : Measurement) (cluster : List Nat)
    (index : Nat) (cells : List Cell) (det_descr : List Design) (det_cond : List Conditions)
    (seed : ChannelSeed) (sqrt : ℚ → ℚ) (cfg : clustering_config) (dcells : List Cell)
    (modules : List SiliconModule) (f : List Nat) (start finish cid : Nat) (out : Measurement)
    (cell_links : List Nat) (link : Nat) (disjoint_set : List Nat)
    (cluster_size : Option Nat) :
    (∀ m', fill_measurement measurement cluster index cells det_descr det_cond = .ok m' →
      m'.identifier = index ∧ m'.cluster_index = index ∧ m'.identifier = m'.cluster_index) ∧
    (∀ r, aggregate_cluster seed sqrt cfg dcells modules f start finish cid out cell_links link
        disjoint_set cluster_size = some r →
      r.out.identifier = link ∧ r.out.cluster_index = link ∧
        r.out.identifier = r.out.cluster_index) := by
  constructor
  · intro m' h
    obtain ⟨i, rest, c0, cd, dd, p, -, -, -, -, -, -, -, h8⟩ :=
      fill_measurement_ok_inv measurement cluster index cells det_descr det_cond m' h
    subst h8
    exact ⟨rfl, rfl, rfl⟩
  · intro r h
    obtain ⟨h1, h2⟩ := aggregate_cluster_identifiers seed sqrt cfg dcells modules f start finish
      cid out cell_links link disjoint_set cluster_size r h
    exact ⟨h1, h2, h1.trans h2.symm⟩

theorem identifier_eq_cluster_index_witness :
    (demo_filled.identifier = 4 ∧ demo_filled.cluster_index = 4 ∧
      demo_filled.identifier = demo_filled.cluster_index) ∧
    (demo_degenerate_result.out.identifier = 4 ∧ demo_degenerate_result.out.cluster_index = 4 ∧
      demo_degenerate_result.out.identifier = demo_degenerate_result.out.cluster_index) :=
  ⟨(identifier_eq_cluster_index demo_measurement [0, 1, 2] 4 demo_cells [demo_design]
      [demo_conditions] saturating_seed unused_sqrt ⟨.CHANNEL0⟩ [⟨3, 5, 5, 0⟩] [demo_module] [0]
      0 1 0 demo_measurement [0] 4 [] none).1 _ demo_fill_eq,
   (identifier_eq_cluster_index demo_measurement [0, 1, 2] 4 demo_cells [demo_design]
      [demo_conditions] saturating_seed unused_sqrt ⟨.CHANNEL0⟩ [⟨3, 5, 5, 0⟩] [demo_module] [0]
      0 1 0 demo_measurement [0] 4 [] none).2 _ demo_aggregate_degenerate⟩

/-- Claim C17. For a cluster whose indices are in range, `fill_measurement`
gets past both entry assertions exactly when the cluster is not empty and
every listed cell has the module index of the first listed cell; and a
cluster that lists cells of two different modules ends at the second
assertion, with no record filled. -/
theorem fill_measurement_entry_assertions (measurement : Measurement) (cluster : List Nat)
    (index : Nat) (cells : List Cell) (det_descr : List Design) (det_cond : List Conditions)
    (hidx : ∀ i ∈ cluster, i < cells.length) :
    ((fill_measurement measurement cluster index cells det_descr det_cond
          ≠ .error .assert_nonempty ∧
      fill_measurement measurement cluster index cells det_descr det_cond
          ≠ .error .assert_same_module) ↔
      (cluster ≠ [] ∧
        ∀ c0 ∈ (cluster_cells cells cluster).head?,
          ∀ c ∈ cluster_cells cells cluster, c.module_index = c0.module_index)) ∧
    (∀ c1 ∈ cluster_cells cells cluster, ∀ c2 ∈ cluster_cells cells cluster,
      c1.module_index ≠ c2.module_index →
      fill_measurement measurement cluster index cells det_descr det_cond
        = .error .assert_same_module) := by
  obtain ⟨e1, e2, e3⟩ := fill_measurement_entry measurement cluster index cells det_descr
    det_cond hidx
  refine ⟨⟨?_, fun h => e3 h.1 h.2⟩, ?_⟩
  · intro h
    refine ⟨fun hnil => h.1 (e1 hnil), ?_⟩
    intro c0 hc0 c hc
    by_contra hne
    exact h.2 (e2 c0 hc0 ⟨c, hc, hne⟩)
  · intro c1 h1 c2 h2 hne
    cases hcs : cluster_cells cells cluster with
    | nil => rw [hcs] at h1; cases h1
    | cons c0 rest =>
      have hhead : c0 ∈ (cluster_cells cells cluster).head? := by rw [hcs]; rfl
      by_cases h : c1.module_index = c0.module_index
      · exact e2 c0 hhead ⟨c2, h2, fun h' => hne (h.trans h'.symm)⟩
      · exact e2 c0 hhead ⟨c1, h1, h⟩

theorem fill_measurement_entry_assertions_witness :
    fill_measurement demo_measurement [0, 1] 4 mixed_cells [demo_design] [demo_conditions]
      = .error .assert_same_module :=
  (fill_measurement_entry_assertions demo_measurement [0, 1] 4 mixed_cells [demo_design]
    [demo_conditions] (by decide)).2 ⟨0, 0, 10, 0⟩ (by simp [cluster_cells, mixed_cells])
    ⟨1, 0, 10, 1⟩ (by simp [cluster_cells, mixed_cells]) (by decide)

/-- Claim C18. For a valid cluster and a threshold that is not negative: at
every accepted cell the running total weight, after the cell is added, is
strictly positive, so the weight factor never divides by zero; with at least
one accepted cell the final assertion holds and the record is filled; and
without accepted cells the final assertion fails. -/
theorem total_weight_positive (measurement : Measurement) (cluster : List Nat) (index : Nat)
    (cells : List Cell) (det_descr : List Design) (det_cond : List Conditions)
    (module_idx : Nat) (cd : Conditions) (dd : Design)
    (hv : ValidCluster cluster cells det_descr det_cond module_idx cd dd)
    (hthr : 0 ≤ cd.threshold) :
    (∀ pre i post c, cluster = pre ++ i :: post → cells[i]? = some c →
      signal_cell_modelling c.activation cd > cd.threshold →
      ∃ s, calc_loop cells dd cd pre initial_props = some s ∧
        0 < s.totalWeight + signal_cell_modelling c.activation cd) ∧
    (accepted cd.threshold (cluster_cells cells cluster) ≠ [] →
      ∃ m', fill_measurement measurement cluster index cells det_descr det_cond = .ok m') ∧
    (accepted cd.threshold (cluster_cells cells cluster) = [] →
      fill_measurement measurement cluster index cells det_descr det_cond
        = .error .assert_total_weight) := by
  refine ⟨?_, ?_, ?_⟩
  · intro pre i post c hsplit hc hact
    have hidx : ∀ j ∈ pre, j < cells.length := by
      intro j hj
      exact hv.in_range j (by rw [hsplit]; exact List.mem_append_left _ hj)
    have hed : ∀ x ∈ accepted cd.threshold (cluster_cells cells pre),
        x.channel0 + 1 < dd.bin_edges_x.length ∧ x.channel1 + 1 < dd.bin_edges_y.length := by
      intro x hx
      apply hv.edges x
      rw [hsplit, cluster_cells_append]
      simp only [accepted, List.mem_filter, List.mem_append, decide_eq_true_eq] at hx ⊢
      exact ⟨Or.inl hx.1, hx.2⟩
    obtain ⟨s, hs, -, -, hW, -⟩ := calc_cells_fields dd cd (cluster_cells cells pre)
      initial_props hed
    refine ⟨s, ?_, ?_⟩
    · rw [calc_loop_eq_calc_cells cells dd cd pre _ hidx]; exact hs
    · have h1 := weight_sum_accepted_nonneg cd.threshold hthr (cluster_cells cells pre)
      have h2 : s.totalWeight = weight_sum (accepted cd.threshold (cluster_cells cells pre)) := by
        rw [hW]; simp [initial_props]
      have h3 : cd.threshold < c.activation := hact
      simp only [signal_cell_modelling]
      linarith
  · intro hacc
    obtain ⟨p, hp, -, -, -, hmean⟩ :=
      calc_cluster_properties_closed cluster cells dd cd hv.nonempty hv.in_range hv.edges
    obtain ⟨hpos, -, -⟩ := hmean hthr hacc
    rw [fill_measurement_eq measurement cluster index cells det_descr det_cond module_idx cd dd
      hv p hp, if_pos hpos]
    exact ⟨_, rfl⟩
  · intro hnone
    exact fill_measurement_rejected measurement cluster index cells det_descr det_cond
      module_idx cd dd hv hnone

theorem total_weight_positive_witness :
    ∃ m', fill_measurement demo_measurement [0, 1, 2] 4 demo_cells [demo_design]
      [demo_conditions] = .ok m' :=
  (total_weight_positive demo_measurement [0, 1, 2] 4 demo_cells [demo_design]
    [demo_conditions] 0 demo_conditions demo_design demo_valid
    (by norm_num [demo_conditions])).2.1 (by rw [demo_accepted]; exact List.cons_ne_nil _ _)

/-- Claim C19, evaluated on the code. Two calls of `fill_measurement` on the
cluster `[0, 1, 2]` of the example event, one with the diameter of the output
record at 0 before the call and one with it at 1, leave records whose
diameters are 0 and 1: the function never writes the diameter. -/
theorem fill_measurement_keeps_diameter :
    fill_measurement demo_measurement [0, 1, 2] 4 demo_cells [demo_design] [demo_conditions]
      = .ok demo_filled ∧
    fill_measurement { demo_measurement with diameter := 1 } [0, 1, 2] 4 demo_cells
      [demo_design] [demo_conditions] = .ok { demo_filled with diameter := 1 } ∧
    demo_filled.diameter = 0 ∧
    demo_filled ≠ { demo_filled with diameter := 1 } := by
  refine ⟨demo_fill, ?_, rfl, ?_⟩
  · norm_num [fill_measurement, same_module_check, all_on_module, calc_cluster_properties,
      calc_loop, calc_cell, position_from_cell, signal_cell_modelling, index_span, demo_cells,
      demo_design, demo_conditions, demo_measurement, demo_filled]
  · intro h
    have hd : demo_filled.diameter = 1 := by rw [h]
    norm_num [demo_filled] at hd

/-- Claim C20. A cell of the cluster gets the link written and is counted
whether or not its weight is above the threshold (a rejected cell passes the
member block whenever its position is inside the containers); and when
`aggregate_cluster` returns for a partition `[start, end)` of at most 65535
cells inside the range of `unsigned int`, a root `cid` of the partition
(`f[cid] = cid`), channels below the largest `unsigned int`, a cluster size
that was asked for and links that did not hold `link` before, the cluster
size is the number of links written. -/
theorem aggregate_cluster_counts_every_member (seed : ChannelSeed) (sqrt : ℚ → ℚ)
    (cfg : clustering_config) (cells : List Cell) (det_descr : List SiliconModule)
    (f : List Nat) (start finish cid : Nat) (out : Measurement) (cell_links : List Nat)
    (link : Nat) (disjoint_set : List Nat) (n0 : Nat)
    (hse : start ≤ finish) (hfin : finish < 4294967296) (hps : finish - start < 65536)
    (hcid : cid + start < finish) (hroot : f[cid]? = some cid)
    (hch : ∀ c ∈ cells, c.channel1 < 4294967295) (hfresh : ∀ x ∈ cell_links, x ≠ link)
    (r : AggResult)
    (h : aggregate_cluster seed sqrt cfg cells det_descr f start finish cid out cell_links link
      disjoint_set (some n0) = some r) :
    (∀ (md : SiliconModule) (pos : Nat) (c : Cell) (s s' : AggState),
      aggregate_member md link pos c s = some s' →
      s'.cell_links = s.cell_links.set pos link ∧
        s'.tmp_cluster_size = s.tmp_cluster_size + 1) ∧
    (∀ (md : SiliconModule) (pos : Nat) (c : Cell) (s : AggState),
      c.activation ≤ md.threshold → pos < s.cell_links.length →
      (s.disjoint_set.length ≠ 0 → pos < s.disjoint_set.length) →
      ∃ s', aggregate_member md link pos c s = some s' ∧
        s'.cell_links = s.cell_links.set pos link ∧
        s'.tmp_cluster_size = s.tmp_cluster_size + 1) ∧
    r.cluster_size = some (r.cell_links.count link) := by
  refine ⟨?_, ?_, ?_⟩
  · intro md pos c s s' hm
    obtain ⟨-, k1, k2, -, -⟩ := aggregate_member_links md link pos c s s' hm
    exact ⟨k1, k2⟩
  · intro md pos c s hc hpos hds
    exact aggregate_member_rejected_linked md link pos c s hc hpos hds
  · unfold aggregate_cluster at h
    cases hs : aggregate_scan seed cells det_descr f start finish cid cell_links link
        disjoint_set (some n0) with
    | none => rw [hs] at h; cases h
    | some ms =>
      obtain ⟨md, s⟩ := ms
      rw [hs] at h
      simp only [Option.some.injEq] at h
      subst h
      exact aggregate_scan_links seed cells det_descr f start finish cid cell_links link
        disjoint_set n0 hse hfin hps hcid hroot hch hfresh md s hs

theorem aggregate_cluster_counts_every_member_witness :
    demo_pair_result.cluster_size = some (demo_pair_result.cell_links.count 4) :=
  (aggregate_cluster_counts_every_member saturating_seed unused_sqrt ⟨.CHANNEL0⟩ pair_cells
    [demo_module] [0, 0] 0 2 0 demo_measurement [0, 0] 4 [] 9 (by decide) (by decide)
    (by decide) (by decide) rfl (by decide) (by decide) _ demo_aggregate_pair).2.2

/-! ### Lemmas on the digitization configuration and its readers -/

/-- A lookup after an assignment: the assigned key gives the new value, every
other key its old one. -/
theorem map_find_assign {κ ν : Type} [DecidableEq κ] (k k' : κ) (v : ν) (m : List (κ × ν)) :
    map_find k (map_assign k' v m) = if k' = k then some v else map_find k m := by
  induction m with
  | nil => simp [map_assign, map_find]
  | cons p m ih =>
    obtain ⟨a, b⟩ := p
    by_cases h : a = k'
    · subst h
      simp only [map_assign, if_true, map_find]
      split_ifs <;> rfl
    · simp only [map_assign, if_neg h, map_find, ih]
      by_cases h2 : a = k
      · subst h2
        have : ¬ k' = a := fun e => h e.symm
        simp [this]
      · simp [h2]

/-- The keys after an assignment are the old keys and the assigned key. -/
theorem map_assign_keys {κ ν : Type} [DecidableEq κ] (k : κ) (v : ν) (m : List (κ × ν)) :
    (map_assign k v m).map Prod.fst
      = if k ∈ m.map Prod.fst then m.map Prod.fst else m.map Prod.fst ++ [k] := by
  induction m with
  | nil => simp [map_assign]
  | cons p m ih =>
    obtain ⟨a, b⟩ := p
    by_cases h : a = k
    · subst h
      simp [map_assign]
    · have hk : ¬ k = a := fun e => h e.symm
      simp only [map_assign, if_neg h, List.map_cons, ih, List.mem_cons, hk, false_or]
      split_ifs <;> simp

/-- An assignment keeps the keys distinct. -/
theorem map_assign_nodup {κ ν : Type} [DecidableEq κ] (k : κ) (v : ν) (m : List (κ × ν))
    (h : (m.map Prod.fst).Nodup) :
    ((map_assign k v m).map Prod.fst).Nodup := by
  rw [map_assign_keys]
  split_ifs with hk
  · exact h
  · refine List.Nodup.append h (List.nodup_singleton k) ?_
    intro x hx hx'
    rw [List.mem_singleton] at hx'
    exact hk (hx' ▸ hx)

/-- Assigning a key that is not in the map appends the pair. -/
theorem map_assign_fresh {κ ν : Type} [DecidableEq κ] (k : κ) (v : ν) (m : List (κ × ν))
    (h : k ∉ m.map Prod.fst) :
    map_assign k v m = m ++ [(k, v)] := by
  induction m with
  | nil => rfl
  | cons p m ih =>
    obtain ⟨a, b⟩ := p
    simp only [List.map_cons, List.mem_cons, not_or] at h
    have ha : ¬ a = k := fun e => h.1 e.symm
    simp only [map_assign, if_neg ha, ih h.2, List.cons_append]

/-- With distinct keys a lookup returns the value of the pair in the map. -/
theorem map_find_eq_some_iff {κ ν : Type} [DecidableEq κ] (k : κ) (v : ν) (m : List (κ × ν))
    (h : (m.map Prod.fst).Nodup) :
    map_find k m = some v ↔ (k, v) ∈ m := by
  induction m with
  | nil => simp [map_find]
  | cons p m ih =>
    obtain ⟨a, b⟩ := p
    simp only [List.map_cons, List.nodup_cons] at h
    by_cases ha : a = k
    · subst ha
      simp only [map_find, if_true, Option.some.injEq, List.mem_cons, Prod.mk.injEq, true_and]
      constructor
      · intro e; exact Or.inl e.symm
      · rintro (e | e)
        · exact e.symm
        · exact absurd (List.mem_map_of_mem Prod.fst e) h.1
    · simp only [map_find, if_neg ha, ih h.2, List.mem_cons, Prod.mk.injEq]
      constructor
      · intro e; exact Or.inr e
      · rintro (e | e)
        · exact absurd e.1.symm ha
        · exact e

/-- A lookup succeeds exactly at the keys of the map. -/
theorem map_find_isSome_iff {κ ν : Type} [DecidableEq κ] (k : κ) (m : List (κ × ν)) :
    (map_find k m).isSome = true ↔ k ∈ m.map Prod.fst := by
  induction m with
  | nil => simp [map_find]
  | cons p m ih =>
    obtain ⟨a, b⟩ := p
    by_cases ha : a = k
    · subst ha; simp [map_find]
    · have hk : ¬ k = a := fun e => ha e.symm
      simp [map_find, ha, hk, ih]

/-- The loop over the entries keeps the keys of the design map distinct. -/
theorem fold_design_map_nodup (entries : List JsonEntry) :
    ∀ m0 : List (Int × module_digitization_config), (m0.map Prod.fst).Nodup →
      ((entries.foldl (fun m entry => map_assign entry.design_index (entry_config entry) m)
        m0).map Prod.fst).Nodup := by
  induction entries with
  | nil => intro m0 h; exact h
  | cons e es ih =>
    intro m0 h
    exact ih _ (map_assign_nodup _ _ _ h)

/-- The keys of the design map after the loop over the entries. -/
theorem fold_design_map_keys (entries : List JsonEntry) :
    ∀ (m0 : List (Int × module_digitization_config)) (k : Int),
      k ∈ (entries.foldl (fun m entry => map_assign entry.design_index (entry_config entry) m)
        m0).map Prod.fst ↔
      (k ∈ m0.map Prod.fst ∨ ∃ e ∈ entries, e.design_index = k) := by
  induction entries with
  | nil => intro m0 k; simp
  | cons e es ih =>
    intro m0 k
    rw [List.foldl_cons, ih, map_assign_keys]
    constructor
    · rintro (h | ⟨x, hx, hk⟩)
      · split_ifs at h with hm
        · exact Or.inl h
        · rcases List.mem_append.mp h with h' | h'
          · exact Or.inl h'
          · rw [List.mem_singleton] at h'
            exact Or.inr ⟨e, List.mem_cons_self _ _, h'.symm⟩
      · exact Or.inr ⟨x, List.mem_cons_of_mem _ hx, hk⟩
    · rintro (h | ⟨x, hx, hk⟩)
      · left
        split_ifs
        · exact h
        · exact List.mem_append_left _ h
      · rcases List.mem_cons.mp hx with h' | h'
        · left
          subst h'
          split_ifs with hm
          · rw [← hk]; exact hm
          · rw [← hk]; exact List.mem_append_right _ (List.mem_singleton_self _)
        · exact Or.inr ⟨x, h', hk⟩

/-- The design map after the loop holds, at each index, the configuration of
the last entry with that index. -/
theorem fold_design_map_find (entries : List JsonEntry) :
    ∀ (m0 : List (Int × module_digitization_config)) (k : Int),
      map_find k (entries.foldl
        (fun m entry => map_assign entry.design_index (entry_config entry) m) m0) =
      match last_with_index k entries with
      | some e => some (entry_config e)
      | none => map_find k m0 := by
  induction entries with
  | nil => intro m0 k; rfl
  | cons e es ih =>
    intro m0 k
    rw [List.foldl_cons, ih]
    simp only [last_with_index]
    cases last_with_index k es with
    | some x => rfl
    | none =>
      simp only [map_find_assign]
      split_ifs <;> rfl

/-- The last entry with an index is an entry with that index. -/
theorem last_with_index_spec (k : Int) (entries : List JsonEntry) (e : JsonEntry)
    (h : last_with_index k entries = some e) : e ∈ entries ∧ e.design_index = k := by
  induction entries with
  | nil => cases h
  | cons x xs ih =>
    simp only [last_with_index] at h
    cases hl : last_with_index k xs with
    | some y =>
      rw [hl] at h
      simp only [Option.some.injEq] at h
      subst h
      exact ⟨List.mem_cons_of_mem _ (ih hl).1, (ih hl).2⟩
    | none =>
      rw [hl] at h
      dsimp only at h
      split_ifs at h with hx
      simp only [Option.some.injEq] at h
      subst h
      exact ⟨List.mem_cons_self _ _, hx⟩

/-- Some entry with the index exists, so there is a last one. -/
theorem last_with_index_isSome (k : Int) (entries : List JsonEntry)
    (h : ∃ e ∈ entries, e.design_index = k) : ∃ e, last_with_index k entries = some e := by
  induction entries with
  | nil => obtain ⟨e, he, -⟩ := h; cases he
  | cons x xs ih =>
    simp only [last_with_index]
    cases hl : last_with_index k xs with
    | some y => exact ⟨y, rfl⟩
    | none =>
      obtain ⟨e, he, hk⟩ := h
      rcases List.mem_cons.mp he with h' | h'
      · subst h'
        exact ⟨e, by simp [hk]⟩
      · obtain ⟨y, hy⟩ := ih ⟨e, h', hk⟩
        rw [hl] at hy; cases hy

/-- The stores keep the length of the vector. -/
theorem store_designs_length :
    ∀ (l : List (Int × module_digitization_config)) (d0 d : List module_digitization_config),
      store_designs l d0 = some d → d.length = d0.length := by
  intro l
  induction l with
  | nil => intro d0 d h; simp only [store_designs, Option.some.injEq] at h; rw [h]
  | cons p l ih =>
    intro d0 d h
    simp only [store_designs, store_design] at h
    split_ifs at h with hp
    have := ih _ _ h
    rw [this, List.length_set]

/-- With distinct keys that are all indices of the vector, the stores succeed
and the vector holds each stored configuration at its index. -/
theorem store_designs_some :
    ∀ (l : List (Int × module_digitization_config)) (d0 : List module_digitization_config),
      (l.map Prod.fst).Nodup → (∀ p ∈ l, 0 ≤ p.1 ∧ p.1.toNat < d0.length) →
      ∃ d, store_designs l d0 = some d ∧ d.length = d0.length ∧
        ∀ i : Nat, (∀ v, ((i : Int), v) ∈ l → d[i]? = some v) ∧
          ((i : Int) ∉ l.map Prod.fst → d[i]? = d0[i]?) := by
  intro l
  induction l with
  | nil => intro d0 _ _; exact ⟨d0, rfl, rfl, fun i => ⟨fun v h => (by cases h), fun _ => rfl⟩⟩
  | cons p l ih =>
    intro d0 hnd hin
    obtain ⟨k, c⟩ := p
    simp only [List.map_cons, List.nodup_cons] at hnd
    have hk := hin (k, c) (List.mem_cons_self _ _)
    simp only at hk
    obtain ⟨d, hd, hlen, hget⟩ := ih (d0.set k.toNat c) hnd.2
      (fun q hq => by rw [List.length_set]; exact hin q (List.mem_cons_of_mem _ hq))
    refine ⟨d, ?_, ?_, ?_⟩
    · simp only [store_designs, store_design, hk, and_self, if_true]; exact hd
    · rw [hlen, List.length_set]
    · intro i
      constructor
      · intro v hv
        rcases List.mem_cons.mp hv with h' | h'
        · simp only [Prod.mk.injEq] at h'
          obtain ⟨h1, h2⟩ := h'
          subst h2
          have hi : k.toNat = i := by omega
          have hnot : (i : Int) ∉ l.map Prod.fst := by rw [h1]; exact hnd.1
          rw [(hget i).2 hnot, ← hi, List.getElem?_set_self hk.2]
        · exact (hget i).1 v h'
      · intro hnot
        simp only [List.map_cons, List.mem_cons, not_or] at hnot
        rw [(hget i).2 hnot.2]
        have hne : k.toNat ≠ i := by omega
        rw [List.getElem?_set_ne hne]

/-- A key that is not an index of the vector makes the stores fault. -/
theorem store_designs_none :
    ∀ (l : List (Int × module_digitization_config)) (d0 : List module_digitization_config),
      (∃ p ∈ l, ¬ (0 ≤ p.1 ∧ p.1.toNat < d0.length)) → store_designs l d0 = none := by
  intro l
  induction l with
  | nil => intro d0 h; obtain ⟨p, hp, -⟩ := h; cases hp
  | cons q l ih =>
    intro d0 h
    simp only [store_designs, store_design]
    split_ifs with hq
    · obtain ⟨p, hp, hbad⟩ := h
      rcases List.mem_cons.mp hp with h' | h'
      · subst h'; exact absurd hq hbad
      · exact ih _ ⟨p, h', by rw [List.length_set]; exact hbad⟩
    · rfl

/-- Distinct integers that are exactly the numbers below `n` are `n` many. -/
theorem keys_length_of_range (l : List Int) (n : Nat) (hnd : l.Nodup)
    (h : ∀ i, i ∈ l ↔ (0 ≤ i ∧ i < (n : Int))) : l.length = n := by
  have hfin : l.toFinset = Finset.Ico (0 : Int) n := by
    ext i
    simp only [List.mem_toFinset, Finset.mem_Ico]
    exact h i
  have hc := List.toFinset_card_of_nodup hnd
  rw [hfin, Int.card_Ico] at hc
  simp at hc
  exact hc.symm

/-- Distinct integers, each below their number, are all the numbers below it. -/
theorem keys_cover_of_bounded (l : List Int) (hnd : l.Nodup)
    (h : ∀ i ∈ l, 0 ≤ i ∧ i < (l.length : Int)) :
    ∀ i : Int, 0 ≤ i ∧ i < (l.length : Int) → i ∈ l := by
  have hsub : l.toFinset ⊆ Finset.Ico (0 : Int) l.length := by
    intro i hi
    rw [List.mem_toFinset] at hi
    rw [Finset.mem_Ico]
    exact h i hi
  have hcard : (Finset.Ico (0 : Int) l.length).card ≤ l.toFinset.card := by
    rw [List.toFinset_card_of_nodup hnd, Int.card_Ico]
    simp
  have heq := Finset.eq_of_subset_of_card_le hsub hcard
  intro i hi
  have : i ∈ Finset.Ico (0 : Int) l.length := Finset.mem_Ico.mpr hi
  rw [← heq, List.mem_toFinset] at this
  exact this

/-- The keys of the design map: no key twice, and the keys are the design
indices of the entries. -/
theorem read_design_map_keys (entries : List JsonEntry) :
    ((read_design_map entries).map Prod.fst).Nodup ∧
    ∀ k : Int, k ∈ (read_design_map entries).map Prod.fst ↔
      ∃ e ∈ entries, e.design_index = k := by
  constructor
  · exact fold_design_map_nodup entries [] List.nodup_nil
  · intro k
    rw [read_design_map, fold_design_map_keys]
    simp

/-- The reader returns when every key of the design map is an index into a
vector as long as the map, and then the designs are the last entries of
their indices. -/
theorem read_digitization_config_some (json : JsonConfig)
    (hin : ∀ k ∈ (read_design_map (json.entries.getD [])).map Prod.fst,
      0 ≤ k ∧ k < ((read_design_map (json.entries.getD [])).length : Int)) :
    ∃ cfg, read_digitization_config json = some cfg ∧
      cfg.designs.length = (read_design_map (json.entries.getD [])).length ∧
      cfg.id_to_design_index = (json.id_to_design_map.getD []).foldl
        (fun m mapping => map_assign mapping.detray_id mapping.design_index m) [] ∧
      ∀ i : Nat, i < (read_design_map (json.entries.getD [])).length →
        ∃ e, last_with_index (i : Int) (json.entries.getD []) = some e ∧
          cfg.designs[i]? = some (entry_config e) := by
  obtain ⟨hnd, hkeys⟩ := read_design_map_keys (json.entries.getD [])
  have hperm := List.perm_insertionSort (fun (a b : Int × module_digitization_config) =>
    a.1 ≤ b.1) (read_design_map (json.entries.getD []))
  have hnd' : ((List.insertionSort (fun (a b : Int × module_digitization_config) => a.1 ≤ b.1)
      (read_design_map (json.entries.getD []))).map Prod.fst).Nodup :=
    (List.Perm.nodup_iff (hperm.map Prod.fst)).mpr hnd
  obtain ⟨d, hd, hlen, hget⟩ := store_designs_some _
    (List.replicate (read_design_map (json.entries.getD [])).length
      module_digitization_config.init) hnd'
    (by
      intro p hp
      rw [List.length_replicate]
      have hp' : p ∈ read_design_map (json.entries.getD []) := hperm.mem_iff.mp hp
      have := hin p.1 (List.mem_map_of_mem Prod.fst hp')
      omega)
  refine ⟨{ designs := d,
            id_to_design_index := (json.id_to_design_map.getD []).foldl
              (fun m mapping => map_assign mapping.detray_id mapping.design_index m) [] },
    ?_, ?_, rfl, ?_⟩
  · simp only [read_digitization_config, hd]
  · simp only [hlen, List.length_replicate]
  · intro i hi
    have hmem : (i : Int) ∈ (read_design_map (json.entries.getD [])).map Prod.fst := by
      apply keys_cover_of_bounded _ hnd
      · intro k hk
        rw [List.length_map]
        exact hin k hk
      · rw [List.length_map]; omega
    obtain ⟨e0, he0, hk0⟩ := (hkeys i).mp hmem
    obtain ⟨e, he⟩ := last_with_index_isSome i _ ⟨e0, he0, hk0⟩
    refine ⟨e, he, ?_⟩
    have hfind : map_find (i : Int) (read_design_map (json.entries.getD []))
        = some (entry_config e) := by
      rw [read_design_map, fold_design_map_find, he]
    have hin' : ((i : Int), entry_config e) ∈ read_design_map (json.entries.getD []) :=
      (map_find_eq_some_iff _ _ _ hnd).mp hfind
    exact (hget i).1 _ (hperm.mem_iff.mpr hin')

/-- The reader faults when some key of the design map is not an index into a
vector as long as the map. -/
theorem read_digitization_config_none (json : JsonConfig)
    (hbad : ∃ k ∈ (read_design_map (json.entries.getD [])).map Prod.fst,
      ¬ (0 ≤ k ∧ k < ((read_design_map (json.entries.getD [])).length : Int))) :
    read_digitization_config json = none := by
  obtain ⟨k, hk, hbad⟩ := hbad
  obtain ⟨p, hp, hpk⟩ := List.mem_map.mp hk
  have hperm := List.perm_insertionSort (fun (a b : Int × module_digitization_config) =>
    a.1 ≤ b.1) (read_design_map (json.entries.getD []))
  have hnone := store_designs_none
    (List.insertionSort (fun (a b : Int × module_digitization_config) => a.1 ≤ b.1)
      (read_design_map (json.entries.getD [])))
    (List.replicate (read_design_map (json.entries.getD [])).length
      module_digitization_config.init)
    ⟨p, hperm.mem_iff.mpr hp, by
      rw [List.length_replicate, hpk]
      intro h
      exact hbad ⟨h.1, by omega⟩⟩
  simp only [read_digitization_config, hnone]

/-- With exactly the indices below `n` among the entries the reader returns
`n` designs, each the configuration of the last entry of its index. -/
theorem read_digitization_config_exact (json : JsonConfig) (n : Nat)
    (hex : ExactRange (json.entries.getD []) n) :
    ∃ cfg, read_digitization_config json = some cfg ∧ cfg.designs.length = n ∧
      cfg.id_to_design_index = (json.id_to_design_map.getD []).foldl
        (fun m mapping => map_assign mapping.detray_id mapping.design_index m) [] ∧
      ∀ i : Nat, i < n →
        ∃ e, last_with_index (i : Int) (json.entries.getD []) = some e ∧
          cfg.designs[i]? = some (entry_config e) := by
  obtain ⟨hnd, hkeys⟩ := read_design_map_keys (json.entries.getD [])
  have hlen : ((read_design_map (json.entries.getD [])).map Prod.fst).length = n :=
    keys_length_of_range _ n hnd (fun i => (hkeys i).trans (hex i))
  rw [List.length_map] at hlen
  obtain ⟨cfg, h1, h2, h3, h4⟩ := read_digitization_config_some json
    (by
      intro k hk
      rw [hlen]
      exact (hex k).mp ((hkeys k).mp hk))
  exact ⟨cfg, h1, h2.trans hlen, h3, fun i hi => h4 i (by omega)⟩

/-- The entries `to_json` writes: one per design, with its position as index. -/
theorem to_json_entries_mem (s : Nat) (designs : List module_digitization_config)
    (e : JsonEntry) :
    e ∈ to_json_entries s designs ↔
      ∃ j : Nat, ∃ d, designs[j]? = some d ∧
        e = { design_index := ((s + j : Nat) : Int), binningdata := some d.bin_edges } := by
  induction designs generalizing s with
  | nil => simp [to_json_entries]
  | cons d0 rest ih =>
    rw [to_json_entries, List.mem_cons, ih]
    constructor
    · rintro (h | ⟨j, d, hj, he⟩)
      · exact ⟨0, d0, by simp, by rw [h]; rfl⟩
      · refine ⟨j + 1, d, by simpa using hj, ?_⟩
        rw [he]
        have : s + 1 + j = s + (j + 1) := by omega
        rw [this]
    · rintro ⟨j, d, hj, he⟩
      cases j with
      | zero =>
        left
        simp only [List.getElem?_cons_zero, Option.some.injEq] at hj
        rw [he, hj]; rfl
      | succ j =>
        right
        refine ⟨j, d, by simpa using hj, ?_⟩
        rw [he]
        have : s + 1 + j = s + (j + 1) := by omega
        rw [this]

/-- The indices `to_json` writes are exactly the positions of the designs. -/
theorem to_json_entries_exact (designs : List module_digitization_config) :
    ExactRange (to_json_entries 0 designs) designs.length := by
  intro i
  constructor
  · rintro ⟨e, he, hi⟩
    obtain ⟨j, d, hj, rfl⟩ := (to_json_entries_mem 0 designs e).mp he
    have hlt : j < designs.length := by
      by_contra hge
      rw [List.getElem?_eq_none (by omega)] at hj
      cases hj
    simp only at hi
    omega
  · rintro ⟨h0, hlt⟩
    have hj : i.toNat < designs.length := by omega
    refine ⟨{ design_index := ((0 + i.toNat : Nat) : Int),
              binningdata := some (designs[i.toNat]).bin_edges }, ?_, ?_⟩
    · exact (to_json_entries_mem 0 designs _).mpr
        ⟨i.toNat, designs[i.toNat], List.getElem?_eq_getElem hj, rfl⟩
    · simp only
      omega

/-- The last entry with a position as index carries the axes of the design at
that position. -/
theorem last_with_index_to_json (s : Nat) (designs : List module_digitization_config)
    (i : Nat) (e : JsonEntry) (h : last_with_index ((s + i : Nat) : Int)
      (to_json_entries s designs) = some e) :
    ∃ d, designs[i]? = some d ∧ e.binningdata = some d.bin_edges := by
  obtain ⟨hin, hidx⟩ := last_with_index_spec _ _ _ h
  obtain ⟨j, d, hj, rfl⟩ := (to_json_entries_mem s designs e).mp hin
  simp only at hidx
  have : j = i := by omega
  subst this
  exact ⟨d, hj, rfl⟩

/-- Reading back the written mappings of a map with distinct keys rebuilds it. -/
theorem foldl_map_assign_fresh (l acc : List (Nat × Int))
    (h : ((acc ++ l).map Prod.fst).Nodup) :
    (l.map (fun p => ({ detray_id := p.1, design_index := p.2 } : JsonMapping))).foldl
      (fun m mapping => map_assign mapping.detray_id mapping.design_index m) acc
      = acc ++ l := by
  induction l generalizing acc with
  | nil => simp
  | cons p l ih =>
    rw [List.map_cons, List.foldl_cons]
    have hfresh : p.1 ∉ acc.map Prod.fst := by
      rw [List.map_append, List.map_cons] at h
      have := (List.nodup_append.mp h).2.2
      intro hin
      exact this hin (List.mem_cons_self _ _)
    rw [map_assign_fresh _ _ _ hfresh, ih]
    · simp
    · simpa using h

/-! ### Lemmas on the early exit and on the positions written -/

/-- The loop body at an index whose lookups succeed. -/
theorem aggregate_step_eq (cells : List Cell) (md : SiliconModule) (f : List Nat)
    (start cid link module_idx : Nat) (s : AggState) (j : Nat) (c : Cell) (fj : Nat)
    (hj : j + start < 4294967296) (hcell : cells[j + start]? = some c) (hf : f[j]? = some fj) :
    aggregate_step cells md f start cid link module_idx s j =
      if c.module_index ≠ module_idx then some (.stop s) else
        match (if fj = cid then aggregate_member md link (j + start) c s else some s) with
        | none => none
        | some s2 =>
          if c.channel1 > (s2.maxChannel1 + 1) % 4294967296 then some (.stop s2)
          else some (.next (write_cluster_size s2)) := by
  unfold aggregate_step
  rw [Nat.mod_eq_of_lt hj]
  simp only [hcell, hf]
  rfl

/-- The loop body at an index whose cell lookup fails. -/
theorem aggregate_step_no_cell (cells : List Cell) (md : SiliconModule) (f : List Nat)
    (start cid link module_idx : Nat) (s : AggState) (j : Nat)
    (hj : j + start < 4294967296) (hcell : cells[j + start]? = none) :
    aggregate_step cells md f start cid link module_idx s j = none := by
  unfold aggregate_step
  rw [Nat.mod_eq_of_lt hj]
  simp only [hcell]

/-- The loop body at an index whose label lookup fails, on the module. -/
theorem aggregate_step_no_label (cells : List Cell) (md : SiliconModule) (f : List Nat)
    (start cid link module_idx : Nat) (s : AggState) (j : Nat) (c : Cell)
    (hj : j + start < 4294967296) (hcell : cells[j + start]? = some c) (hf : f[j]? = none) :
    aggregate_step cells md f start cid link module_idx s j =
      if c.module_index ≠ module_idx then some (.stop s) else none := by
  unfold aggregate_step
  rw [Nat.mod_eq_of_lt hj]
  simp only [hcell, hf]

/-- The member block writes `cell_links` and `disjoint_set` at `pos` only. -/
theorem aggregate_member_frame (md : SiliconModule) (link pos : Nat) (c : Cell)
    (s s' : AggState) (h : aggregate_member md link pos c s = some s') :
    s'.cell_links = s.cell_links.set pos link ∧
      (s'.disjoint_set = s.disjoint_set ∨ s'.disjoint_set = s.disjoint_set.set pos link) := by
  obtain ⟨-, k1, -, -, -⟩ := aggregate_member_links md link pos c s s' h
  refine ⟨k1, ?_⟩
  unfold aggregate_member at h
  have key : ∀ s2 : AggState,
      (if signal_cell_modelling c.activation md > md.threshold then
          aggregate_accept md c (signal_cell_modelling c.activation md)
            (if c.channel1 > s.maxChannel1 then { s with maxChannel1 := c.channel1 } else s)
        else some (if c.channel1 > s.maxChannel1 then { s with maxChannel1 := c.channel1 }
          else s)) = some s2 → s2.disjoint_set = s.disjoint_set := by
    intro s2 h2
    have hs1 : ∀ t : AggState,
        t = (if c.channel1 > s.maxChannel1 then { s with maxChannel1 := c.channel1 } else s) →
        t.disjoint_set = s.disjoint_set := by
      intro t ht
      subst ht
      split_ifs <;> rfl
    have a1 := hs1 _ rfl
    generalize (if c.channel1 > s.maxChannel1 then { s with maxChannel1 := c.channel1 }
      else s) = s1 at h2 a1
    by_cases hw : signal_cell_modelling c.activation md > md.threshold
    · rw [if_pos hw] at h2
      obtain ⟨-, -, -, -, b5⟩ := aggregate_accept_frame md c _ _ s2 h2
      exact b5.trans a1
    · rw [if_neg hw] at h2
      simp only [Option.some.injEq] at h2
      subst h2
      exact a1
  dsimp only at h
  split at h
  · cases h
  · rename_i s2 hs2
    have k := key s2 hs2
    by_cases hpos : pos < s2.cell_links.length
    · rw [if_pos hpos] at h
      split_ifs at h <;> simp only [Option.some.injEq] at h <;> subst h
      · right; simp [k]
      · left; exact k
    · rw [if_neg hpos] at h
      cases h

/-- One pass of the loop body leaves every entry of `cell_links` and
`disjoint_set` outside the owned positions as it was. -/
theorem aggregate_step_frame (cells : List Cell) (md : SiliconModule) (f : List Nat)
    (start finish cid link module_idx : Nat) (s : AggState) (j : Nat)
    (hcid : cid ≤ j) (hj : j + start < finish) (hfin : finish < 4294967296)
    (r : LoopStep AggState)
    (h : aggregate_step cells md f start cid link module_idx s j = some r) :
    ∀ s', (r = .next s' ∨ r = .stop s') →
      s'.cell_links.length = s.cell_links.length ∧
      s'.disjoint_set.length = s.disjoint_set.length ∧
      ∀ p, ¬ OwnedPosition f start finish cid p →
        s'.cell_links[p]? = s.cell_links[p]? ∧ s'.disjoint_set[p]? = s.disjoint_set[p]? := by
  have hj' : j + start < 4294967296 := by omega
  cases hcell : cells[j + start]? with
  | none => rw [aggregate_step_no_cell cells md f start cid link module_idx s j hj' hcell] at h
            cases h
  | some c =>
    cases hf : f[j]? with
    | none =>
      rw [aggregate_step_no_label cells md f start cid link module_idx s j c hj' hcell hf] at h
      split_ifs at h
      simp only [Option.some.injEq] at h
      subst h
      intro s' hs'
      rcases hs' with e | e
      · cases e
      · simp only [LoopStep.stop.injEq] at e
        subst e
        exact ⟨rfl, rfl, fun _ _ => ⟨rfl, rfl⟩⟩
    | some fj =>
      rw [aggregate_step_eq cells md f start cid link module_idx s j c fj hj' hcell hf] at h
      by_cases hm : c.module_index ≠ module_idx
      · rw [if_pos hm] at h
        simp only [Option.some.injEq] at h
        subst h
        intro s' hs'
        rcases hs' with e | e
        · cases e
        · simp only [LoopStep.stop.injEq] at e
          subst e
          exact ⟨rfl, rfl, fun _ _ => ⟨rfl, rfl⟩⟩
      · rw [if_neg hm] at h
        have hafter : ∀ s2, (if fj = cid then aggregate_member md link (j + start) c s
            else some s) = some s2 →
            s2.cell_links.length = s.cell_links.length ∧
            s2.disjoint_set.length = s.disjoint_set.length ∧
            ∀ p, ¬ OwnedPosition f start finish cid p →
              s2.cell_links[p]? = s.cell_links[p]? ∧
              s2.disjoint_set[p]? = s.disjoint_set[p]? := by
          intro s2 h2
          by_cases hcidj : fj = cid
          · rw [if_pos hcidj] at h2
            obtain ⟨k1, k2⟩ := aggregate_member_frame md link (j + start) c s s2 h2
            have hne : ∀ p, ¬ OwnedPosition f start finish cid p → j + start ≠ p := by
              intro p hp e
              exact hp ⟨j, hcid, hj, by rw [hf, hcidj], e.symm⟩
            refine ⟨by rw [k1, List.length_set], ?_, ?_⟩
            · rcases k2 with k2 | k2
              · rw [k2]
              · rw [k2, List.length_set]
            · intro p hp
              refine ⟨by rw [k1, List.getElem?_set_ne (hne p hp)], ?_⟩
              rcases k2 with k2 | k2
              · rw [k2]
              · rw [k2, List.getElem?_set_ne (hne p hp)]
          · rw [if_neg hcidj] at h2
            simp only [Option.some.injEq] at h2
            subst h2
            exact ⟨rfl, rfl, fun _ _ => ⟨rfl, rfl⟩⟩
        cases ha : (if fj = cid then aggregate_member md link (j + start) c s else some s) with
        | none => rw [ha] at h; cases h
        | some s2 =>
          rw [ha] at h
          dsimp only at h
          have key := hafter s2 ha
          intro s' hs'
          split_ifs at h <;> simp only [Option.some.injEq] at h <;> subst h
          · rcases hs' with e | e
            · cases e
            · simp only [LoopStep.stop.injEq] at e
              subst e
              exact key
          · rcases hs' with e | e
            · simp only [LoopStep.next.injEq] at e
              subst e
              exact key
            · cases e

/-- The loop leaves every entry of `cell_links` and `disjoint_set` outside the
owned positions as it was. -/
theorem aggregate_loop_frame (cells : List Cell) (md : SiliconModule) (f : List Nat)
    (start finish cid link module_idx : Nat) (hfin : finish < 4294967296) :
    ∀ (n j : Nat) (s s' : AggState), cid ≤ j → j + n + start ≤ finish →
      aggregate_loop cells md f start cid link module_idx (List.range' j n) s = some s' →
      s'.cell_links.length = s.cell_links.length ∧
      s'.disjoint_set.length = s.disjoint_set.length ∧
      ∀ p, ¬ OwnedPosition f start finish cid p →
        s'.cell_links[p]? = s.cell_links[p]? ∧ s'.disjoint_set[p]? = s.disjoint_set[p]? := by
  intro n
  induction n with
  | zero =>
    intro j s s' _ _ h
    simp only [List.range'_zero, aggregate_loop, Option.some.injEq] at h
    subst h
    exact ⟨rfl, rfl, fun _ _ => ⟨rfl, rfl⟩⟩
  | succ n ih =>
    intro j s s' hcid hb h
    rw [List.range'_succ] at h
    unfold aggregate_loop at h
    cases hst : aggregate_step cells md f start cid link module_idx s j with
    | none => rw [hst] at h; cases h
    | some r =>
      have hstep := aggregate_step_frame cells md f start finish cid link module_idx s j hcid
        (by omega) hfin r hst
      rw [hst] at h
      cases r with
      | stop s2 =>
        dsimp only at h
        simp only [Option.some.injEq] at h
        subst h
        exact hstep s2 (Or.inr rfl)
      | next s2 =>
        dsimp only at h
        obtain ⟨a1, a2, a3⟩ := hstep s2 (Or.inl rfl)
        obtain ⟨b1, b2, b3⟩ := ih (j + 1) s2 s' (by omega) (by omega) h
        exact ⟨b1.trans a1, b2.trans a2, fun p hp =>
          ⟨(b3 p hp).1.trans (a3 p hp).1, (b3 p hp).2.trans (a3 p hp).2⟩⟩

/-- The scan leaves every entry of `cell_links` and `disjoint_set` outside the
owned positions as it was. -/
theorem aggregate_scan_frame (seed : ChannelSeed) (cells : List Cell)
    (det_descr : List SiliconModule) (f : List Nat) (start finish cid : Nat)
    (cell_links : List Nat) (link : Nat) (disjoint_set : List Nat) (cluster_size : Option Nat)
    (hse : start ≤ finish) (hfin : finish < 4294967296) (hps : finish - start < 65536)
    (md : SiliconModule) (s : AggState)
    (h : aggregate_scan seed cells det_descr f start finish cid cell_links link disjoint_set
      cluster_size = some (md, s)) :
    s.cell_links.length = cell_links.length ∧ s.disjoint_set.length = disjoint_set.length ∧
    ∀ p, ¬ OwnedPosition f start finish cid p →
      s.cell_links[p]? = cell_links[p]? ∧ s.disjoint_set[p]? = disjoint_set[p]? := by
  unfold aggregate_scan at h
  have hsize : ((finish + 4294967296 - start) % 4294967296) % 65536 = finish - start := by
    omega
  rw [hsize] at h
  cases hc0 : cells[(cid + start) % 4294967296]? with
  | none => rw [hc0] at h; cases h
  | some c0 =>
    rw [hc0] at h
    dsimp only at h
    cases hmd : det_descr[c0.module_index]? with
    | none => rw [hmd] at h; cases h
    | some md0 =>
      rw [hmd] at h
      dsimp only at h
      cases hl : aggregate_loop cells md0 f start cid link c0.module_index
          (List.range' cid (finish - start - cid))
          (aggregate_init seed cell_links disjoint_set cluster_size) with
      | none => rw [hl] at h; cases h
      | some s3 =>
        rw [hl] at h
        simp only [Option.some.injEq, Prod.mk.injEq] at h
        obtain ⟨-, h2⟩ := h
        subst h2
        by_cases hle : cid ≤ finish - start
        · exact aggregate_loop_frame cells md0 f start finish cid link c0.module_index hfin
            (finish - start - cid) cid _ _ (le_refl _) (by omega) hl
        · have hz : finish - start - cid = 0 := by omega
          rw [hz] at hl
          simp only [List.range'_zero, aggregate_loop, Option.some.injEq] at hl
          subst hl
          exact ⟨rfl, rfl, fun _ _ => ⟨rfl, rfl⟩⟩

/-- Two labels own no position in common. -/
theorem owned_position_disjoint (f : List Nat) (start finish cid1 cid2 p : Nat)
    (hne : cid1 ≠ cid2) (h1 : OwnedPosition f start finish cid1 p) :
    ¬ OwnedPosition f start finish cid2 p := by
  rintro ⟨j2, -, -, hf2, hp2⟩
  obtain ⟨j1, -, -, hf1, hp1⟩ := h1
  have : j1 = j2 := by omega
  subst this
  rw [hf1] at hf2
  exact hne (Option.some.inj hf2)

/-- The body of the full scan at an index whose lookups succeed. -/
theorem full_scan_step_eq (cells : List Cell) (md : SiliconModule) (f : List Nat)
    (start cid link module_idx : Nat) (s : AggState) (j : Nat) (c : Cell) (fj : Nat)
    (hj : j + start < 4294967296) (hcell : cells[j + start]? = some c) (hf : f[j]? = some fj) :
    full_scan_step cells md f start cid link module_idx s j =
      if c.module_index ≠ module_idx then some (.stop s) else
        match (if fj = cid then aggregate_member md link (j + start) c s else some s) with
        | none => none
        | some s2 => some (.next (write_cluster_size s2)) := by
  unfold full_scan_step
  rw [Nat.mod_eq_of_lt hj]
  simp only [hcell, hf]

/-- Writing the count through `cluster_size` twice is writing it once. -/
theorem write_cluster_size_idem (s : AggState) :
    write_cluster_size (write_cluster_size s) = write_cluster_size s := by
  cases hcs : s.cluster_size <;> simp [write_cluster_size, hcs]

/-- The full scan over indices none of which holds a labelled cell of the
module changes nothing once the count has been written. -/
theorem full_scan_loop_inert (cells : List Cell) (md : SiliconModule) (f : List Nat)
    (start cid link module_idx : Nat) (s : AggState) (hfix : write_cluster_size s = s) :
    ∀ (n j : Nat), j + n + start ≤ 4294967296 →
      (∀ i, j ≤ i → i < j + n → ∃ c fi, cells[i + start]? = some c ∧ f[i]? = some fi ∧
        (c.module_index = module_idx → fi ≠ cid)) →
      full_scan_loop cells md f start cid link module_idx (List.range' j n) s = some s := by
  intro n
  induction n with
  | zero => intro j _ _; rfl
  | succ n ih =>
    intro j hb hall
    obtain ⟨c, fj, hcell, hf, hnot⟩ := hall j (le_refl _) (by omega)
    rw [List.range'_succ]
    unfold full_scan_loop
    rw [full_scan_step_eq cells md f start cid link module_idx s j c fj (by omega) hcell hf]
    by_cases hm : c.module_index ≠ module_idx
    · rw [if_pos hm]
    · rw [if_neg hm, if_neg (hnot (not_not.mp hm))]
      dsimp only
      rw [hfix]
      exact ih (j + 1) (by omega) (fun i hi1 hi2 => hall i (by omega) (by omega))

/-- Under the preconditions of the early exit, the loop with the exit and the
loop without it reach the same state. -/
theorem aggregate_loop_eq_full_scan_loop (cells : List Cell) (md : SiliconModule)
    (f : List Nat) (start finish cid link module_idx : Nat)
    (hfin : finish < 4294967296) (hch : ∀ c ∈ cells, c.channel1 < 4294967295)
    (hroot : f[cid]? = some cid)
    (hlook : ∀ j, cid ≤ j → j + start < finish →
      (cells[j + start]?).isSome = true ∧ (f[j]?).isSome = true)
    (hsorted : ∀ i j ci cj, cid ≤ i → i ≤ j → j + start < finish →
      cells[i + start]? = some ci → cells[j + start]? = some cj →
      ci.module_index = module_idx → cj.module_index = module_idx →
      ci.channel1 ≤ cj.channel1)
    (hgap : ∀ i j ci cj, Labelled cells f start finish cid module_idx i ci →
      Labelled cells f start finish cid module_idx j cj →
      ∀ v, ci.channel1 ≤ v → v ≤ cj.channel1 →
        ∃ k ck, Labelled cells f start finish cid module_idx k ck ∧ ck.channel1 = v) :
    ∀ (n j : Nat) (s : AggState), cid ≤ j → j + n + start ≤ finish →
      ScanInv cells f start finish cid module_idx s j →
      aggregate_loop cells md f start cid link module_idx (List.range' j n) s
        = full_scan_loop cells md f start cid link module_idx (List.range' j n) s := by
  intro n
  induction n with
  | zero => intro j s _ _ _; rfl
  | succ n ih =>
    intro j s hcid hb hinv
    have hjf : j + start < finish := by omega
    obtain ⟨h1, h2⟩ := hlook j hcid hjf
    obtain ⟨c, hcell⟩ := Option.isSome_iff_exists.mp h1
    obtain ⟨fj, hf⟩ := Option.isSome_iff_exists.mp h2
    have hc1 : c.channel1 < 4294967295 := hch c (List.getElem?_mem hcell)
    rw [List.range'_succ]
    unfold aggregate_loop full_scan_loop
    rw [aggregate_step_eq cells md f start cid link module_idx s j c fj (by omega) hcell hf,
      full_scan_step_eq cells md f start cid link module_idx s j c fj (by omega) hcell hf]
    by_cases hm : c.module_index ≠ module_idx
    · rw [if_pos hm, if_pos hm]
    · rw [if_neg hm, if_neg hm]
      have hmod : c.module_index = module_idx := not_not.mp hm
      cases ha : (if fj = cid then aggregate_member md link (j + start) c s else some s) with
      | none => rfl
      | some s2 =>
        dsimp only
        have hmax : s2.maxChannel1 = if fj = cid then max s.maxChannel1 c.channel1
            else s.maxChannel1 := by
          by_cases hmem : fj = cid
          · rw [if_pos hmem] at ha ⊢
            exact (aggregate_member_links md link (j + start) c s s2 ha).2.2.2.2
          · rw [if_neg hmem] at ha ⊢
            simp only [Option.some.injEq] at ha
            rw [← ha]
        have hs2lt : s2.maxChannel1 < 4294967295 := by
          rw [hmax]
          split_ifs
          · exact max_lt hinv.channel hc1
          · exact hinv.channel
        have hmodeq : (s2.maxChannel1 + 1) % 4294967296 = s2.maxChannel1 + 1 :=
          Nat.mod_eq_of_lt (by omega)
        rw [hmodeq]
        by_cases hbr : c.channel1 > s2.maxChannel1 + 1
        · rw [if_pos hbr]
          dsimp only
          have hnm : fj ≠ cid := by
            intro hmem
            rw [if_pos hmem] at hmax
            have := le_max_right s.maxChannel1 c.channel1
            omega
          rw [if_neg hnm] at ha hmax
          simp only [Option.some.injEq] at ha
          subst ha
          have hlt : cid < j := by
            rcases Nat.lt_or_ge cid j with h | h
            · exact h
            · have hje : j = cid := by omega
              subst hje
              rw [hroot] at hf
              exact absurd (Option.some.inj hf).symm hnm
          rw [hinv.size_written hlt]
          symm
          apply full_scan_loop_inert cells md f start cid link module_idx s
            (hinv.size_written hlt) n (j + 1) (by omega)
          intro i hi1 hi2
          obtain ⟨g1, g2⟩ := hlook i (by omega) (by omega)
          obtain ⟨ci, hci⟩ := Option.isSome_iff_exists.mp g1
          obtain ⟨fi, hfi⟩ := Option.isSome_iff_exists.mp g2
          refine ⟨ci, fi, hci, hfi, ?_⟩
          intro hcim hfieq
          obtain ⟨i0, c0, hL0, hi0, hc0⟩ := hinv.attained hlt
          have hLi : Labelled cells f start finish cid module_idx i ci :=
            ⟨by omega, by omega, hci, hcim, by rw [hfi, hfieq]⟩
          have hle : c.channel1 ≤ ci.channel1 :=
            hsorted j i c ci hcid (by omega) (by omega) hcell hci hmod hcim
          obtain ⟨k, ck, hLk, hck⟩ := hgap i0 i c0 ci hL0 hLi (s.maxChannel1 + 1)
            (by omega) (by omega)
          rcases Nat.lt_or_ge k j with hk | hk
          · have := hinv.seen k ck hLk hk
            omega
          · obtain ⟨-, hkf, hkc, hkm, -⟩ := hLk
            have := hsorted j k c ck hcid hk hkf hcell hkc hmod hkm
            omega
        · rw [if_neg hbr]
          dsimp only
          apply ih (j + 1) (write_cluster_size s2) (by omega) (by omega)
          refine ⟨?_, ?_, ?_, ?_, ?_⟩
          · intro i ci hL hi
            show ci.channel1 ≤ s2.maxChannel1
            rcases Nat.lt_or_ge i j with hij | hij
            · have := hinv.seen i ci hL hij
              rw [hmax]
              split_ifs
              · exact le_trans this (le_max_left _ _)
              · exact this
            · have hie : i = j := by omega
              subst hie
              obtain ⟨-, -, hLc, -, hLf⟩ := hL
              rw [hcell] at hLc
              rw [hf] at hLf
              have hce : c = ci := Option.some.inj hLc
              have hfe : fj = cid := Option.some.inj hLf
              subst hce
              rw [hmax, if_pos hfe]
              exact le_max_right _ _
          · intro _
            show ∃ i ci, Labelled cells f start finish cid module_idx i ci ∧ i < j + 1 ∧
              ci.channel1 = s2.maxChannel1
            by_cases hmem : fj = cid
            · rw [if_pos hmem] at hmax
              have hLj : Labelled cells f start finish cid module_idx j c :=
                ⟨hcid, hjf, hcell, hmod, by rw [hf, hmem]⟩
              rcases Nat.lt_or_ge c.channel1 s.maxChannel1 with hlt | hge
              · have hcj : cid < j := by
                  rcases Nat.lt_or_ge cid j with h | h
                  · exact h
                  · have := hinv.initial h
                    omega
                obtain ⟨i0, c0, hL0, hi0, hc0⟩ := hinv.attained hcj
                refine ⟨i0, c0, hL0, by omega, ?_⟩
                rw [hmax, hc0, max_eq_left (le_of_lt hlt)]
              · exact ⟨j, c, hLj, by omega, by rw [hmax, max_eq_right hge]⟩
            · rw [if_neg hmem] at hmax
              have hcj : cid < j := by
                rcases Nat.lt_or_ge cid j with h | h
                · exact h
                · have hje : j = cid := by omega
                  subst hje
                  rw [hroot] at hf
                  exact absurd (Option.some.inj hf).symm hmem
              obtain ⟨i0, c0, hL0, hi0, hc0⟩ := hinv.attained hcj
              exact ⟨i0, c0, hL0, by omega, by rw [hmax, hc0]⟩
          · intro _
            exact write_cluster_size_idem s2
          · exact hs2lt
          · intro h
            omega

/-- Under the preconditions of the early exit, the scan of `aggregate_cluster`
and the full scan give the same result. -/
theorem aggregate_scan_eq_full_scan (seed : ChannelSeed) (cells : List Cell)
    (det_descr : List SiliconModule) (f : List Nat) (start finish cid module_idx : Nat)
    (cell_links : List Nat) (link : Nat) (disjoint_set : List Nat) (cluster_size : Option Nat)
    (hse : start ≤ finish) (hfin : finish < 4294967296) (hps : finish - start < 65536)
    (hch : ∀ c ∈ cells, c.channel1 < 4294967295)
    (hmod : ∀ c0, cells[cid + start]? = some c0 → c0.module_index = module_idx)
    (hroot : f[cid]? = some cid)
    (hlook : ∀ j, cid ≤ j → j + start < finish →
      (cells[j + start]?).isSome = true ∧ (f[j]?).isSome = true)
    (hsorted : ∀ i j ci cj, cid ≤ i → i ≤ j → j + start < finish →
      cells[i + start]? = some ci → cells[j + start]? = some cj →
      ci.module_index = module_idx → cj.module_index = module_idx →
      ci.channel1 ≤ cj.channel1)
    (hgap : ∀ i j ci cj, Labelled cells f start finish cid module_idx i ci →
      Labelled cells f start finish cid module_idx j cj →
      ∀ v, ci.channel1 ≤ v → v ≤ cj.channel1 →
        ∃ k ck, Labelled cells f start finish cid module_idx k ck ∧ ck.channel1 = v) :
    aggregate_scan seed cells det_descr f start finish cid cell_links link disjoint_set
        cluster_size
      = full_scan seed cells det_descr f start finish cid cell_links link disjoint_set
        cluster_size := by
  unfold aggregate_scan full_scan
  have hsize : ((finish + 4294967296 - start) % 4294967296) % 65536 = finish - start := by
    omega
  rw [hsize]
  cases hc0 : cells[(cid + start) % 4294967296]? with
  | none => rfl
  | some c0 =>
    dsimp only
    cases hmd : det_descr[c0.module_index]? with
    | none => rfl
    | some md0 =>
      dsimp only
      by_cases hle : cid + start < finish
      · have hpos : (cid + start) % 4294967296 = cid + start := Nat.mod_eq_of_lt (by omega)
        rw [hpos] at hc0
        have hm0 := hmod c0 hc0
        rw [hm0]
        have hinv0 : ScanInv cells f start finish cid module_idx
            (aggregate_init seed cell_links disjoint_set cluster_size) cid := by
          refine ⟨?_, ?_, ?_, ?_, ?_⟩
          · intro i ci hL hi
            have := hL.1
            omega
          · intro h; exact absurd h (lt_irrefl _)
          · intro h; exact absurd h (lt_irrefl _)
          · simp [aggregate_init]
          · intro _; rfl
        rw [aggregate_loop_eq_full_scan_loop cells md0 f start finish cid link module_idx hfin
          hch hroot hlook hsorted hgap (finish - start - cid) cid _ (le_refl _) (by omega)
          hinv0]
      · have hz : finish - start - cid = 0 := by omega
        rw [hz]
        rfl

/-- What one pass of the full scan does to the links. -/
theorem full_scan_step_links (cells : List Cell) (md : SiliconModule) (f : List Nat)
    (start cid link module_idx : Nat) (s : AggState) (j : Nat) (hj : j + start < 4294967296)
    (r : LoopStep AggState)
    (h : full_scan_step cells md f start cid link module_idx s j = some r) :
    ∃ c, cells[j + start]? = some c ∧
      ((c.module_index ≠ module_idx ∧ r = .stop s) ∨
       (c.module_index = module_idx ∧ ∃ s2, r = .next (write_cluster_size s2) ∧
         ((f[j]? = some cid ∧ j + start < s.cell_links.length ∧
             s2.cell_links = s.cell_links.set (j + start) link) ∨
          (f[j]? ≠ some cid ∧ s2 = s)))) := by
  unfold full_scan_step at h
  rw [Nat.mod_eq_of_lt hj] at h
  dsimp only at h
  cases hcell : cells[j + start]? with
  | none => rw [hcell] at h; cases h
  | some c =>
    rw [hcell] at h
    dsimp only at h
    refine ⟨c, rfl, ?_⟩
    by_cases hm : c.module_index ≠ module_idx
    · rw [if_pos hm] at h
      simp only [Option.some.injEq] at h
      exact Or.inl ⟨hm, h.symm⟩
    · rw [if_neg hm] at h
      right
      refine ⟨not_not.mp hm, ?_⟩
      cases hf : f[j]? with
      | none => rw [hf] at h; cases h
      | some fj =>
        rw [hf] at h
        dsimp only at h
        by_cases hmem : fj = cid
        · rw [if_pos hmem] at h
          cases ha : aggregate_member md link (j + start) c s with
          | none => rw [ha] at h; cases h
          | some s2 =>
            rw [ha] at h
            simp only [Option.some.injEq] at h
            obtain ⟨k0, k1, -⟩ := aggregate_member_links md link (j + start) c s s2 ha
            exact ⟨s2, h.symm, Or.inl ⟨by rw [hmem], k0, k1⟩⟩
        · rw [if_neg hmem] at h
          simp only [Option.some.injEq] at h
          refine ⟨s, h.symm, Or.inr ⟨?_, rfl⟩⟩
          intro e
          exact hmem (Option.some.inj e)

/-- The full scan links every labelled cell up to the first cell of another
module. -/
theorem full_scan_loop_links (cells : List Cell) (md : SiliconModule) (f : List Nat)
    (start finish cid link module_idx : Nat) (hfin : finish < 4294967296) :
    ∀ (n j : Nat) (s s' : AggState), j + n + start ≤ finish →
      full_scan_loop cells md f start cid link module_idx (List.range' j n) s = some s' →
      (∀ i c, Labelled cells f start finish cid module_idx i c → i < j →
        s.cell_links[i + start]? = some link) →
      ∀ i c, Labelled cells f start finish cid module_idx i c → i < j + n →
        (∀ k ck, j ≤ k → k ≤ i → cells[k + start]? = some ck → ck.module_index = module_idx) →
        s'.cell_links[i + start]? = some link := by
  intro n
  induction n with
  | zero =>
    intro j s s' _ h hbefore i c hL hi _
    simp only [List.range'_zero, full_scan_loop, Option.some.injEq] at h
    subst h
    exact hbefore i c hL (by omega)
  | succ n ih =>
    intro j s s' hb h hbefore i c hL hi hrun
    rw [List.range'_succ] at h
    unfold full_scan_loop at h
    cases hst : full_scan_step cells md f start cid link module_idx s j with
    | none => rw [hst] at h; cases h
    | some r =>
      rw [hst] at h
      obtain ⟨cj, hcj, hcase⟩ := full_scan_step_links cells md f start cid link module_idx s j
        (by omega) r hst
      rcases hcase with ⟨hm, hr⟩ | ⟨hm, s2, hr, hs2⟩
      · subst hr
        dsimp only at h
        simp only [Option.some.injEq] at h
        subst h
        rcases Nat.lt_or_ge i j with hij | hij
        · exact hbefore i c hL hij
        · exact absurd (hrun j cj (le_refl _) hij hcj) hm
      · subst hr
        dsimp only at h
        refine ih (j + 1) (write_cluster_size s2) s' (by omega) h ?_ i c hL (by omega)
          (fun k ck hk1 hk2 => hrun k ck (by omega) hk2)
        intro i' c' hL' hi'
        show s2.cell_links[i' + start]? = some link
        rcases hs2 with ⟨-, hlen, hset⟩ | ⟨hnot, hs⟩
        · rw [hset]
          rcases Nat.lt_or_ge i' j with hij | hij
          · rw [List.getElem?_set_ne (by omega)]
            exact hbefore i' c' hL' hij
          · have hie : i' = j := by omega
            subst hie
            rw [List.getElem?_set_self hlen]
        · subst hs
          rcases Nat.lt_or_ge i' j with hij | hij
          · exact hbefore i' c' hL' hij
          · have hie : i' = j := by omega
            subst hie
            exact absurd hL'.2.2.2.2 hnot

/-- The full scan links every labelled cell up to the first cell of another
module. -/
theorem full_scan_links (seed : ChannelSeed) (cells : List Cell)
    (det_descr : List SiliconModule) (f : List Nat) (start finish cid module_idx : Nat)
    (cell_links : List Nat) (link : Nat) (disjoint_set : List Nat) (cluster_size : Option Nat)
    (hse : start ≤ finish) (hfin : finish < 4294967296) (hps : finish - start < 65536)
    (hmod : ∀ c0, cells[cid + start]? = some c0 → c0.module_index = module_idx)
    (md : SiliconModule) (s : AggState)
    (h : full_scan seed cells det_descr f start finish cid cell_links link disjoint_set
      cluster_size = some (md, s)) :
    ∀ i c, Labelled cells f start finish cid module_idx i c →
      (∀ k ck, cid ≤ k → k ≤ i → cells[k + start]? = some ck → ck.module_index = module_idx) →
      s.cell_links[i + start]? = some link := by
  intro i c hL hrun
  have hLr := hL
  obtain ⟨hL1, hL2, -, -, -⟩ := hL
  unfold full_scan at h
  have hsize : ((finish + 4294967296 - start) % 4294967296) % 65536 = finish - start := by
    omega
  have hpos : (cid + start) % 4294967296 = cid + start := Nat.mod_eq_of_lt (by omega)
  rw [hsize, hpos] at h
  cases hc0 : cells[cid + start]? with
  | none => rw [hc0] at h; cases h
  | some c0 =>
    rw [hc0] at h
    dsimp only at h
    rw [hmod c0 hc0] at h
    cases hmd : det_descr[module_idx]? with
    | none => rw [hmd] at h; cases h
    | some md0 =>
      rw [hmd] at h
      dsimp only at h
      cases hl : full_scan_loop cells md0 f start cid link module_idx
          (List.range' cid (finish - start - cid))
          (aggregate_init seed cell_links disjoint_set cluster_size) with
      | none => rw [hl] at h; cases h
      | some s3 =>
        rw [hl] at h
        simp only [Option.some.injEq, Prod.mk.injEq] at h
        obtain ⟨-, h2⟩ := h
        subst h2
        exact full_scan_loop_links cells md0 f start finish cid link module_idx hfin
          (finish - start - cid) cid _ _ (by omega) hl
          (fun i' c' hL' hi' => by have := hL'.1; omega) i c hLr (by omega) hrun

/-- The channels of `gap_cells` are below the largest `unsigned int`. -/
theorem gap_channels : ∀ c ∈ gap_cells, c.channel1 < 4294967295 := by
  intro c hc
  simp only [gap_cells, List.mem_cons, List.mem_singleton, List.not_mem_nil, or_false] at hc
  rcases hc with h | h | h <;> subst h <;> decide

/-- The first cell of `gap_cells` is on module 0. -/
theorem gap_module : ∀ c0, gap_cells[0 + 0]? = some c0 → c0.module_index = 0 := by
  intro c0 h
  simp only [gap_cells, Nat.add_zero, List.getElem?_cons_zero, Option.some.injEq] at h
  subst h
  rfl

/-- The lookups of the scan succeed on `gap_cells`. -/
theorem gap_lookups : ∀ j, 0 ≤ j → j + 0 < 3 →
    (gap_cells[j + 0]?).isSome = true ∧ (gap_labels[j]?).isSome = true := by
  intro j _ hj
  have hj3 : j < 3 := by omega
  interval_cases j <;> exact ⟨rfl, rfl⟩

/-- The cells of `gap_cells` by index. -/
theorem gap_cell_at (j : Nat) (c : Cell) (h : gap_cells[j + 0]? = some c) :
    (j = 0 ∧ c.channel1 = 0) ∨ (j = 1 ∧ c.channel1 = 1) ∨ (j = 2 ∧ c.channel1 = 3) := by
  rw [Nat.add_zero] at h
  have hj3 : j < 3 := by
    by_contra hge
    rw [List.getElem?_eq_none (by simp [gap_cells]; omega)] at h
    cases h
  interval_cases j
  · simp only [gap_cells, List.getElem?_cons_zero, Option.some.injEq] at h
    subst h; exact Or.inl ⟨rfl, rfl⟩
  · simp only [gap_cells, List.getElem?_cons_succ, List.getElem?_cons_zero,
      Option.some.injEq] at h
    subst h; exact Or.inr (Or.inl ⟨rfl, rfl⟩)
  · simp only [gap_cells, List.getElem?_cons_succ, List.getElem?_cons_zero,
      Option.some.injEq] at h
    subst h; exact Or.inr (Or.inr ⟨rfl, rfl⟩)

/-- The cells of `gap_cells` are sorted by channel1. -/
theorem gap_sorted : ∀ i j ci cj, 0 ≤ i → i ≤ j → j + 0 < 3 →
    gap_cells[i + 0]? = some ci → gap_cells[j + 0]? = some cj →
    ci.module_index = 0 → cj.module_index = 0 → ci.channel1 ≤ cj.channel1 := by
  intro i j ci cj _ hij _ hci hcj _ _
  have hi := gap_cell_at i ci hci
  have hj := gap_cell_at j cj hcj
  omega

/-- The cells of `gap_cells` labelled 0. -/
theorem gap_labelled (i : Nat) (c : Cell) (h : Labelled gap_cells gap_labels 0 3 0 0 i c) :
    (i = 0 ∧ c.channel1 = 0) ∨ (i = 1 ∧ c.channel1 = 1) := by
  obtain ⟨-, -, hc, -, hf⟩ := h
  rcases gap_cell_at i c hc with h0 | h1 | h2
  · exact Or.inl h0
  · exact Or.inr h1
  · obtain ⟨rfl, -⟩ := h2
    simp [gap_labels] at hf

/-- The channel1 values of the cells labelled 0 are 0 and 1, without a gap. -/
theorem gap_free : ∀ i j ci cj, Labelled gap_cells gap_labels 0 3 0 0 i ci →
    Labelled gap_cells gap_labels 0 3 0 0 j cj →
    ∀ v, ci.channel1 ≤ v → v ≤ cj.channel1 →
      ∃ k ck, Labelled gap_cells gap_labels 0 3 0 0 k ck ∧ ck.channel1 = v := by
  intro i j ci cj hi hj v hv1 hv2
  have h1 := gap_labelled i ci hi
  have h2 := gap_labelled j cj hj
  have hv : v = 0 ∨ v = 1 := by omega
  rcases hv with rfl | rfl
  · exact ⟨0, ⟨0, 0, 10, 0⟩, ⟨le_refl _, by decide, rfl, rfl, rfl⟩, rfl⟩
  · exact ⟨1, ⟨0, 1, 10, 0⟩, ⟨by decide, by decide, rfl, rfl, rfl⟩, rfl⟩

/-- The scan of `aggregate_cluster` on `gap_cells` for the label 0. -/
theorem gap_aggregate_scan :
    aggregate_scan saturating_seed gap_cells [demo_module] gap_labels 0 3 0 [0, 0, 0] 4
      [7, 7, 7] (some 9) = some (demo_module, gap_scan) := by
  norm_num [aggregate_scan, aggregate_loop, aggregate_step, aggregate_member,
    aggregate_accept, aggregate_init, position_from_cell, signal_cell_modelling, demo_module,
    SiliconModule.design, List.range', saturating_seed, gap_cells, gap_labels, gap_scan]

/-- The run of `aggregate_cluster` on `gap_cells` for the label 0. -/
theorem gap_aggregate :
    aggregate_cluster saturating_seed unused_sqrt ⟨.CHANNEL0⟩ gap_cells [demo_module]
      gap_labels 0 3 0 demo_measurement [0, 0, 0] 4 [7, 7, 7] (some 9) = some gap_result := by
  unfold aggregate_cluster
  rw [gap_aggregate_scan]
  norm_num [gap_scan, gap_result, cluster_diameter, strategy_diameter, demo_module,
    demo_measurement]

/-- The third position of the partition `gap_cells` is not owned by the
label 0. -/
theorem gap_not_owned : ¬ OwnedPosition gap_labels 0 3 0 2 := by
  rintro ⟨j, -, -, hf, hp⟩
  have hj : j = 2 := by omega
  subst hj
  simp [gap_labels] at hf

/-! ### Lemmas on the order of the cells and on rectangles -/

/-- The largest channel does not depend on the order. -/
theorem max_channel_perm {l1 l2 : List Nat} (h : l1.Perm l2) :
    max_channel l1 = max_channel l2 := by
  induction h with
  | nil => rfl
  | cons x _ ih => simp only [max_channel, ih]
  | swap x y l => simp only [max_channel]; omega
  | trans _ _ ih1 ih2 => exact ih1.trans ih2

/-- The smallest channel of a list with a further element in front. -/
theorem min_channel_cons (a : Nat) (l : List Nat) (h : l ≠ []) :
    min_channel (a :: l) = min a (min_channel l) := by
  cases l with
  | nil => exact absurd rfl h
  | cons b l => rfl

/-- The smallest channel does not depend on the order. -/
theorem min_channel_perm {l1 l2 : List Nat} (h : l1.Perm l2) :
    min_channel l1 = min_channel l2 := by
  induction h with
  | nil => rfl
  | @cons x l1 l2 hp ih =>
    by_cases hnil : l1 = []
    · subst hnil
      rw [List.nil_perm.mp hp]
    · have hnil2 : l2 ≠ [] := fun e => hnil (by subst e; exact List.perm_nil.mp hp)
      rw [min_channel_cons x l1 hnil, min_channel_cons x l2 hnil2, ih]
  | swap x y l =>
    cases l with
    | nil => simp only [min_channel]; omega
    | cons z l => simp only [min_channel]; omega
  | trans _ _ ih1 ih2 => exact ih1.trans ih2

/-- The channel extent does not depend on the order. -/
theorem channel_extent_perm {l1 l2 : List Nat} (h : l1.Perm l2) :
    channel_extent l1 = channel_extent l2 := by
  rw [channel_extent, channel_extent, max_channel_perm h, min_channel_perm h]

/-- Listing the indices in another order lists the cells in another order. -/
theorem cluster_cells_perm (cells : List Cell) {c1 c2 : List Nat} (h : c1.Perm c2) :
    (cluster_cells cells c1).Perm (cluster_cells cells c2) :=
  h.filterMap _

/-- The accepted cells of a reordered list are the accepted cells, reordered. -/
theorem accepted_perm (thr : ℚ) {l1 l2 : List Cell} (h : l1.Perm l2) :
    (accepted thr l1).Perm (accepted thr l2) :=
  h.filter _

/-- The sum of the activations does not depend on the order. -/
theorem weight_sum_perm {l1 l2 : List Cell} (h : l1.Perm l2) :
    weight_sum l1 = weight_sum l2 :=
  (h.map _).sum_eq

/-- The weighted sum of the midpoints does not depend on the order. -/
theorem moment_sum_perm (edges : List ℚ) (ch : Cell → Nat) {l1 l2 : List Cell}
    (h : l1.Perm l2) : moment_sum edges ch l1 = moment_sum edges ch l2 :=
  (h.map _).sum_eq

/-- The sum of the widths does not depend on the order. -/
theorem width_sum_perm (edges : List ℚ) (ch : Cell → Nat) {l1 l2 : List Cell}
    (h : l1.Perm l2) : width_sum edges ch l1 = width_sum edges ch l2 :=
  (h.map _).sum_eq

/-- Without accepted cells the loop leaves the mean and the offset as they
were. -/
theorem calc_cells_none_accepted (dd : Design) (cd : Conditions) :
    ∀ (cs : List Cell) (s s' : ClusterProps), accepted cd.threshold cs = [] →
      calc_cells dd cd cs s = some s' → s'.mean = s.mean ∧ s'.offset = s.offset := by
  intro cs
  induction cs with
  | nil =>
    intro s s' _ h
    simp only [calc_cells, Option.some.injEq] at h
    subst h
    exact ⟨rfl, rfl⟩
  | cons c cs ih =>
    intro s s' hacc h
    have hc : ¬ cd.threshold < c.activation := by
      intro hlt
      rw [accepted_cons_of_lt _ _ _ hlt] at hacc
      cases hacc
    rw [accepted_cons_of_not_lt _ _ _ hc] at hacc
    simp only [calc_cells, calc_cell_rejected dd cd s c hc] at h
    have key := ih _ s' hacc h
    exact key

/-- Without accepted cells `calc_cluster_properties` returns the mean (0, 0). -/
theorem calc_cluster_properties_none_accepted (cluster : List Nat) (cells : List Cell)
    (dd : Design) (cd : Conditions) (hidx : ∀ i ∈ cluster, i < cells.length)
    (hacc : accepted cd.threshold (cluster_cells cells cluster) = []) (p : ClusterProps)
    (hp : calc_cluster_properties cluster cells dd cd (0, 0) (0, 0) 0 = some p) :
    p.mean = (0, 0) := by
  unfold calc_cluster_properties at hp
  rw [calc_loop_eq_calc_cells cells dd cd cluster _ hidx] at hp
  cases hs : calc_cells dd cd (cluster_cells cells cluster)
      { mean := (0, 0), var := (0, 0), totalWeight := 0, offset := (0, 0),
        first_processed := false, phiIndices := [], etaIndices := [] } with
  | none => rw [hs] at hp; cases hp
  | some s =>
    rw [hs] at hp
    obtain ⟨hm, ho⟩ := calc_cells_none_accepted dd cd _ _ s hacc hs
    dsimp only at hp hm ho
    cases h0 : index_span s.phiIndices with
    | none => rw [h0] at hp; cases hp
    | some n0 =>
      cases h1 : index_span s.etaIndices with
      | none => rw [h0, h1] at hp; cases hp
      | some n1 =>
        rw [h0, h1] at hp
        simp only [Option.some.injEq] at hp
        subst hp
        simp [hm, ho]

/-- A valid cluster stays valid when its cells are listed in another order. -/
theorem valid_cluster_perm {cluster1 cluster2 : List Nat} {cells : List Cell}
    {det_descr : List Design} {det_cond : List Conditions} {module_idx : Nat} {cd : Conditions}
    {dd : Design} (hperm : cluster1.Perm cluster2)
    (hv : ValidCluster cluster1 cells det_descr det_cond module_idx cd dd) :
    ValidCluster cluster2 cells det_descr det_cond module_idx cd dd where
  nonempty := fun e => hv.nonempty (by subst e; exact List.perm_nil.mp hperm)
  in_range := fun i hi => hv.in_range i (hperm.mem_iff.mpr hi)
  same_module := fun c hc => hv.same_module c ((cluster_cells_perm cells hperm).mem_iff.mpr hc)
  cond := hv.cond
  design := hv.design
  edges := fun c hc => hv.edges c
    ((accepted_perm cd.threshold (cluster_cells_perm cells hperm)).mem_iff.mpr hc)

/-- Every channel of the list is at most the largest. -/
theorem le_max_channel_of_mem {l : List Nat} {x : Nat} (h : x ∈ l) : x ≤ max_channel l := by
  induction l with
  | nil => cases h
  | cons a l ih =>
    simp only [max_channel]
    rcases List.mem_cons.mp h with e | e
    · subst e; exact le_max_left _ _
    · exact le_trans (ih e) (le_max_right _ _)

/-- A bound of all channels bounds the largest. -/
theorem max_channel_le {l : List Nat} {b : Nat} (h : ∀ x ∈ l, x ≤ b) : max_channel l ≤ b := by
  induction l with
  | nil => exact Nat.zero_le _
  | cons a l ih =>
    simp only [max_channel]
    exact max_le (h a (List.mem_cons_self _ _)) (ih (fun x hx => h x (List.mem_cons_of_mem _ hx)))

/-- Every channel of the list is at least the smallest. -/
theorem min_channel_le_of_mem {l : List Nat} {x : Nat} (h : x ∈ l) : min_channel l ≤ x := by
  induction l with
  | nil => cases h
  | cons a l ih =>
    cases l with
    | nil =>
      simp only [List.mem_singleton] at h
      subst h
      exact le_refl _
    | cons b l =>
      simp only [min_channel]
      rcases List.mem_cons.mp h with e | e
      · subst e; exact min_le_left _ _
      · exact le_trans (min_le_right _ _) (ih e)

/-- A lower bound of all channels of a list that is not empty bounds the
smallest. -/
theorem le_min_channel {l : List Nat} {b : Nat} (hne : l ≠ []) (h : ∀ x ∈ l, b ≤ x) :
    b ≤ min_channel l := by
  induction l with
  | nil => exact absurd rfl hne
  | cons a l ih =>
    cases l with
    | nil => exact h a (List.mem_cons_self _ _)
    | cons c l =>
      simp only [min_channel]
      exact le_min (h a (List.mem_cons_self _ _))
        (ih (List.cons_ne_nil _ _) (fun x hx => h x (List.mem_cons_of_mem _ hx)))

/-- The extent of channel numbers that are exactly the `n` numbers from `a`
on. -/
theorem channel_extent_range (l : List Nat) (a n : Nat) (hn : 0 < n)
    (h : ∀ x, x ∈ l ↔ (a ≤ x ∧ x < a + n)) : channel_extent l = n - 1 := by
  have hmax : max_channel l = a + n - 1 :=
    le_antisymm (max_channel_le (fun x hx => by have := (h x).mp hx; omega))
      (le_max_channel_of_mem ((h _).mpr ⟨by omega, by omega⟩))
  have hne : l ≠ [] := by
    intro e
    have : a ∈ l := (h a).mpr ⟨le_refl _, by omega⟩
    rw [e] at this
    cases this
  have hmin : min_channel l = a :=
    le_antisymm (min_channel_le_of_mem ((h a).mpr ⟨le_refl _, by omega⟩))
      (le_min_channel hne (fun x hx => ((h x).mp hx).1))
  rw [channel_extent, hmax, hmin]
  omega

/-- The channel pairs of a rectangle. -/
theorem mem_rectangle (a0 a1 n0 n1 : Nat) (p : Nat × Nat) :
    p ∈ rectangle a0 a1 n0 n1 ↔
      (a0 ≤ p.1 ∧ p.1 < a0 + n0) ∧ (a1 ≤ p.2 ∧ p.2 < a1 + n1) := by
  obtain ⟨x, y⟩ := p
  simp only [rectangle, List.pair_mem_product, List.mem_range'_1]

/-- The number of cells of a rectangle. -/
theorem length_rectangle (a0 a1 n0 n1 : Nat) : (rectangle a0 a1 n0 n1).length = n0 * n1 := by
  rw [rectangle]
  exact (List.length_product _ _).trans (by simp only [List.length_range'])

/-- The sum of the widths of cells whose bins all have one width. -/
theorem width_sum_uniform (edges : List ℚ) (ch : Cell → Nat) (w : ℚ) (cs : List Cell)
    (h : ∀ c ∈ cs, bin_width edges (ch c) = w) : width_sum edges ch cs = (cs.length : ℚ) * w := by
  induction cs with
  | nil => simp [width_sum]
  | cons c cs ih =>
    have hc := h c (List.mem_cons_self _ _)
    have := ih (fun x hx => h x (List.mem_cons_of_mem _ hx))
    simp only [width_sum, List.map_cons, List.sum_cons, List.length_cons] at this ⊢
    rw [this, hc]
    push_cast
    ring

/-- When every cell is above the threshold, every cell is accepted. -/
theorem accepted_all (thr : ℚ) (cs : List Cell) (h : ∀ c ∈ cs, thr < c.activation) :
    accepted thr cs = cs := by
  rw [accepted, List.filter_eq_self]
  intro c hc
  exact decide_eq_true (h c hc)

/-! ### The claims C21 to C28 -/

/-- Claim C21. On a partition in which the lookups of the loop succeed, the
cells of the module are ordered with channel1 non-decreasing, `f[cid] = cid`,
and the channel1 values of the cells labelled `cid` have no gap, the scan of
`aggregate_cluster`, which leaves the loop at the first cell with
`channel1 > maxChannel1 + 1`, gives the same result as the full scan without
that exit: the same module entry and the same state, with its statistics, its
links and its `cluster_size`. When it returns, every cell labelled `cid` that
is reached before a cell of another module has got the link. -/
theorem aggregate_cluster_early_exit_is_optimisation (seed : ChannelSeed) (cells : List Cell)
    (det_descr : List SiliconModule) (f : List Nat) (start finish cid module_idx : Nat)
    (cell_links : List Nat) (link : Nat) (disjoint_set : List Nat) (cluster_size : Option Nat)
    (hse : start ≤ finish) (hfin : finish < 4294967296) (hps : finish - start < 65536)
    (hch : ∀ c ∈ cells, c.channel1 < 4294967295)
    (hmod : ∀ c0, cells[cid + start]? = some c0 → c0.module_index = module_idx)
    (hroot : f[cid]? = some cid)
    (hlook : ∀ j, cid ≤ j → j + start < finish →
      (cells[j + start]?).isSome = true ∧ (f[j]?).isSome = true)
    (hsorted : ∀ i j ci cj, cid ≤ i → i ≤ j → j + start < finish →
      cells[i + start]? = some ci → cells[j + start]? = some cj →
      ci.module_index = module_idx → cj.module_index = module_idx →
      ci.channel1 ≤ cj.channel1)
    (hgap : ∀ i j ci cj, Labelled cells f start finish cid module_idx i ci →
      Labelled cells f start finish cid module_idx j cj →
      ∀ v, ci.channel1 ≤ v → v ≤ cj.channel1 →
        ∃ k ck, Labelled cells f start finish cid module_idx k ck ∧ ck.channel1 = v) :
    aggregate_scan seed cells det_descr f start finish cid cell_links link disjoint_set
        cluster_size
      = full_scan seed cells det_descr f start finish cid cell_links link disjoint_set
        cluster_size ∧
    ∀ md s, aggregate_scan seed cells det_descr f start finish cid cell_links link
        disjoint_set cluster_size = some (md, s) →
      ∀ i c, Labelled cells f start finish cid module_idx i c →
        (∀ k ck, cid ≤ k → k ≤ i → cells[k + start]? = some ck →
          ck.module_index = module_idx) →
        s.cell_links[i + start]? = some link := by
  have heq := aggregate_scan_eq_full_scan seed cells det_descr f start finish cid module_idx
    cell_links link disjoint_set cluster_size hse hfin hps hch hmod hroot hlook hsorted hgap
  refine ⟨heq, ?_⟩
  intro md s h
  rw [heq] at h
  exact full_scan_links seed cells det_descr f start finish cid module_idx cell_links link
    disjoint_set cluster_size hse hfin hps hmod md s h

/-- On `gap_cells` the loop leaves at the third cell; the full scan returns the
same state, and the second cell has the link 4. -/
theorem aggregate_cluster_early_exit_is_optimisation_witness :
    full_scan saturating_seed gap_cells [demo_module] gap_labels 0 3 0 [0, 0, 0] 4 [7, 7, 7]
      (some 9) = some (demo_module, gap_scan) ∧
    gap_scan.cell_links[1 + 0]? = some 4 :=
  ⟨((aggregate_cluster_early_exit_is_optimisation saturating_seed gap_cells [demo_module]
      gap_labels 0 3 0 0 [0, 0, 0] 4 [7, 7, 7] (some 9) (by decide) (by decide) (by decide)
      gap_channels gap_module rfl gap_lookups gap_sorted gap_free).1).symm.trans
      gap_aggregate_scan,
   (aggregate_cluster_early_exit_is_optimisation saturating_seed gap_cells [demo_module]
      gap_labels 0 3 0 0 [0, 0, 0] 4 [7, 7, 7] (some 9) (by decide) (by decide) (by decide)
      gap_channels gap_module rfl gap_lookups gap_sorted gap_free).2 demo_module gap_scan
      gap_aggregate_scan 1 ⟨0, 1, 10, 0⟩ ⟨by decide, by decide, rfl, rfl, rfl⟩
      (fun k ck _ hk hck => by
        rcases gap_cell_at k ck hck with h | h | h
        · obtain ⟨rfl, -⟩ := h
          simp only [gap_cells, Nat.add_zero, List.getElem?_cons_zero, Option.some.injEq] at hck
          subst hck; rfl
        · obtain ⟨rfl, -⟩ := h
          simp only [gap_cells, Nat.add_zero, List.getElem?_cons_succ,
            List.getElem?_cons_zero, Option.some.injEq] at hck
          subst hck; rfl
        · omega)⟩

/-- Claim C22. A call of `aggregate_cluster` that returns keeps the lengths
of `cell_links` and `disjoint_set` and leaves every entry as it was, except at
the positions `start + j` with `cid ≤ j < end - start` and `f[j] = cid`. Two
calls on the same partition with different `cid` own no position in common, so
at every position at least one of them leaves both containers as they were. -/
theorem aggregate_cluster_frame (seed : ChannelSeed) (sqrt : ℚ → ℚ) (cfg : clustering_config)
    (cells : List Cell) (det_descr : List SiliconModule) (f : List Nat)
    (start finish : Nat) (cell_links disjoint_set : List Nat)
    (hse : start ≤ finish) (hfin : finish < 4294967296) (hps : finish - start < 65536) :
    (∀ (cid : Nat) (out : Measurement) (link : Nat) (cluster_size : Option Nat)
        (r : AggResult),
      aggregate_cluster seed sqrt cfg cells det_descr f start finish cid out cell_links link
        disjoint_set cluster_size = some r →
      r.cell_links.length = cell_links.length ∧
      r.disjoint_set.length = disjoint_set.length ∧
      ∀ p, ¬ OwnedPosition f start finish cid p →
        r.cell_links[p]? = cell_links[p]? ∧ r.disjoint_set[p]? = disjoint_set[p]?) ∧
    (∀ (cid1 cid2 : Nat) (out1 out2 : Measurement) (link1 link2 : Nat)
        (size1 size2 : Option Nat) (r1 r2 : AggResult), cid1 ≠ cid2 →
      aggregate_cluster seed sqrt cfg cells det_descr f start finish cid1 out1 cell_links link1
        disjoint_set size1 = some r1 →
      aggregate_cluster seed sqrt cfg cells det_descr f start finish cid2 out2 cell_links link2
        disjoint_set size2 = some r2 →
      ∀ p, (OwnedPosition f start finish cid1 p → ¬ OwnedPosition f start finish cid2 p) ∧
        ((r1.cell_links[p]? = cell_links[p]? ∧ r1.disjoint_set[p]? = disjoint_set[p]?) ∨
         (r2.cell_links[p]? = cell_links[p]? ∧ r2.disjoint_set[p]? = disjoint_set[p]?))) := by
  have one : ∀ (cid : Nat) (out : Measurement) (link : Nat) (cluster_size : Option Nat)
      (r : AggResult),
      aggregate_cluster seed sqrt cfg cells det_descr f start finish cid out cell_links link
        disjoint_set cluster_size = some r →
      r.cell_links.length = cell_links.length ∧
      r.disjoint_set.length = disjoint_set.length ∧
      ∀ p, ¬ OwnedPosition f start finish cid p →
        r.cell_links[p]? = cell_links[p]? ∧ r.disjoint_set[p]? = disjoint_set[p]? := by
    intro cid out link cluster_size r h
    unfold aggregate_cluster at h
    cases hs : aggregate_scan seed cells det_descr f start finish cid cell_links link
        disjoint_set cluster_size with
    | none => rw [hs] at h; cases h
    | some ms =>
      obtain ⟨md, s⟩ := ms
      rw [hs] at h
      simp only [Option.some.injEq] at h
      subst h
      exact aggregate_scan_frame seed cells det_descr f start finish cid cell_links link
        disjoint_set cluster_size hse hfin hps md s hs
  refine ⟨one, ?_⟩
  intro cid1 cid2 out1 out2 link1 link2 size1 size2 r1 r2 hne h1 h2 p
  refine ⟨owned_position_disjoint f start finish cid1 cid2 p hne, ?_⟩
  by_cases hp : OwnedPosition f start finish cid1 p
  · right
    exact (one cid2 out2 link2 size2 r2 h2).2.2 p
      (owned_position_disjoint f start finish cid1 cid2 p hne hp)
  · left
    exact (one cid1 out1 link1 size1 r1 h1).2.2 p hp

/-- On `gap_cells` the call for the label 0 leaves the third position of both
containers as it was. -/
theorem aggregate_cluster_frame_witness :
    ¬ OwnedPosition gap_labels 0 3 0 2 ∧
    gap_result.cell_links[2]? = [0, 0, 0][2]? ∧
    gap_result.disjoint_set[2]? = [7, 7, 7][2]? :=
  ⟨gap_not_owned,
   ((aggregate_cluster_frame saturating_seed unused_sqrt ⟨.CHANNEL0⟩ gap_cells [demo_module]
      gap_labels 0 3 [0, 0, 0] [7, 7, 7] (by decide) (by decide) (by decide)).1 0
      demo_measurement 4 (some 9) gap_result gap_aggregate).2.2 2 gap_not_owned⟩

/-- Claim C23, evaluated on the code. The configuration `demo_digi` maps
barcode 10 only, and `digitization_config::get` returns null for barcode 99.
With the mapped surface first, `read_json_dd_impl` returns normally and both
modules point at the design of barcode 10: the lookup
`id_to_design_index[barcode]` adds the missing key with the value 0, index 0 is
already among `design_indices`, and the branch that calls `get` is not taken.
With the unmapped surface first the same input raises the error. -/
theorem read_json_dd_impl_defaults_unmapped_surface :
    demo_digi.get 99 = DesignPtr.null ∧
    read_json_dd_impl demo_surfaces demo_digi = .ok demo_read_state ∧
    read_json_dd_impl demo_surfaces.reverse demo_digi
      = .error (.could_not_find_digitization_config 99) :=
  ⟨rfl, rfl, rfl⟩

/-- Claim C24, evaluated on the code. Called with the null pointer that the
declaration gives as the default of `cell_width`, `position_from_cell` faults
at the assignment through the pointer for every cell and design; the cell with
channels (0, 0) of the example design has the midpoint (1/2, 1), which the call
returns only when a `cell_width` is passed. -/
theorem position_from_cell_null_cell_width_faults :
    (∀ (cell : Cell) (module_dd : Design), position_from_cell_ptr cell module_dd none = none) ∧
    position_from_cell ⟨0, 0, 10, 0⟩ demo_design = some ((1 / 2, 1), (1, 2)) ∧
    position_from_cell_ptr ⟨0, 0, 10, 0⟩ demo_design (some (0, 0)) = some ((1 / 2, 1), (1, 2)) ∧
    position_from_cell_ptr ⟨0, 0, 10, 0⟩ demo_design none = none := by
  have h : position_from_cell ⟨0, 0, 10, 0⟩ demo_design = some ((1 / 2, 1), (1, 2)) := by
    norm_num [position_from_cell, demo_design]
  refine ⟨?_, h, ?_, ?_⟩
  · intro cell module_dd
    unfold position_from_cell_ptr
    cases position_from_cell cell module_dd <;> rfl
  · simp only [position_from_cell_ptr, h]
  · simp only [position_from_cell_ptr, h]

/-- Claim C25 as the specification states it fails on the code: with the
threshold -10 the cells of `cancelling_cells` are all accepted, and the running
total weight is 0 after the cells 0 and 1. Listed as 0, 1, 2 the cluster gets
the mean 5/2 on the first axis in the model (the quotient by the zero total is
not finite in the source); listed as 0, 2, 1 it gets 23/10, the weighted
average. The total weight is 5 in both orders. -/
theorem calc_cluster_properties_order_dependent_mean :
    low_conditions.threshold < 0 ∧
    (calc_cluster_properties [0, 1, 2] cancelling_cells demo_design low_conditions
      (0, 0) (0, 0) 0).map (fun p => (p.totalWeight, p.mean)) = some (5, (5 / 2, 1)) ∧
    (calc_cluster_properties [0, 2, 1] cancelling_cells demo_design low_conditions
      (0, 0) (0, 0) 0).map (fun p => (p.totalWeight, p.mean)) = some (5, (23 / 10, 1)) := by
  refine ⟨?_, ?_, ?_⟩
  · norm_num [low_conditions]
  · norm_num [calc_cluster_properties, calc_loop, calc_cell, position_from_cell,
      signal_cell_modelling, index_span, demo_design, low_conditions, cancelling_cells]
  · norm_num [calc_cluster_properties, calc_loop, calc_cell, position_from_cell,
      signal_cell_modelling, index_span, demo_design, low_conditions, cancelling_cells]

/-- Claim C25, amended. For a valid cluster and any reordering of its cell
index list, `calc_cluster_properties` returns for both lists, with the same
`totalWeight` and the same `var`; when the threshold is not negative it
returns the same `mean` too, and `fill_measurement` gives the same outcome for
both lists. -/
theorem calc_cluster_properties_order_independent (measurement : Measurement)
    (cluster1 cluster2 : List Nat) (index : Nat) (cells : List Cell) (det_descr : List Design)
    (det_cond : List Conditions) (module_idx : Nat) (cd : Conditions) (dd : Design)
    (hperm : cluster1.Perm cluster2)
    (hv : ValidCluster cluster1 cells det_descr det_cond module_idx cd dd) :
    ∃ p1 p2, calc_cluster_properties cluster1 cells dd cd (0, 0) (0, 0) 0 = some p1 ∧
      calc_cluster_properties cluster2 cells dd cd (0, 0) (0, 0) 0 = some p2 ∧
      p1.totalWeight = p2.totalWeight ∧ p1.var = p2.var ∧
      (0 ≤ cd.threshold → p1.mean = p2.mean ∧
        fill_measurement measurement cluster1 index cells det_descr det_cond
          = fill_measurement measurement cluster2 index cells det_descr det_cond) := by
  have hv2 := valid_cluster_perm hperm hv
  have hcp := cluster_cells_perm cells hperm
  have hap := accepted_perm cd.threshold hcp
  obtain ⟨p1, hp1, hW1, hv1, hv1', hm1⟩ :=
    calc_cluster_properties_closed cluster1 cells dd cd hv.nonempty hv.in_range hv.edges
  obtain ⟨p2, hp2, hW2, hv2a, hv2', hm2⟩ :=
    calc_cluster_properties_closed cluster2 cells dd cd hv2.nonempty hv2.in_range hv2.edges
  have hW : p1.totalWeight = p2.totalWeight := by rw [hW1, hW2, weight_sum_perm hap]
  have hvar : p1.var = p2.var := by
    apply Prod.ext
    · rw [hv1, hv2a, width_sum_perm _ _ hap, channel_extent_perm (hcp.map _)]
    · rw [hv1', hv2', width_sum_perm _ _ hap, channel_extent_perm (hcp.map _)]
  refine ⟨p1, p2, hp1, hp2, hW, hvar, ?_⟩
  intro hthr
  have hmean : p1.mean = p2.mean := by
    by_cases hacc : accepted cd.threshold (cluster_cells cells cluster1) = []
    · have hacc2 : accepted cd.threshold (cluster_cells cells cluster2) = [] := by
        rw [hacc] at hap
        exact List.nil_perm.mp hap
      rw [calc_cluster_properties_none_accepted cluster1 cells dd cd hv.in_range hacc p1 hp1,
        calc_cluster_properties_none_accepted cluster2 cells dd cd hv2.in_range hacc2 p2 hp2]
    · have hacc2 : accepted cd.threshold (cluster_cells cells cluster2) ≠ [] := by
        intro e
        rw [e] at hap
        exact hacc (List.perm_nil.mp hap)
      obtain ⟨-, a1, b1⟩ := hm1 hthr hacc
      obtain ⟨hpos2, a2, b2⟩ := hm2 hthr hacc2
      rw [moment_sum_perm _ _ hap, ← a2, hW] at a1
      rw [moment_sum_perm _ _ hap, ← b2, hW] at b1
      have hne0 : p2.totalWeight ≠ 0 := ne_of_gt hpos2
      exact Prod.ext (mul_right_cancel₀ hne0 a1) (mul_right_cancel₀ hne0 b1)
  refine ⟨hmean, ?_⟩
  rw [fill_measurement_eq measurement cluster1 index cells det_descr det_cond module_idx cd dd
      hv p1 hp1,
    fill_measurement_eq measurement cluster2 index cells det_descr det_cond module_idx cd dd
      hv2 p2 hp2, hW, hvar, hmean]

/-- The cluster of the example event listed as 0, 1, 2 and as 2, 0, 1. -/
theorem calc_cluster_properties_order_independent_witness :
    ∃ p1 p2, calc_cluster_properties [0, 1, 2] demo_cells demo_design demo_conditions
        (0, 0) (0, 0) 0 = some p1 ∧
      calc_cluster_properties [2, 0, 1] demo_cells demo_design demo_conditions
        (0, 0) (0, 0) 0 = some p2 ∧
      p1.totalWeight = p2.totalWeight ∧ p1.var = p2.var ∧
      (0 ≤ demo_conditions.threshold → p1.mean = p2.mean ∧
        fill_measurement demo_measurement [0, 1, 2] 4 demo_cells [demo_design] [demo_conditions]
          = fill_measurement demo_measurement [2, 0, 1] 4 demo_cells [demo_design]
              [demo_conditions]) :=
  calc_cluster_properties_order_independent demo_measurement [0, 1, 2] [2, 0, 1] 4 demo_cells
    [demo_design] [demo_conditions] 0 demo_conditions demo_design (by decide) demo_valid

/-- Claim C26. For a cluster whose cells are a full rectangle, `n0`
consecutive values of channel0 times `n1` consecutive values of channel1, each
pair once and in any order, all above the threshold, on a design whose bins
have the widths `w0` and `w1`, `calc_cluster_properties` returns
`var = (n1 * w0, n0 * w1)`. -/
theorem calc_cluster_properties_rectangle (cluster : List Nat) (cells : List Cell)
    (dd : Design) (cd : Conditions) (a0 a1 n0 n1 : Nat) (w0 w1 : ℚ)
    (hn0 : 0 < n0) (hn1 : 0 < n1) (hidx : ∀ i ∈ cluster, i < cells.length)
    (hrect : ((cluster_cells cells cluster).map (fun c => (c.channel0, c.channel1))).Perm
      (rectangle a0 a1 n0 n1))
    (hall : ∀ c ∈ cluster_cells cells cluster, cd.threshold < c.activation)
    (hx : a0 + n0 < dd.bin_edges_x.length) (hy : a1 + n1 < dd.bin_edges_y.length)
    (hw0 : ∀ k, k + 1 < dd.bin_edges_x.length → bin_width dd.bin_edges_x k = w0)
    (hw1 : ∀ k, k + 1 < dd.bin_edges_y.length → bin_width dd.bin_edges_y k = w1) :
    ∃ p, calc_cluster_properties cluster cells dd cd (0, 0) (0, 0) 0 = some p ∧
      p.var = ((n1 : ℚ) * w0, (n0 : ℚ) * w1) := by
  have hmem : ∀ c ∈ cluster_cells cells cluster,
      (a0 ≤ c.channel0 ∧ c.channel0 < a0 + n0) ∧ (a1 ≤ c.channel1 ∧ c.channel1 < a1 + n1) := by
    intro c hc
    have : (c.channel0, c.channel1) ∈ rectangle a0 a1 n0 n1 :=
      hrect.mem_iff.mp (List.mem_map_of_mem (fun c => (c.channel0, c.channel1)) hc)
    exact (mem_rectangle a0 a1 n0 n1 _).mp this
  have hlen : (cluster_cells cells cluster).length = n0 * n1 := by
    have := hrect.length_eq
    rw [List.length_map, length_rectangle] at this
    exact this
  have hne : cluster ≠ [] := by
    intro e
    rw [e] at hlen
    have : 0 < n0 * n1 := Nat.mul_pos hn0 hn1
    simp [cluster_cells] at hlen
    omega
  have hacc := accepted_all cd.threshold _ hall
  have hed : ∀ c ∈ accepted cd.threshold (cluster_cells cells cluster),
      c.channel0 + 1 < dd.bin_edges_x.length ∧ c.channel1 + 1 < dd.bin_edges_y.length := by
    rw [hacc]
    intro c hc
    have := hmem c hc
    omega
  obtain ⟨p, hp, -, hv0, hv1, -⟩ := calc_cluster_properties_closed cluster cells dd cd hne hidx hed
  have hch0 : ∀ x, x ∈ (cluster_cells cells cluster).map (fun c => c.channel0) ↔
      (a0 ≤ x ∧ x < a0 + n0) := by
    intro x
    constructor
    · intro hxm
      obtain ⟨c, hc, rfl⟩ := List.mem_map.mp hxm
      exact (hmem c hc).1
    · intro hxr
      have : (x, a1) ∈ rectangle a0 a1 n0 n1 :=
        (mem_rectangle a0 a1 n0 n1 _).mpr ⟨hxr, le_refl _, by omega⟩
      obtain ⟨c, hc, he⟩ := List.mem_map.mp (hrect.mem_iff.mpr this)
      simp only [Prod.mk.injEq] at he
      exact List.mem_map.mpr ⟨c, hc, he.1⟩
  have hch1 : ∀ y, y ∈ (cluster_cells cells cluster).map (fun c => c.channel1) ↔
      (a1 ≤ y ∧ y < a1 + n1) := by
    intro y
    constructor
    · intro hym
      obtain ⟨c, hc, rfl⟩ := List.mem_map.mp hym
      exact (hmem c hc).2
    · intro hyr
      have : (a0, y) ∈ rectangle a0 a1 n0 n1 :=
        (mem_rectangle a0 a1 n0 n1 _).mpr ⟨⟨le_refl _, by omega⟩, hyr⟩
      obtain ⟨c, hc, he⟩ := List.mem_map.mp (hrect.mem_iff.mpr this)
      simp only [Prod.mk.injEq] at he
      exact List.mem_map.mpr ⟨c, hc, he.2⟩
  have hs0 : width_sum dd.bin_edges_x (fun c => c.channel0) (cluster_cells cells cluster)
      = ((n0 * n1 : Nat) : ℚ) * w0 := by
    rw [← hlen]
    exact width_sum_uniform _ _ _ _ (fun c hc => hw0 _ (by have := hmem c hc; omega))
  have hs1 : width_sum dd.bin_edges_y (fun c => c.channel1) (cluster_cells cells cluster)
      = ((n0 * n1 : Nat) : ℚ) * w1 := by
    rw [← hlen]
    exact width_sum_uniform _ _ _ _ (fun c hc => hw1 _ (by have := hmem c hc; omega))
  refine ⟨p, hp, Prod.ext ?_ ?_⟩
  · rw [hv0, hacc, hs0, channel_extent_range _ a0 n0 hn0 hch0]
    have h0 : ((n0 - 1 : Nat) : ℚ) + 1 = (n0 : ℚ) := by
      have : n0 - 1 + 1 = n0 := by omega
      exact_mod_cast this
    have hpos : (n0 : ℚ) ≠ 0 := by exact_mod_cast (Nat.pos_iff_ne_zero.mp hn0)
    rw [h0]
    push_cast
    field_simp
    ring
  · rw [hv1, hacc, hs1, channel_extent_range _ a1 n1 hn1 hch1]
    have h1 : ((n1 - 1 : Nat) : ℚ) + 1 = (n1 : ℚ) := by
      have : n1 - 1 + 1 = n1 := by omega
      exact_mod_cast this
    have hpos : (n1 : ℚ) ≠ 0 := by exact_mod_cast (Nat.pos_iff_ne_zero.mp hn1)
    rw [h1]
    push_cast
    field_simp
    ring

/-- A 3 x 2 rectangle on the example design, with bin widths 1 and 2: the
diameters are 2 * 1 and 3 * 2. -/
theorem calc_cluster_properties_rectangle_witness :
    ∃ p, calc_cluster_properties [0, 1, 2, 3, 4, 5] rectangle_cells demo_design
        demo_conditions (0, 0) (0, 0) 0 = some p ∧
      p.var = (((2 : Nat) : ℚ) * 1, ((3 : Nat) : ℚ) * 2) :=
  calc_cluster_properties_rectangle [0, 1, 2, 3, 4, 5] rectangle_cells demo_design
    demo_conditions 1 2 3 2 1 2 (by decide) (by decide) (by decide) (by decide)
    (by
      intro c hc
      simp only [rectangle_cells, cluster_cells, List.filterMap_cons, List.filterMap_nil] at hc
      simp at hc
      rcases hc with h | h | h | h | h | h <;> subst h <;> norm_num [demo_conditions])
    (by decide) (by decide)
    (by
      intro k hk
      have hk7 : k < 7 := by simp [demo_design] at hk; omega
      interval_cases k <;> norm_num [bin_width, demo_design])
    (by
      intro k hk
      have hk7 : k < 7 := by simp [demo_design] at hk; omega
      interval_cases k <;> norm_num [bin_width, demo_design])

/-- Claim C27. For a configuration whose map has each module once, reading
back the JSON written by `to_json` returns the same designs in the same order
with the same bin edges and the same `id_to_design_index`, each design with the
dimensions derived from its axes (1 when some axis has exactly one value, 2
otherwise). So the result equals the original when every design records the
derived dimensions, and differs from it when some design does not. -/
theorem digitization_config_round_trip (cfg : digitization_config)
    (hmap : (cfg.id_to_design_index.map Prod.fst).Nodup) :
    read_digitization_config (to_json cfg)
      = some { designs := cfg.designs.map with_derived_dimensions,
               id_to_design_index := cfg.id_to_design_index } ∧
    ((∀ d ∈ cfg.designs, d.dimensions = derived_dimensions d) →
      read_digitization_config (to_json cfg) = some cfg) ∧
    ((∃ d ∈ cfg.designs, d.dimensions ≠ derived_dimensions d) →
      read_digitization_config (to_json cfg) ≠ some cfg) := by
  have hread : read_digitization_config (to_json cfg)
      = some { designs := cfg.designs.map with_derived_dimensions,
               id_to_design_index := cfg.id_to_design_index } := by
    obtain ⟨r, h1, h2, h3, h4⟩ := read_digitization_config_exact (to_json cfg)
      cfg.designs.length (to_json_entries_exact cfg.designs)
    rw [h1]
    obtain ⟨rd, rm⟩ := r
    simp only at h2 h3 h4
    have hm : rm = cfg.id_to_design_index := by
      rw [h3]
      simp only [to_json, Option.getD_some]
      have := foldl_map_assign_fresh cfg.id_to_design_index [] (by simpa using hmap)
      simpa using this
    have hd : rd = cfg.designs.map with_derived_dimensions := by
      apply List.ext_getElem?
      intro i
      by_cases hi : i < cfg.designs.length
      · obtain ⟨e, he, hget⟩ := h4 i hi
        simp only [to_json, Option.getD_some] at he
        have he' : last_with_index ((0 + i : Nat) : Int)
            (to_json_entries 0 cfg.designs) = some e := by
          rw [Nat.zero_add]; exact he
        obtain ⟨d, hd, hb⟩ := last_with_index_to_json 0 cfg.designs i e he'
        rw [hget, List.getElem?_map, hd, Option.map_some']
        simp only [entry_config, hb, with_derived_dimensions, derived_dimensions]
      · rw [List.getElem?_eq_none (by omega), List.getElem?_eq_none (by
          rw [List.length_map]; omega)]
    rw [hm, hd]
  refine ⟨hread, ?_, ?_⟩
  · intro hall
    rw [hread]
    obtain ⟨designs, m⟩ := cfg
    simp only [Option.some.injEq, digitization_config.mk.injEq, and_true]
    simp only at hall
    conv_rhs => rw [← List.map_id designs]
    apply List.map_congr_left
    intro d hd
    obtain ⟨be, dim⟩ := d
    have := hall _ hd
    simp only at this
    show ({ bin_edges := be, dimensions := derived_dimensions ⟨be, dim⟩ } :
      module_digitization_config) = ⟨be, dim⟩
    rw [← this]
  · rintro ⟨d, hd, hne⟩ heq
    rw [hread] at heq
    obtain ⟨designs, m⟩ := cfg
    simp only [Option.some.injEq, digitization_config.mk.injEq, and_true] at heq
    simp only at hd
    obtain ⟨j, hj, hjd⟩ := List.getElem_of_mem hd
    have h1 : (designs.map with_derived_dimensions)[j]? = designs[j]? := by rw [heq]
    rw [List.getElem?_map, List.getElem?_eq_getElem hj, hjd, Option.map_some',
      Option.some.injEq] at h1
    apply hne
    have := congrArg module_digitization_config.dimensions h1
    simp only [with_derived_dimensions] at this
    exact this.symm

/-- The configuration `demo_digi` round-trips; `flat_digi`, which records two
dimensions over an axis with one value, does not. -/
theorem digitization_config_round_trip_witness :
    read_digitization_config (to_json demo_digi) = some demo_digi ∧
    read_digitization_config (to_json flat_digi) ≠ some flat_digi :=
  ⟨(digitization_config_round_trip demo_digi (by decide)).2.1 (by decide),
   (digitization_config_round_trip flat_digi (by decide)).2.2
     ⟨{ bin_edges := [[0], [0, 2, 4]], dimensions := 2 }, by decide, by decide⟩⟩

/-- Claim C28. When the design indices of the entries are exactly the numbers
below `n` (in any order, with repeats), `read_digitization_config` returns a
configuration with `n` designs, and `designs[i]` is the configuration of the
last entry with index `i`. When the indices are not exactly the numbers below
any `n`, a store is outside the vector; the single entry with index 5 is such
an input. -/
theorem read_digitization_config_bounds (json : JsonConfig) :
    (∀ n : Nat, ExactRange (json.entries.getD []) n →
      ∃ cfg, read_digitization_config json = some cfg ∧ cfg.designs.length = n ∧
        ∀ i : Nat, i < n →
          ∃ e, last_with_index (i : Int) (json.entries.getD []) = some e ∧
            cfg.designs[i]? = some (entry_config e)) ∧
    ((¬ ∃ n : Nat, ExactRange (json.entries.getD []) n) →
      read_digitization_config json = none) ∧
    read_digitization_config { entries := some [⟨5, none⟩], id_to_design_map := none }
      = none := by
  obtain ⟨hnd, hkeys⟩ := read_design_map_keys (json.entries.getD [])
  refine ⟨?_, ?_, rfl⟩
  · intro n hex
    obtain ⟨cfg, h1, h2, -, h4⟩ := read_digitization_config_exact json n hex
    exact ⟨cfg, h1, h2, h4⟩
  · intro hno
    apply read_digitization_config_none
    by_contra hall
    push_neg at hall
    apply hno
    refine ⟨(read_design_map (json.entries.getD [])).length, fun i => ?_⟩
    rw [← hkeys i]
    constructor
    · intro hi; exact hall i hi
    · intro hi
      have := keys_cover_of_bounded _ hnd
        (fun k hk => by rw [List.length_map]; exact hall k hk) i
        (by rw [List.length_map]; exact hi)
      exact this

/-- Three entries with the indices 1, 0, 1: two designs, the second from the
third entry. -/
theorem read_digitization_config_bounds_witness :
    ∃ cfg, read_digitization_config
        { entries := some [⟨1, none⟩, ⟨0, some [[1]]⟩, ⟨1, some [[1, 2], [3, 4]]⟩],
          id_to_design_map := none } = some cfg ∧
      cfg.designs.length = 2 ∧
      ∀ i : Nat, i < 2 →
        ∃ e, last_with_index (i : Int)
            [⟨1, none⟩, ⟨0, some [[1]]⟩, ⟨1, some [[1, 2], [3, 4]]⟩] = some e ∧
          cfg.designs[i]? = some (entry_config e) :=
  (read_digitization_config_bounds
    { entries := some [⟨1, none⟩, ⟨0, some [[1]]⟩, ⟨1, some [[1, 2], [3, 4]]⟩],
      id_to_design_map := none }).1 2
    (by
      intro i
      simp only [Option.getD_some, List.mem_cons, List.mem_singleton, List.not_mem_nil,
        or_false, exists_eq_or_imp, exists_eq_left]
      constructor
      · rintro (h | h | h) <;> omega
      · intro h
        have : i = 0 ∨ i = 1 := by omega
        rcases this with h' | h'
        · right; left; exact h'.symm
        · left; exact h'.symm)

end traccc
